import Mathlib

/-!
Verification of the tick-indexed deferred-action schedulers in
`src/include/Scheduler.h` (class `Scheduler`) and
`src/include/TimedEventScheduler.h` (class `TimedEventScheduler`).

Embedding notes.
* `std::priority_queue` keyed by the source comparators is refined by a
  sorted list: `push` is ordered insertion (ties go after existing equal
  keys — one concrete refinement of the heap's unspecified equal-key
  order), `top` is the head, `pop` is the tail.  The comparators
  (`ScheduledAction::operator<`, `TimedEventCompare`) are translated
  directly.
* The caller-supplied callables (`action`, `onComplete`,
  `TimedEvent::execute`) are deep-embedded as the inductive languages
  `ActionBody` / `EventBody`, whose constructors cover exactly what the
  source allows a callback to do to the scheduler itself (call
  `schedule`, `cancel`, `clear` on the same instance) and to the external
  world (mutate component data, destroy entities).
* The external `entt::registry` is modelled by `Registry` (a validity
  set plus per-entity damage data, enough for the documented scenarios);
  the external `entt::dispatcher` by the list `dispatched` of enqueued
  `ActionCompletedEvent (id, entity)` payloads.  Both are threaded
  through the scheduler state because `update` receives them by
  reference.
* `update`'s `while` loop is modelled with an explicit fuel argument;
  termination with sufficient fuel is itself one of the verified
  properties.
* `execLog` is ghost instrumentation: it records, in order, the ids
  whose action/event body was invoked.  No callback can read or write
  it; it only makes execution observable to the theorems.
* `ActionID`/`EventID` are `uint32_t` in the source and the counters
  are incremented with `++`, so they wrap modulo 2^32.  The primary
  model idealizes the counters as unbounded naturals — exact for the
  program until 2^32 ids have been allocated — and the invariant
  theorems hold of that idealization.  A separate bit-faithful layer
  (`Scheduler.scheduleWrap`, `Scheduler.runWrap`,
  `TimedEventScheduler.scheduleEventWrap`) models the wrapping
  increment exactly and exhibits the id-reuse defect: the 2^32-th
  allocation returns 0, a reused id re-enters the active set, a
  previously cancelled still-queued item executes, and one id value's
  body runs twice.
-/

/-- Model of the external `entt::registry`: the set of valid (alive)
entities together with per-entity accumulated damage, the component the
documented scenarios mutate. -/
structure Registry where
  alive : List Nat
  damage : List (Nat × Int)
deriving DecidableEq, Repr

/-- Add `amt` damage to entity `e` in an association list. -/
def addDamage : List (Nat × Int) → Nat → Int → List (Nat × Int)
  | [], e, amt => [(e, amt)]
  | (x, v) :: rest, e, amt =>
    if x = e then (x, v + amt) :: rest else (x, v) :: addDamage rest e amt

/-- Apply damage to an entity (the effect of the scenario actions). -/
def Registry.applyDamage (r : Registry) (e : Nat) (amt : Int) : Registry :=
  { r with damage := addDamage r.damage e amt }

/-- Total damage recorded for entity `e`. -/
def Registry.damageOf (r : Registry) (e : Nat) : Int :=
  (r.damage.lookup e).getD 0

/-- Remove entity `e` from the registry (models `registry.destroy`). -/
def Registry.destroy (r : Registry) (e : Nat) : Registry :=
  { r with alive := r.alive.filter (fun x => x != e) }

/-- Deep embedding of the callables a client can install as
`ScheduledAction::action` / `ScheduledAction::onComplete`: they may
mutate registry components, destroy entities, and (capturing the
scheduler, as the source's examples do) call `cancel`, `schedule` or
`clear` on the same scheduler instance. -/
inductive ActionBody where
  | nop : ActionBody
  | dealDamage (amount : Int) : ActionBody
  | destroyEntity (e : Nat) : ActionBody
  | cancelCall (id : Nat) : ActionBody
  | scheduleCall (tick : Int) (entity : Nat) (act : ActionBody) : ActionBody
  | scheduleCallOC (tick : Int) (entity : Nat) (act oc : ActionBody) : ActionBody
  | clearCall : ActionBody
  | seq (b₁ b₂ : ActionBody) : ActionBody
deriving DecidableEq, Repr

/-- `struct ScheduledAction` of Scheduler.h: id, tick, entity, the main
action and the optional completion callback. -/
structure ScheduledAction where
  id : Nat
  tick : Int
  entity : Nat
  action : ActionBody
  onComplete : Option ActionBody
deriving DecidableEq, Repr

/-- `ScheduledAction::operator<` gives min-heap-by-tick behaviour:
`a` is popped strictly before `b` iff `a.tick < b.tick`. -/
def actionBefore (a b : ScheduledAction) : Bool :=
  a.tick < b.tick

/-- Sorted-list refinement of `std::priority_queue<ScheduledAction>::push`:
insert before the first strictly later element (equal ticks keep
insertion order). -/
def pushQueue (a : ScheduledAction) : List ScheduledAction → List ScheduledAction
  | [] => [a]
  | b :: rest => if actionBefore a b then a :: b :: rest else b :: pushQueue a rest

/-- State of `class Scheduler` (fields `queue`, `activeActions`,
`nextActionId` of the source class) together with the modelled external
registry and dispatcher and the ghost execution log. -/
structure Scheduler where
  queue : List ScheduledAction
  activeActions : List Nat
  nextActionId : Nat
  registry : Registry
  dispatched : List (Nat × Nat)
  execLog : List Nat
deriving DecidableEq, Repr

/-- `Scheduler::schedule`: assign the next id, push onto the queue,
insert into the active set, return the id.  The source counter is a
`uint32_t` incremented with `nextActionId++`; here it is idealized as
an unbounded natural, which agrees with the program until 2^32 ids have
been allocated.  `Scheduler.scheduleWrap` below models the wrapping
increment bit-faithfully. -/
def Scheduler.schedule (s : Scheduler) (tick : Int) (entity : Nat)
    (action : ActionBody) (onComplete : Option ActionBody) : Nat × Scheduler :=
  let actionId := s.nextActionId
  (actionId,
    { s with
      queue := pushQueue
        { id := actionId, tick := tick, entity := entity,
          action := action, onComplete := onComplete } s.queue,
      activeActions :=
        if actionId ∈ s.activeActions then s.activeActions
        else actionId :: s.activeActions,
      nextActionId := s.nextActionId + 1 })

/-- `Scheduler::cancel`: if the id is active, erase it from the active
set and return true; otherwise return false and change nothing. -/
def Scheduler.cancel (s : Scheduler) (id : Nat) : Bool × Scheduler :=
  if id ∈ s.activeActions then
    (true, { s with activeActions := s.activeActions.filter (fun i => i != id) })
  else (false, s)

/-- `Scheduler::clear`: swap in an empty queue and clear the active set
(`nextActionId`, registry, dispatcher and ghost log untouched). -/
def Scheduler.clear (s : Scheduler) : Scheduler :=
  { s with queue := [], activeActions := [] }

/-- Interpretation of `ActionBody` as the state transformation the
corresponding C++ callable performs; `id`/`e` are the executing action's
id and entity, as passed to the callbacks by `Scheduler::update`. -/
def runActionBody : ActionBody → Nat → Nat → Scheduler → Scheduler
  | .nop, _, _, s => s
  | .dealDamage amt, _, e, s => { s with registry := s.registry.applyDamage e amt }
  | .destroyEntity x, _, _, s => { s with registry := s.registry.destroy x }
  | .cancelCall i, _, _, s => (s.cancel i).2
  | .scheduleCall t ent act, _, _, s => (s.schedule t ent act none).2
  | .scheduleCallOC t ent act oc, _, _, s => (s.schedule t ent act (some oc)).2
  | .clearCall, _, _, s => s.clear
  | .seq b₁ b₂, i, e, s => runActionBody b₂ i e (runActionBody b₁ i e s)

/-- One iteration of the `while` loop body of `Scheduler::update`: pop
the top action; skip it if cancelled; otherwise, if the entity is valid,
run the action (recording the invocation in the ghost log), enqueue the
`ActionCompletedEvent`, run `onComplete` if present; finally erase the
id from the active set (also in the invalid-entity case, matching the
erase after the validity branch in the source). -/
def Scheduler.updateStep (s : Scheduler) : Scheduler :=
  match s.queue with
  | [] => s
  | a :: rest =>
    let s₀ : Scheduler := { s with queue := rest }
    if a.id ∈ s₀.activeActions then
      if a.entity ∈ s₀.registry.alive then
        let s₁ : Scheduler := { s₀ with execLog := s₀.execLog ++ [a.id] }
        let s₂ : Scheduler := runActionBody a.action a.id a.entity s₁
        let s₃ : Scheduler := { s₂ with dispatched := s₂.dispatched ++ [(a.id, a.entity)] }
        let s₄ : Scheduler :=
          match a.onComplete with
          | none => s₃
          | some oc => runActionBody oc a.id a.entity s₃
        { s₄ with activeActions := s₄.activeActions.filter (fun i => i != a.id) }
      else
        { s₀ with activeActions := s₀.activeActions.filter (fun i => i != a.id) }
    else s₀

/-- `Scheduler::update`: drain the queue while the top action is due
(`tick <= current_tick`).  The C++ `while` loop is modelled with fuel;
C8 establishes that `dueCount` fuel reaches the loop's exit. -/
def Scheduler.update (s : Scheduler) (fuel : Nat) (current_tick : Int) : Scheduler :=
  match fuel with
  | 0 => s
  | f + 1 =>
    match s.queue with
    | [] => s
    | a :: _ =>
      if a.tick ≤ current_tick then s.updateStep.update f current_tick else s

/-- A top-level client operation on a `Scheduler` instance. -/
inductive SchedOp where
  | sched (tick : Int) (entity : Nat) (act : ActionBody) (onComp : Option ActionBody) : SchedOp
  | canc (id : Nat) : SchedOp
  | upd (fuel : Nat) (tick : Int) : SchedOp
  | clr : SchedOp

/-- Apply one client operation. -/
def Scheduler.applyOp (s : Scheduler) : SchedOp → Scheduler
  | .sched t e a oc => (s.schedule t e a oc).2
  | .canc id => (s.cancel id).2
  | .upd fuel t => s.update fuel t
  | .clr => s.clear

/-- Run a sequence of client operations. -/
def Scheduler.run (s : Scheduler) : List SchedOp → Scheduler
  | [] => s
  | op :: ops => (s.applyOp op).run ops

/-- A freshly constructed `Scheduler` (constructor sets
`nextActionId = 1`) over a given external registry. -/
def Scheduler.init (r : Registry) : Scheduler :=
  { queue := [], activeActions := [], nextActionId := 1, registry := r,
    dispatched := [], execLog := [] }

/-- Deep embedding of `TimedEvent::execute` bodies: an executing event
may (via the scheduler back-reference installed by `setScheduler`) call
`cancelEvent`, `scheduleEvent` or `clear` on the same scheduler. -/
inductive EventBody where
  | nop : EventBody
  | cancelCall (id : Nat) : EventBody
  | scheduleCall (tick : Int) (priority : Int) (body : EventBody) : EventBody
  | clearCall : EventBody
  | seq (b₁ b₂ : EventBody) : EventBody
deriving DecidableEq, Repr

/-- A `TimedEvent` (base-class data of TimedEventScheduler.h): id, tick,
optional name, priority, and the `execute` body. -/
structure TimedEvent where
  id : Nat
  tick : Int
  name : String
  priority : Int
  body : EventBody
deriving DecidableEq, Repr

/-- Pop order induced by `TimedEventCompare`: `a` is popped strictly
before `b` iff `a.tick < b.tick`, or the ticks are equal and `a` has the
higher priority. -/
def eventBefore (a b : TimedEvent) : Bool :=
  a.tick < b.tick || (a.tick == b.tick && b.priority < a.priority)

/-- Sorted-list refinement of the event priority queue's `push`:
insert before the first strictly later element (equal keys keep
insertion order). -/
def pushEventQueue (a : TimedEvent) : List TimedEvent → List TimedEvent
  | [] => [a]
  | b :: rest => if eventBefore a b then a :: b :: rest else b :: pushEventQueue a rest

/-- State of `class TimedEventScheduler` (fields `eventQueue`,
`activeEvents`, `nextEventId`) plus the ghost execution log. -/
structure TimedEventScheduler where
  eventQueue : List TimedEvent
  activeEvents : List Nat
  nextEventId : Nat
  execLog : List Nat

/-- `TimedEventScheduler::scheduleEvent`: assign the next id to the
event, install the scheduler back-reference (implicit in this model),
push it onto the queue, insert it in the active set, return the id.
As with `Scheduler.schedule`, the `uint32_t` counter is idealized as an
unbounded natural (exact below 2^32 allocations);
`TimedEventScheduler.scheduleEventWrap` models the wrap. -/
def TimedEventScheduler.scheduleEvent (s : TimedEventScheduler) (tick : Int)
    (priority : Int) (name : String) (body : EventBody) : Nat × TimedEventScheduler :=
  let eventId := s.nextEventId
  (eventId,
    { s with
      eventQueue := pushEventQueue
        { id := eventId, tick := tick, name := name, priority := priority,
          body := body } s.eventQueue,
      activeEvents :=
        if eventId ∈ s.activeEvents then s.activeEvents
        else eventId :: s.activeEvents,
      nextEventId := s.nextEventId + 1 })

/-- `TimedEventScheduler::scheduleFunction`: wrap a callable as a
`FunctionEvent`, which keeps the default priority 0. -/
def TimedEventScheduler.scheduleFunction (s : TimedEventScheduler) (tick : Int)
    (body : EventBody) (name : String) : Nat × TimedEventScheduler :=
  s.scheduleEvent tick 0 name body

/-- `TimedEventScheduler::cancelEvent`: if the id is active, erase it
and return true; otherwise return false and change nothing. -/
def TimedEventScheduler.cancelEvent (s : TimedEventScheduler) (id : Nat) :
    Bool × TimedEventScheduler :=
  if id ∈ s.activeEvents then
    (true, { s with activeEvents := s.activeEvents.filter (fun i => i != id) })
  else (false, s)

/-- `TimedEventScheduler::clear`: swap in an empty queue and clear the
active set (`nextEventId` and ghost log untouched). -/
def TimedEventScheduler.clear (s : TimedEventScheduler) : TimedEventScheduler :=
  { s with eventQueue := [], activeEvents := [] }

/-- Interpretation of `EventBody` as the state transformation the
corresponding `execute` override performs. -/
def runEventBody : EventBody → TimedEventScheduler → TimedEventScheduler
  | .nop, s => s
  | .cancelCall i, s => (s.cancelEvent i).2
  | .scheduleCall t p b, s => (s.scheduleEvent t p "" b).2
  | .clearCall, s => s.clear
  | .seq b₁ b₂, s => runEventBody b₂ (runEventBody b₁ s)

/-- One iteration of the `while` loop body of
`TimedEventScheduler::update`: pop the top event; skip it if cancelled;
otherwise execute it (recording the invocation in the ghost log) and
erase its id from the active set. -/
def TimedEventScheduler.updateStep (s : TimedEventScheduler) : TimedEventScheduler :=
  match s.eventQueue with
  | [] => s
  | ev :: rest =>
    let s₀ : TimedEventScheduler := { s with eventQueue := rest }
    if ev.id ∈ s₀.activeEvents then
      let s₁ : TimedEventScheduler := { s₀ with execLog := s₀.execLog ++ [ev.id] }
      let s₂ : TimedEventScheduler := runEventBody ev.body s₁
      { s₂ with activeEvents := s₂.activeEvents.filter (fun i => i != ev.id) }
    else s₀

/-- `TimedEventScheduler::update`: drain the queue while the top event
is due (`getTick() <= currentTick`), with explicit fuel for the `while`
loop. -/
def TimedEventScheduler.update (s : TimedEventScheduler) (fuel : Nat)
    (currentTick : Int) : TimedEventScheduler :=
  match fuel with
  | 0 => s
  | f + 1 =>
    match s.eventQueue with
    | [] => s
    | ev :: _ =>
      if ev.tick ≤ currentTick then s.updateStep.update f currentTick else s

/-- A top-level client operation on a `TimedEventScheduler` instance. -/
inductive EventOp where
  | sched (tick : Int) (priority : Int) (name : String) (body : EventBody) : EventOp
  | canc (id : Nat) : EventOp
  | upd (fuel : Nat) (tick : Int) : EventOp
  | clr : EventOp

/-- Apply one client operation. -/
def TimedEventScheduler.applyOp (s : TimedEventScheduler) :
    EventOp → TimedEventScheduler
  | .sched t p n b => (s.scheduleEvent t p n b).2
  | .canc id => (s.cancelEvent id).2
  | .upd fuel t => s.update fuel t
  | .clr => s.clear

/-- Run a sequence of client operations. -/
def TimedEventScheduler.run (s : TimedEventScheduler) :
    List EventOp → TimedEventScheduler
  | [] => s
  | op :: ops => (s.applyOp op).run ops

/-- A freshly constructed `TimedEventScheduler` (constructor sets
`nextEventId = 1`). -/
def TimedEventScheduler.init : TimedEventScheduler :=
  { eventQueue := [], activeEvents := [], nextEventId := 1, execLog := [] }

/-! ### Basic facts about the sorted-queue refinement (action scheduler) -/

theorem pushQueue_perm (a : ScheduledAction) (l : List ScheduledAction) :
    List.Perm (pushQueue a l) (a :: l) := by
  induction l with
  | nil => simp [pushQueue]
  | cons b rest ih =>
    simp only [pushQueue]
    by_cases h : actionBefore a b = true
    · simp [h]
    · simp only [h, if_false]
      exact (ih.cons b).trans (List.Perm.swap a b rest)

theorem mem_pushQueue {x a : ScheduledAction} {l : List ScheduledAction} :
    x ∈ pushQueue a l ↔ x = a ∨ x ∈ l := by
  rw [(pushQueue_perm a l).mem_iff]
  simp

theorem pushQueue_sorted {a : ScheduledAction} {l : List ScheduledAction}
    (h : l.Pairwise (fun x y => x.tick ≤ y.tick)) :
    (pushQueue a l).Pairwise (fun x y => x.tick ≤ y.tick) := by
  induction l with
  | nil => simp [pushQueue]
  | cons b rest ih =>
    rcases List.pairwise_cons.mp h with ⟨hb, hrest⟩
    simp only [pushQueue]
    by_cases hab : actionBefore a b = true
    · rw [if_pos hab]
      have hab' : a.tick < b.tick := by
        simpa [actionBefore] using hab
      refine List.pairwise_cons.mpr ⟨?_, h⟩
      intro y hy
      rcases hy with _ | hy
      · exact le_of_lt hab'
      · exact le_trans (le_of_lt hab') (hb _ (by assumption))
    · rw [if_neg hab]
      have hba : b.tick ≤ a.tick := by
        simp only [actionBefore, decide_eq_true_eq] at hab
        omega
      refine List.pairwise_cons.mpr ⟨?_, ih hrest⟩
      intro y hy
      rcases mem_pushQueue.mp hy with rfl | hy
      · exact hba
      · exact hb _ hy

theorem map_id_pushQueue_perm (a : ScheduledAction) (l : List ScheduledAction) :
    List.Perm ((pushQueue a l).map ScheduledAction.id) (a.id :: l.map ScheduledAction.id) :=
  (pushQueue_perm a l).map ScheduledAction.id

/-- Well-formedness of a `Scheduler` state: id counter at least 1, queue
sorted by tick, queue ids distinct, and every id in the queue, active
set or log already allocated (positive and below `nextActionId`). -/
def SchedulerWf (s : Scheduler) : Prop :=
  1 ≤ s.nextActionId ∧
  s.queue.Pairwise (fun x y => x.tick ≤ y.tick) ∧
  (s.queue.map ScheduledAction.id).Nodup ∧
  (∀ a ∈ s.queue, 1 ≤ a.id ∧ a.id < s.nextActionId) ∧
  s.activeActions.Nodup ∧
  (∀ i ∈ s.activeActions, 1 ≤ i ∧ i < s.nextActionId) ∧
  (∀ i ∈ s.execLog, 1 ≤ i ∧ i < s.nextActionId)

/-- Full invariant: well-formed, and the ghost log has distinct entries
disjoint from both the queue's ids and the active set. -/
def SchedulerInv (s : Scheduler) : Prop :=
  SchedulerWf s ∧
  s.execLog.Nodup ∧
  (∀ i ∈ s.execLog, i ∉ s.queue.map ScheduledAction.id) ∧
  (∀ i ∈ s.execLog, i ∉ s.activeActions)

theorem schedule_fst (s : Scheduler) (t : Int) (e : Nat) (b : ActionBody)
    (oc : Option ActionBody) : (s.schedule t e b oc).1 = s.nextActionId := rfl

theorem schedule_queue (s : Scheduler) (t : Int) (e : Nat) (b : ActionBody)
    (oc : Option ActionBody) :
    (s.schedule t e b oc).2.queue =
      pushQueue ⟨s.nextActionId, t, e, b, oc⟩ s.queue := rfl

theorem schedule_active (s : Scheduler) (t : Int) (e : Nat) (b : ActionBody)
    (oc : Option ActionBody) :
    (s.schedule t e b oc).2.activeActions =
      (if s.nextActionId ∈ s.activeActions then s.activeActions
       else s.nextActionId :: s.activeActions) := rfl

theorem schedule_nextId (s : Scheduler) (t : Int) (e : Nat) (b : ActionBody)
    (oc : Option ActionBody) :
    (s.schedule t e b oc).2.nextActionId = s.nextActionId + 1 := rfl

theorem schedule_registry (s : Scheduler) (t : Int) (e : Nat) (b : ActionBody)
    (oc : Option ActionBody) : (s.schedule t e b oc).2.registry = s.registry := rfl

theorem schedule_dispatched (s : Scheduler) (t : Int) (e : Nat) (b : ActionBody)
    (oc : Option ActionBody) : (s.schedule t e b oc).2.dispatched = s.dispatched := rfl

theorem schedule_execLog (s : Scheduler) (t : Int) (e : Nat) (b : ActionBody)
    (oc : Option ActionBody) : (s.schedule t e b oc).2.execLog = s.execLog := rfl

theorem schedule_wf {s : Scheduler} (hs : SchedulerWf s) (t : Int) (e : Nat)
    (b : ActionBody) (oc : Option ActionBody) :
    SchedulerWf (s.schedule t e b oc).2 := by
  obtain ⟨h1, h2, h3, h4, h5, h6, h7⟩ := hs
  refine ⟨?_, ?_, ?_, ?_, ?_, ?_, ?_⟩
  · rw [schedule_nextId]; omega
  · rw [schedule_queue]; exact pushQueue_sorted h2
  · rw [schedule_queue]
    refine ((map_id_pushQueue_perm _ _).nodup_iff).mpr ?_
    refine List.nodup_cons.mpr ⟨?_, h3⟩
    have hr : (⟨s.nextActionId, t, e, b, oc⟩ : ScheduledAction).id = s.nextActionId := rfl
    rw [hr]
    intro hmem
    rcases List.mem_map.mp hmem with ⟨a, ha, hid⟩
    exact absurd hid (by have := (h4 a ha).2; omega)
  · rw [schedule_queue, schedule_nextId]
    have hr : (⟨s.nextActionId, t, e, b, oc⟩ : ScheduledAction).id = s.nextActionId := rfl
    intro a ha
    rcases mem_pushQueue.mp ha with rfl | ha
    · rw [hr]
      exact ⟨h1, by omega⟩
    · have := h4 a ha
      omega
  · rw [schedule_active]
    by_cases hmem : s.nextActionId ∈ s.activeActions
    · rw [if_pos hmem]; exact h5
    · rw [if_neg hmem]
      exact List.nodup_cons.mpr ⟨hmem, h5⟩
  · rw [schedule_active, schedule_nextId]
    intro i hi
    by_cases hmem : s.nextActionId ∈ s.activeActions
    · rw [if_pos hmem] at hi
      have := h6 i hi
      omega
    · rw [if_neg hmem] at hi
      rcases List.mem_cons.mp hi with rfl | hi
      · omega
      · have := h6 i hi
        omega
  · rw [schedule_execLog, schedule_nextId]
    intro i hi
    have := h7 i hi
    omega

theorem cancel_pos {s : Scheduler} {id : Nat} (h : id ∈ s.activeActions) :
    s.cancel id =
      (true, { s with activeActions := s.activeActions.filter (fun i => i != id) }) := by
  rw [Scheduler.cancel, if_pos h]

theorem cancel_neg {s : Scheduler} {id : Nat} (h : id ∉ s.activeActions) :
    s.cancel id = (false, s) := by
  rw [Scheduler.cancel, if_neg h]

theorem cancel_queue (s : Scheduler) (id : Nat) : (s.cancel id).2.queue = s.queue := by
  rw [Scheduler.cancel]; split <;> rfl

theorem cancel_nextId (s : Scheduler) (id : Nat) :
    (s.cancel id).2.nextActionId = s.nextActionId := by
  rw [Scheduler.cancel]; split <;> rfl

theorem cancel_registry (s : Scheduler) (id : Nat) :
    (s.cancel id).2.registry = s.registry := by
  rw [Scheduler.cancel]; split <;> rfl

theorem cancel_dispatched (s : Scheduler) (id : Nat) :
    (s.cancel id).2.dispatched = s.dispatched := by
  rw [Scheduler.cancel]; split <;> rfl

theorem cancel_execLog (s : Scheduler) (id : Nat) :
    (s.cancel id).2.execLog = s.execLog := by
  rw [Scheduler.cancel]; split <;> rfl

theorem cancel_active_subset {s : Scheduler} {id i : Nat}
    (h : i ∈ (s.cancel id).2.activeActions) : i ∈ s.activeActions := by
  rw [Scheduler.cancel] at h
  by_cases hmem : id ∈ s.activeActions
  · rw [if_pos hmem] at h
    exact (List.mem_filter.mp h).1
  · rw [if_neg hmem] at h
    exact h

theorem cancel_self_not_active (s : Scheduler) (id : Nat) :
    id ∉ (s.cancel id).2.activeActions := by
  rw [Scheduler.cancel]
  by_cases hmem : id ∈ s.activeActions
  · rw [if_pos hmem]
    intro h
    have := (List.mem_filter.mp h).2
    simp at this
  · rw [if_neg hmem]
    exact hmem

theorem cancel_wf {s : Scheduler} (hs : SchedulerWf s) (id : Nat) :
    SchedulerWf (s.cancel id).2 := by
  obtain ⟨h1, h2, h3, h4, h5, h6, h7⟩ := hs
  refine ⟨?_, ?_, ?_, ?_, ?_, ?_, ?_⟩ <;>
    rw [Scheduler.cancel] <;> by_cases hmem : id ∈ s.activeActions <;>
      first
        | (rw [if_pos hmem]; try assumption)
        | (rw [if_neg hmem]; try assumption)
  · exact h5.filter _
  · intro i hi
    exact h6 i (List.mem_filter.mp hi).1

theorem clear_queue (s : Scheduler) : s.clear.queue = [] := rfl

theorem clear_active (s : Scheduler) : s.clear.activeActions = [] := rfl

theorem clear_nextId (s : Scheduler) : s.clear.nextActionId = s.nextActionId := rfl

theorem clear_registry (s : Scheduler) : s.clear.registry = s.registry := rfl

theorem clear_dispatched (s : Scheduler) : s.clear.dispatched = s.dispatched := rfl

theorem clear_execLog (s : Scheduler) : s.clear.execLog = s.execLog := rfl

theorem clear_wf {s : Scheduler} (hs : SchedulerWf s) : SchedulerWf s.clear := by
  obtain ⟨h1, _, _, _, _, _, h7⟩ := hs
  exact ⟨h1, by simp [Scheduler.clear], by simp [Scheduler.clear],
    by simp [Scheduler.clear], by simp [Scheduler.clear],
    by simp [Scheduler.clear], h7⟩

/-! ### Callback-body preservation lemmas (action scheduler) -/

theorem runActionBody_execLog (b : ActionBody) (i e : Nat) (s : Scheduler) :
    (runActionBody b i e s).execLog = s.execLog := by
  induction b generalizing s with
  | seq b₁ b₂ ih₁ ih₂ =>
    simp only [runActionBody]
    rw [ih₂, ih₁]
  | _ =>
    simp only [runActionBody, schedule_execLog, cancel_execLog, clear_execLog]

theorem runActionBody_dispatched (b : ActionBody) (i e : Nat) (s : Scheduler) :
    (runActionBody b i e s).dispatched = s.dispatched := by
  induction b generalizing s with
  | seq b₁ b₂ ih₁ ih₂ =>
    simp only [runActionBody]
    rw [ih₂, ih₁]
  | _ =>
    simp only [runActionBody, schedule_dispatched, cancel_dispatched, clear_dispatched]

theorem runActionBody_nextId_le (b : ActionBody) (i e : Nat) (s : Scheduler) :
    s.nextActionId ≤ (runActionBody b i e s).nextActionId := by
  induction b generalizing s with
  | seq b₁ b₂ ih₁ ih₂ =>
    simp only [runActionBody]
    exact le_trans (ih₁ s) (ih₂ (runActionBody b₁ i e s))
  | _ =>
    simp only [runActionBody, schedule_nextId, cancel_nextId, clear_nextId]
    omega

theorem runActionBody_active_sub {b : ActionBody} {i e : Nat} {s : Scheduler} {j : Nat}
    (h : j ∈ (runActionBody b i e s).activeActions) :
    j ∈ s.activeActions ∨ s.nextActionId ≤ j := by
  induction b generalizing s with
  | nop => exact Or.inl h
  | dealDamage amt => exact Or.inl h
  | destroyEntity x => exact Or.inl h
  | cancelCall k =>
    simp only [runActionBody] at h
    exact Or.inl (cancel_active_subset h)
  | scheduleCall t2 ent act =>
    simp only [runActionBody] at h
    rw [schedule_active] at h
    by_cases hmem : s.nextActionId ∈ s.activeActions
    · rw [if_pos hmem] at h
      exact Or.inl h
    · rw [if_neg hmem] at h
      rcases List.mem_cons.mp h with rfl | h
      · exact Or.inr (le_refl _)
      · exact Or.inl h
  | scheduleCallOC t2 ent act oc =>
    simp only [runActionBody] at h
    rw [schedule_active] at h
    by_cases hmem : s.nextActionId ∈ s.activeActions
    · rw [if_pos hmem] at h
      exact Or.inl h
    · rw [if_neg hmem] at h
      rcases List.mem_cons.mp h with rfl | h
      · exact Or.inr (le_refl _)
      · exact Or.inl h
  | clearCall =>
    simp only [runActionBody] at h
    simp [Scheduler.clear] at h
  | seq b₁ b₂ ih₁ ih₂ =>
    simp only [runActionBody] at h
    rcases ih₂ h with h2 | h2
    · exact ih₁ h2
    · exact Or.inr (le_trans (runActionBody_nextId_le b₁ i e s) h2)

theorem runActionBody_queue_sub {b : ActionBody} {i e : Nat} {s : Scheduler}
    {x : ScheduledAction} (h : x ∈ (runActionBody b i e s).queue) :
    x ∈ s.queue ∨ s.nextActionId ≤ x.id := by
  induction b generalizing s with
  | nop => exact Or.inl h
  | dealDamage amt => exact Or.inl h
  | destroyEntity y => exact Or.inl h
  | cancelCall k =>
    simp only [runActionBody] at h
    rw [cancel_queue] at h
    exact Or.inl h
  | scheduleCall t2 ent act =>
    simp only [runActionBody] at h
    rw [schedule_queue] at h
    rcases mem_pushQueue.mp h with rfl | h
    · exact Or.inr (le_refl _)
    · exact Or.inl h
  | scheduleCallOC t2 ent act oc =>
    simp only [runActionBody] at h
    rw [schedule_queue] at h
    rcases mem_pushQueue.mp h with rfl | h
    · exact Or.inr (le_refl _)
    · exact Or.inl h
  | clearCall =>
    simp only [runActionBody] at h
    simp [Scheduler.clear] at h
  | seq b₁ b₂ ih₁ ih₂ =>
    simp only [runActionBody] at h
    rcases ih₂ h with h2 | h2
    · exact ih₁ h2
    · exact Or.inr (le_trans (runActionBody_nextId_le b₁ i e s) h2)

theorem runActionBody_wf {b : ActionBody} {i e : Nat} {s : Scheduler}
    (hs : SchedulerWf s) : SchedulerWf (runActionBody b i e s) := by
  induction b generalizing s with
  | nop => exact hs
  | dealDamage amt =>
    obtain ⟨h1, h2, h3, h4, h5, h6, h7⟩ := hs
    exact ⟨h1, h2, h3, h4, h5, h6, h7⟩
  | destroyEntity x =>
    obtain ⟨h1, h2, h3, h4, h5, h6, h7⟩ := hs
    exact ⟨h1, h2, h3, h4, h5, h6, h7⟩
  | cancelCall j => exact cancel_wf hs j
  | scheduleCall t2 ent act => exact schedule_wf hs t2 ent act none
  | scheduleCallOC t2 ent act oc => exact schedule_wf hs t2 ent act (some oc)
  | clearCall => exact clear_wf hs
  | seq b₁ b₂ ih₁ ih₂ => exact ih₂ (ih₁ hs)

theorem runActionBody_track {b : ActionBody} {i e : Nat} {s : Scheduler}
    {x : ScheduledAction} (hq : x ∈ s.queue) (hlt : x.id < s.nextActionId) :
    x ∈ (runActionBody b i e s).queue ∨ x.id ∉ (runActionBody b i e s).activeActions := by
  induction b generalizing s with
  | nop => exact Or.inl hq
  | dealDamage amt => exact Or.inl hq
  | destroyEntity y => exact Or.inl hq
  | cancelCall j =>
    simp only [runActionBody]
    rw [cancel_queue]
    exact Or.inl hq
  | scheduleCall t2 ent act =>
    simp only [runActionBody]
    rw [schedule_queue]
    exact Or.inl (mem_pushQueue.mpr (Or.inr hq))
  | scheduleCallOC t2 ent act oc =>
    simp only [runActionBody]
    rw [schedule_queue]
    exact Or.inl (mem_pushQueue.mpr (Or.inr hq))
  | clearCall =>
    refine Or.inr ?_
    simp only [runActionBody]
    simp [Scheduler.clear]
  | seq b₁ b₂ ih₁ ih₂ =>
    simp only [runActionBody]
    rcases ih₁ hq hlt with h1 | h1
    · exact ih₂ h1 (lt_of_lt_of_le hlt (runActionBody_nextId_le b₁ i e s))
    · refine Or.inr ?_
      intro hmem
      rcases runActionBody_active_sub hmem with h2 | h2
      · exact h1 h2
      · have := runActionBody_nextId_le b₁ i e s
        omega

/-! ### Shape lemmas for one `update` loop iteration (action scheduler) -/

theorem updateStep_nil {s : Scheduler} (h : s.queue = []) : s.updateStep = s := by
  obtain ⟨q, act, nid, reg, disp, log⟩ := s
  change q = [] at h
  subst h
  rfl

theorem updateStep_skip {s : Scheduler} {a : ScheduledAction} {rest : List ScheduledAction}
    (h : s.queue = a :: rest) (hact : a.id ∉ s.activeActions) :
    s.updateStep = { s with queue := rest } := by
  obtain ⟨q, act, nid, reg, disp, log⟩ := s
  change q = a :: rest at h
  change a.id ∉ act at hact
  subst h
  simp only [Scheduler.updateStep]
  rw [if_neg hact]

theorem updateStep_invalid {s : Scheduler} {a : ScheduledAction} {rest : List ScheduledAction}
    (h : s.queue = a :: rest) (hact : a.id ∈ s.activeActions)
    (hval : a.entity ∉ s.registry.alive) :
    s.updateStep =
      { s with queue := rest,
               activeActions := s.activeActions.filter (fun i => i != a.id) } := by
  obtain ⟨q, act, nid, reg, disp, log⟩ := s
  change q = a :: rest at h
  change a.id ∈ act at hact
  change a.entity ∉ reg.alive at hval
  subst h
  simp only [Scheduler.updateStep]
  rw [if_pos hact, if_neg hval]

/-- The executed-case result of one loop iteration, as a standalone
abbreviation of the states `s₁`–`s₄` threaded by `updateStep`. -/
def execResult (s : Scheduler) (a : ScheduledAction) (rest : List ScheduledAction) :
    Scheduler :=
  let s₁ : Scheduler := { s with queue := rest, execLog := s.execLog ++ [a.id] }
  let s₂ : Scheduler := runActionBody a.action a.id a.entity s₁
  let s₃ : Scheduler := { s₂ with dispatched := s₂.dispatched ++ [(a.id, a.entity)] }
  let s₄ : Scheduler :=
    match a.onComplete with
    | none => s₃
    | some oc => runActionBody oc a.id a.entity s₃
  { s₄ with activeActions := s₄.activeActions.filter (fun i => i != a.id) }

theorem updateStep_exec {s : Scheduler} {a : ScheduledAction} {rest : List ScheduledAction}
    (h : s.queue = a :: rest) (hact : a.id ∈ s.activeActions)
    (hval : a.entity ∈ s.registry.alive) :
    s.updateStep = execResult s a rest := by
  obtain ⟨q, act, nid, reg, disp, log⟩ := s
  change q = a :: rest at h
  change a.id ∈ act at hact
  change a.entity ∈ reg.alive at hval
  subst h
  simp only [Scheduler.updateStep]
  rw [if_pos hact, if_pos hval]
  rfl

/-- Well-formedness only looks at queue, active set, id counter and log;
transport it along component equalities. -/
theorem wf_congr {s s₂ : Scheduler} (h : SchedulerWf s) (hq : s₂.queue = s.queue)
    (ha : s₂.activeActions = s.activeActions) (hn : s₂.nextActionId = s.nextActionId)
    (hl : s₂.execLog = s.execLog) : SchedulerWf s₂ := by
  obtain ⟨h1, h2, h3, h4, h5, h6, h7⟩ := h
  rw [SchedulerWf, hq, ha, hn, hl]
  exact ⟨h1, h2, h3, h4, h5, h6, h7⟩

theorem execResult_execLog (s : Scheduler) (a : ScheduledAction)
    (rest : List ScheduledAction) :
    (execResult s a rest).execLog = s.execLog ++ [a.id] := by
  show (match a.onComplete with
    | none => _
    | some oc => _ : Scheduler).execLog = _
  cases a.onComplete with
  | none =>
    show (({ runActionBody a.action a.id a.entity
      { s with queue := rest, execLog := s.execLog ++ [a.id] } with
        dispatched := _ } : Scheduler)).execLog = _
    rw [runActionBody_execLog]
  | some oc =>
    show (runActionBody oc a.id a.entity _).execLog = _
    rw [runActionBody_execLog]
    show (({ runActionBody a.action a.id a.entity
      { s with queue := rest, execLog := s.execLog ++ [a.id] } with
        dispatched := _ } : Scheduler)).execLog = _
    rw [runActionBody_execLog]

theorem mk_queue (q : List ScheduledAction) (act : List Nat) (nid : Nat)
    (reg : Registry) (disp : List (Nat × Nat)) (log : List Nat) :
    (Scheduler.mk q act nid reg disp log).queue = q := rfl

theorem mk_activeActions (q : List ScheduledAction) (act : List Nat) (nid : Nat)
    (reg : Registry) (disp : List (Nat × Nat)) (log : List Nat) :
    (Scheduler.mk q act nid reg disp log).activeActions = act := rfl

theorem mk_nextActionId (q : List ScheduledAction) (act : List Nat) (nid : Nat)
    (reg : Registry) (disp : List (Nat × Nat)) (log : List Nat) :
    (Scheduler.mk q act nid reg disp log).nextActionId = nid := rfl

theorem mk_registry (q : List ScheduledAction) (act : List Nat) (nid : Nat)
    (reg : Registry) (disp : List (Nat × Nat)) (log : List Nat) :
    (Scheduler.mk q act nid reg disp log).registry = reg := rfl

theorem mk_dispatched (q : List ScheduledAction) (act : List Nat) (nid : Nat)
    (reg : Registry) (disp : List (Nat × Nat)) (log : List Nat) :
    (Scheduler.mk q act nid reg disp log).dispatched = disp := rfl

theorem mk_execLog (q : List ScheduledAction) (act : List Nat) (nid : Nat)
    (reg : Registry) (disp : List (Nat × Nat)) (log : List Nat) :
    (Scheduler.mk q act nid reg disp log).execLog = log := rfl

attribute [simp] mk_queue mk_activeActions mk_nextActionId mk_registry
  mk_dispatched mk_execLog

theorem execResult_nextId_le (s : Scheduler) (a : ScheduledAction)
    (rest : List ScheduledAction) :
    s.nextActionId ≤ (execResult s a rest).nextActionId := by
  cases hoc : a.onComplete with
  | none =>
    simp only [execResult, hoc, mk_nextActionId]
    calc s.nextActionId
        = ({ s with queue := rest, execLog := s.execLog ++ [a.id] } :
            Scheduler).nextActionId := rfl
      _ ≤ _ := runActionBody_nextId_le _ _ _ _
  | some oc =>
    simp only [execResult, hoc, mk_nextActionId]
    calc s.nextActionId
        = ({ s with queue := rest, execLog := s.execLog ++ [a.id] } :
            Scheduler).nextActionId := rfl
      _ ≤ (runActionBody a.action a.id a.entity
            { s with queue := rest, execLog := s.execLog ++ [a.id] }).nextActionId :=
          runActionBody_nextId_le _ _ _ _
      _ = (({ runActionBody a.action a.id a.entity
            { s with queue := rest, execLog := s.execLog ++ [a.id] } with
            dispatched := (runActionBody a.action a.id a.entity
              { s with queue := rest, execLog := s.execLog ++ [a.id] }).dispatched ++
              [(a.id, a.entity)] } : Scheduler)).nextActionId := rfl
      _ ≤ _ := runActionBody_nextId_le oc a.id a.entity _

theorem execResult_active_sub {s : Scheduler} {a : ScheduledAction}
    {rest : List ScheduledAction} {j : Nat}
    (h : j ∈ (execResult s a rest).activeActions) :
    j ∈ s.activeActions ∨ s.nextActionId ≤ j := by
  cases hoc : a.onComplete with
  | none =>
    simp only [execResult, hoc, mk_activeActions] at h
    have h1 := (List.mem_filter.mp h).1
    rcases runActionBody_active_sub h1 with h2 | h2
    · exact Or.inl h2
    · exact Or.inr h2
  | some oc =>
    simp only [execResult, hoc, mk_activeActions] at h
    have h1 := (List.mem_filter.mp h).1
    have h1b : j ∈ (runActionBody oc a.id a.entity
        { runActionBody a.action a.id a.entity
            { s with queue := rest, execLog := s.execLog ++ [a.id] } with
          dispatched := (runActionBody a.action a.id a.entity
            { s with queue := rest, execLog := s.execLog ++ [a.id] }).dispatched ++
            [(a.id, a.entity)] }).activeActions := h1
    rcases runActionBody_active_sub h1b with h2 | h2
    · rcases runActionBody_active_sub (show j ∈ (runActionBody a.action a.id a.entity
        { s with queue := rest, execLog := s.execLog ++ [a.id] }).activeActions
          from h2) with h3 | h3
      · exact Or.inl h3
      · exact Or.inr h3
    · refine Or.inr (le_trans ?_ (le_trans (le_of_eq rfl) h2))
      calc s.nextActionId
          = ({ s with queue := rest, execLog := s.execLog ++ [a.id] } :
              Scheduler).nextActionId := rfl
        _ ≤ (runActionBody a.action a.id a.entity
              { s with queue := rest, execLog := s.execLog ++ [a.id] }).nextActionId :=
            runActionBody_nextId_le _ _ _ _

theorem execResult_queue_sub {s : Scheduler} {a : ScheduledAction}
    {rest : List ScheduledAction} {x : ScheduledAction}
    (h : x ∈ (execResult s a rest).queue) :
    x ∈ rest ∨ s.nextActionId ≤ x.id := by
  cases hoc : a.onComplete with
  | none =>
    simp only [execResult, hoc, mk_queue] at h
    rcases runActionBody_queue_sub h with h2 | h2
    · exact Or.inl h2
    · exact Or.inr h2
  | some oc =>
    simp only [execResult, hoc, mk_queue] at h
    rcases runActionBody_queue_sub h with h2 | h2
    · rcases runActionBody_queue_sub (show x ∈ (runActionBody a.action a.id a.entity
        { s with queue := rest, execLog := s.execLog ++ [a.id] }).queue from h2)
        with h3 | h3
      · exact Or.inl h3
      · exact Or.inr h3
    · refine Or.inr (le_trans ?_ h2)
      calc s.nextActionId
          = ({ s with queue := rest, execLog := s.execLog ++ [a.id] } :
              Scheduler).nextActionId := rfl
        _ ≤ (runActionBody a.action a.id a.entity
              { s with queue := rest, execLog := s.execLog ++ [a.id] }).nextActionId :=
            runActionBody_nextId_le _ _ _ _
        _ = _ := rfl

theorem execResult_self_not_active (s : Scheduler) (a : ScheduledAction)
    (rest : List ScheduledAction) :
    a.id ∉ (execResult s a rest).activeActions := by
  intro h
  cases hoc : a.onComplete with
  | none =>
    simp only [execResult, hoc, mk_activeActions] at h
    have := (List.mem_filter.mp h).2
    simp at this
  | some oc =>
    simp only [execResult, hoc, mk_activeActions] at h
    have := (List.mem_filter.mp h).2
    simp at this

theorem execResult_track {s : Scheduler} {a : ScheduledAction}
    {rest : List ScheduledAction} {x : ScheduledAction}
    (hq : x ∈ rest) (hlt : x.id < s.nextActionId) :
    x ∈ (execResult s a rest).queue ∨ x.id ∉ (execResult s a rest).activeActions := by
  cases hoc : a.onComplete with
  | none =>
    simp only [execResult, hoc, mk_queue, mk_activeActions]
    have h1 : x ∈ ({ s with queue := rest, execLog := s.execLog ++ [a.id] } :
        Scheduler).queue := hq
    have hlt1 : x.id < ({ s with queue := rest, execLog := s.execLog ++ [a.id] } :
        Scheduler).nextActionId := hlt
    rcases runActionBody_track (b := a.action) (i := a.id) (e := a.entity) h1 hlt1
      with h2 | h2
    · exact Or.inl h2
    · refine Or.inr ?_
      intro hmem
      exact h2 (List.mem_filter.mp hmem).1
  | some oc =>
    simp only [execResult, hoc, mk_queue, mk_activeActions]
    have h1 : x ∈ ({ s with queue := rest, execLog := s.execLog ++ [a.id] } :
        Scheduler).queue := hq
    have hlt1 : x.id < ({ s with queue := rest, execLog := s.execLog ++ [a.id] } :
        Scheduler).nextActionId := hlt
    rcases runActionBody_track (b := a.action) (i := a.id) (e := a.entity) h1 hlt1
      with h2 | h2
    · have h2b : x ∈ (({ runActionBody a.action a.id a.entity
          { s with queue := rest, execLog := s.execLog ++ [a.id] } with
          dispatched := (runActionBody a.action a.id a.entity
            { s with queue := rest, execLog := s.execLog ++ [a.id] }).dispatched ++
            [(a.id, a.entity)] } : Scheduler)).queue := h2
      have hlt2 : x.id < (({ runActionBody a.action a.id a.entity
          { s with queue := rest, execLog := s.execLog ++ [a.id] } with
          dispatched := (runActionBody a.action a.id a.entity
            { s with queue := rest, execLog := s.execLog ++ [a.id] }).dispatched ++
            [(a.id, a.entity)] } : Scheduler)).nextActionId := by
        have := runActionBody_nextId_le a.action a.id a.entity
          ({ s with queue := rest, execLog := s.execLog ++ [a.id] } : Scheduler)
        have he : (({ runActionBody a.action a.id a.entity
          { s with queue := rest, execLog := s.execLog ++ [a.id] } with
          dispatched := (runActionBody a.action a.id a.entity
            { s with queue := rest, execLog := s.execLog ++ [a.id] }).dispatched ++
            [(a.id, a.entity)] } : Scheduler)).nextActionId =
            (runActionBody a.action a.id a.entity
              { s with queue := rest, execLog := s.execLog ++ [a.id] }).nextActionId := rfl
        rw [he]
        omega
      rcases runActionBody_track (b := oc) (i := a.id) (e := a.entity) h2b hlt2
        with h3 | h3
      · exact Or.inl h3
      · refine Or.inr ?_
        intro hmem
        exact h3 (List.mem_filter.mp hmem).1
    · refine Or.inr ?_
      intro hmem
      have h4 := (List.mem_filter.mp hmem).1
      rcases runActionBody_active_sub h4 with h5 | h5
      · exact h2 h5
      · have h6 := runActionBody_nextId_le a.action a.id a.entity
          ({ s with queue := rest, execLog := s.execLog ++ [a.id] } : Scheduler)
        have he : (({ runActionBody a.action a.id a.entity
          { s with queue := rest, execLog := s.execLog ++ [a.id] } with
          dispatched := (runActionBody a.action a.id a.entity
            { s with queue := rest, execLog := s.execLog ++ [a.id] }).dispatched ++
            [(a.id, a.entity)] } : Scheduler)).nextActionId =
            (runActionBody a.action a.id a.entity
              { s with queue := rest, execLog := s.execLog ++ [a.id] }).nextActionId := rfl
        rw [he] at h5
        have he2 : ({ s with queue := rest, execLog := s.execLog ++ [a.id] } :
            Scheduler).nextActionId = s.nextActionId := rfl
        rw [he2] at h6
        omega

theorem wf_filter_active {s : Scheduler} (hs : SchedulerWf s) (p : Nat → Bool) :
    SchedulerWf { s with activeActions := s.activeActions.filter p } := by
  obtain ⟨h1, h2, h3, h4, h5, h6, h7⟩ := hs
  refine ⟨h1, h2, h3, h4, h5.filter p, ?_, h7⟩
  intro i hi
  exact h6 i (List.mem_filter.mp hi).1

theorem execResult_wf {s : Scheduler} {a : ScheduledAction} {rest : List ScheduledAction}
    (hs : SchedulerWf s) (h : s.queue = a :: rest) : SchedulerWf (execResult s a rest) := by
  obtain ⟨h1, h2, h3, h4, h5, h6, h7⟩ := hs
  rw [h] at h2 h3 h4
  have hs₁ : SchedulerWf { s with queue := rest, execLog := s.execLog ++ [a.id] } := by
    refine ⟨h1, ?_, ?_, ?_, h5, h6, ?_⟩
    · exact (List.pairwise_cons.mp h2).2
    · simpa using (List.nodup_cons.mp (by simpa using h3)).2
    · intro x hx
      exact h4 x (List.mem_cons_of_mem _ hx)
    · intro i hi
      rcases List.mem_append.mp hi with hi | hi
      · exact h7 i hi
      · rcases List.mem_singleton.mp hi with rfl
        exact h4 a (List.mem_cons_self _ _)
  have hs₂ := runActionBody_wf (b := a.action) (i := a.id) (e := a.entity) hs₁
  have hs₃ : SchedulerWf
      ({ runActionBody a.action a.id a.entity
           { s with queue := rest, execLog := s.execLog ++ [a.id] } with
         dispatched := (runActionBody a.action a.id a.entity
           { s with queue := rest, execLog := s.execLog ++ [a.id] }).dispatched ++
           [(a.id, a.entity)] } : Scheduler) :=
    wf_congr hs₂ rfl rfl rfl rfl
  cases hoc : a.onComplete with
  | none =>
    simp only [execResult, hoc]
    exact wf_filter_active hs₃ _
  | some oc =>
    simp only [execResult, hoc]
    exact wf_filter_active (runActionBody_wf hs₃) _

theorem updateStep_wf {s : Scheduler} (hs : SchedulerWf s) : SchedulerWf s.updateStep := by
  cases hq : s.queue with
  | nil => rw [updateStep_nil hq]; exact hs
  | cons a rest =>
    by_cases hact : a.id ∈ s.activeActions
    · by_cases hval : a.entity ∈ s.registry.alive
      · rw [updateStep_exec hq hact hval]
        exact execResult_wf hs hq
      · rw [updateStep_invalid hq hact hval]
        obtain ⟨h1, h2, h3, h4, h5, h6, h7⟩ := hs
        rw [hq] at h2 h3 h4
        refine ⟨h1, (List.pairwise_cons.mp h2).2, ?_, ?_, h5.filter _, ?_, h7⟩
        · simpa using (List.nodup_cons.mp (by simpa using h3)).2
        · intro x hx
          exact h4 x (List.mem_cons_of_mem _ hx)
        · intro i hi
          exact h6 i (List.mem_filter.mp hi).1
    · rw [updateStep_skip hq hact]
      obtain ⟨h1, h2, h3, h4, h5, h6, h7⟩ := hs
      rw [hq] at h2 h3 h4
      refine ⟨h1, (List.pairwise_cons.mp h2).2, ?_, ?_, h5, h6, h7⟩
      · simpa using (List.nodup_cons.mp (by simpa using h3)).2
      · intro x hx
        exact h4 x (List.mem_cons_of_mem _ hx)

theorem updateStep_nextId_le (s : Scheduler) : s.nextActionId ≤ s.updateStep.nextActionId := by
  cases hq : s.queue with
  | nil => rw [updateStep_nil hq]
  | cons a rest =>
    by_cases hact : a.id ∈ s.activeActions
    · by_cases hval : a.entity ∈ s.registry.alive
      · rw [updateStep_exec hq hact hval]
        exact execResult_nextId_le s a rest
      · rw [updateStep_invalid hq hact hval]
    · rw [updateStep_skip hq hact]

theorem updateStep_active_sub {s : Scheduler} {j : Nat}
    (h : j ∈ s.updateStep.activeActions) :
    j ∈ s.activeActions ∨ s.nextActionId ≤ j := by
  cases hq : s.queue with
  | nil => rw [updateStep_nil hq] at h; exact Or.inl h
  | cons a rest =>
    by_cases hact : a.id ∈ s.activeActions
    · by_cases hval : a.entity ∈ s.registry.alive
      · rw [updateStep_exec hq hact hval] at h
        exact execResult_active_sub h
      · rw [updateStep_invalid hq hact hval] at h
        exact Or.inl (List.mem_filter.mp h).1
    · rw [updateStep_skip hq hact] at h
      exact Or.inl h

theorem updateStep_queue_sub {s : Scheduler} {x : ScheduledAction}
    (h : x ∈ s.updateStep.queue) : x ∈ s.queue ∨ s.nextActionId ≤ x.id := by
  cases hq : s.queue with
  | nil =>
    rw [updateStep_nil hq, hq] at h
    exact Or.inl h
  | cons a rest =>
    by_cases hact : a.id ∈ s.activeActions
    · by_cases hval : a.entity ∈ s.registry.alive
      · rw [updateStep_exec hq hact hval] at h
        rcases execResult_queue_sub h with h2 | h2
        · exact Or.inl (List.mem_cons_of_mem _ h2)
        · exact Or.inr h2
      · rw [updateStep_invalid hq hact hval] at h
        exact Or.inl (List.mem_cons_of_mem _ h)
    · rw [updateStep_skip hq hact] at h
      exact Or.inl (List.mem_cons_of_mem _ h)

theorem updateStep_execLog_shape (s : Scheduler) :
    s.updateStep.execLog = s.execLog ∨
      ∃ a rest, s.queue = a :: rest ∧ a.id ∈ s.activeActions ∧
        a.entity ∈ s.registry.alive ∧ s.updateStep.execLog = s.execLog ++ [a.id] := by
  cases hq : s.queue with
  | nil => rw [updateStep_nil hq]; exact Or.inl rfl
  | cons a rest =>
    by_cases hact : a.id ∈ s.activeActions
    · by_cases hval : a.entity ∈ s.registry.alive
      · refine Or.inr ⟨a, rest, rfl, hact, hval, ?_⟩
        rw [updateStep_exec hq hact hval]
        exact execResult_execLog s a rest
      · rw [updateStep_invalid hq hact hval]
        exact Or.inl rfl
    · rw [updateStep_skip hq hact]
      exact Or.inl rfl

/-! ### Ids that can no longer execute -/

/-- The id has been allocated but is not in the active set.  Since
`update` only executes ids it finds in the active set, and only fresh
ids are ever added to it, such an id stays inactive forever. -/
def Inactive (id : Nat) (s : Scheduler) : Prop :=
  id < s.nextActionId ∧ id ∉ s.activeActions

/-- The id has been allocated, is not active, and its body has never
run: it is permanently resolved without execution (cancelled, cleared,
or discarded by the validity gate). -/
def Retired (id : Nat) (s : Scheduler) : Prop :=
  id < s.nextActionId ∧ id ∉ s.activeActions ∧ id ∉ s.execLog

theorem runActionBody_inactive {id : Nat} {s : Scheduler} (h : Inactive id s)
    (b : ActionBody) (i e : Nat) : Inactive id (runActionBody b i e s) := by
  obtain ⟨h1, h2⟩ := h
  refine ⟨lt_of_lt_of_le h1 (runActionBody_nextId_le b i e s), ?_⟩
  intro hmem
  rcases runActionBody_active_sub hmem with h3 | h3
  · exact h2 h3
  · omega

theorem runActionBody_retired {id : Nat} {s : Scheduler} (h : Retired id s)
    (b : ActionBody) (i e : Nat) : Retired id (runActionBody b i e s) := by
  obtain ⟨h1, h2, h3⟩ := h
  have h4 := runActionBody_inactive ⟨h1, h2⟩ b i e
  refine ⟨h4.1, h4.2, ?_⟩
  rw [runActionBody_execLog]
  exact h3

theorem updateStep_inactive {id : Nat} {s : Scheduler} (h : Inactive id s) :
    Inactive id s.updateStep := by
  obtain ⟨h1, h2⟩ := h
  refine ⟨lt_of_lt_of_le h1 (updateStep_nextId_le s), ?_⟩
  intro hmem
  rcases updateStep_active_sub hmem with h3 | h3
  · exact h2 h3
  · omega

theorem updateStep_retired {id : Nat} {s : Scheduler} (h : Retired id s) :
    Retired id s.updateStep := by
  obtain ⟨h1, h2, h3⟩ := h
  have h4 := @updateStep_inactive id s ⟨h1, h2⟩
  refine ⟨h4.1, h4.2, ?_⟩
  rcases updateStep_execLog_shape s with he | ⟨a, rest, hq, hact, _, he⟩
  · rw [he]; exact h3
  · rw [he]
    intro hmem
    rcases List.mem_append.mp hmem with hmem | hmem
    · exact h3 hmem
    · rcases List.mem_singleton.mp hmem with rfl
      exact h2 hact

/-! ### Shape lemmas for the `update` loop (action scheduler) -/

theorem update_zero (s : Scheduler) (t : Int) : s.update 0 t = s := rfl

theorem update_succ_nil {s : Scheduler} (f : Nat) (t : Int) (h : s.queue = []) :
    s.update (f + 1) t = s := by
  obtain ⟨q, act, nid, reg, disp, log⟩ := s
  change q = [] at h
  subst h
  rfl

theorem update_succ_due {s : Scheduler} {a : ScheduledAction} {q : List ScheduledAction}
    (f : Nat) (t : Int) (h : s.queue = a :: q) (hdue : a.tick ≤ t) :
    s.update (f + 1) t = s.updateStep.update f t := by
  obtain ⟨q0, act, nid, reg, disp, log⟩ := s
  change q0 = a :: q at h
  subst h
  show (if a.tick ≤ t then _ else _) = _
  rw [if_pos hdue]

theorem update_succ_not_due {s : Scheduler} {a : ScheduledAction}
    {q : List ScheduledAction} (f : Nat) (t : Int) (h : s.queue = a :: q)
    (hdue : ¬ a.tick ≤ t) : s.update (f + 1) t = s := by
  obtain ⟨q0, act, nid, reg, disp, log⟩ := s
  change q0 = a :: q at h
  subst h
  show (if a.tick ≤ t then _ else _) = _
  rw [if_neg hdue]

theorem update_wf {s : Scheduler} (hs : SchedulerWf s) (fuel : Nat) (t : Int) :
    SchedulerWf (s.update fuel t) := by
  induction fuel generalizing s with
  | zero => exact hs
  | succ f ih =>
    cases hq : s.queue with
    | nil => rw [update_succ_nil f t hq]; exact hs
    | cons a q =>
      by_cases hdue : a.tick ≤ t
      · rw [update_succ_due f t hq hdue]
        exact ih (updateStep_wf hs)
      · rw [update_succ_not_due f t hq hdue]
        exact hs

theorem update_nextId_le (s : Scheduler) (fuel : Nat) (t : Int) :
    s.nextActionId ≤ (s.update fuel t).nextActionId := by
  induction fuel generalizing s with
  | zero => exact le_refl _
  | succ f ih =>
    cases hq : s.queue with
    | nil => rw [update_succ_nil f t hq]
    | cons a q =>
      by_cases hdue : a.tick ≤ t
      · rw [update_succ_due f t hq hdue]
        exact le_trans (updateStep_nextId_le s) (ih s.updateStep)
      · rw [update_succ_not_due f t hq hdue]

theorem update_active_sub {s : Scheduler} {j : Nat} {fuel : Nat} {t : Int}
    (h : j ∈ (s.update fuel t).activeActions) :
    j ∈ s.activeActions ∨ s.nextActionId ≤ j := by
  induction fuel generalizing s with
  | zero => exact Or.inl h
  | succ f ih =>
    cases hq : s.queue with
    | nil => rw [update_succ_nil f t hq] at h; exact Or.inl h
    | cons a q =>
      by_cases hdue : a.tick ≤ t
      · rw [update_succ_due f t hq hdue] at h
        rcases ih h with h2 | h2
        · exact updateStep_active_sub h2
        · exact Or.inr (le_trans (updateStep_nextId_le s) h2)
      · rw [update_succ_not_due f t hq hdue] at h
        exact Or.inl h

theorem update_inactive {id : Nat} {s : Scheduler} (h : Inactive id s) (fuel : Nat)
    (t : Int) : Inactive id (s.update fuel t) := by
  induction fuel generalizing s with
  | zero => exact h
  | succ f ih =>
    cases hq : s.queue with
    | nil => rw [update_succ_nil f t hq]; exact h
    | cons a q =>
      by_cases hdue : a.tick ≤ t
      · rw [update_succ_due f t hq hdue]
        exact ih (updateStep_inactive h)
      · rw [update_succ_not_due f t hq hdue]
        exact h

theorem update_retired {id : Nat} {s : Scheduler} (h : Retired id s) (fuel : Nat)
    (t : Int) : Retired id (s.update fuel t) := by
  induction fuel generalizing s with
  | zero => exact h
  | succ f ih =>
    cases hq : s.queue with
    | nil => rw [update_succ_nil f t hq]; exact h
    | cons a q =>
      by_cases hdue : a.tick ≤ t
      · rw [update_succ_due f t hq hdue]
        exact ih (updateStep_retired h)
      · rw [update_succ_not_due f t hq hdue]
        exact h

theorem update_execLog_extends (s : Scheduler) (fuel : Nat) (t : Int) :
    List.IsPrefix s.execLog (s.update fuel t).execLog := by
  induction fuel generalizing s with
  | zero => exact List.prefix_rfl
  | succ f ih =>
    cases hq : s.queue with
    | nil => rw [update_succ_nil f t hq]
    | cons a q =>
      by_cases hdue : a.tick ≤ t
      · rw [update_succ_due f t hq hdue]
        refine List.IsPrefix.trans ?_ (ih s.updateStep)
        rcases updateStep_execLog_shape s with he | ⟨b, rest, _, _, _, he⟩
        · rw [he]
        · rw [he]
          exact List.prefix_append _ _
      · rw [update_succ_not_due f t hq hdue]

/-! ### Client-operation and trace-level lemmas (action scheduler) -/

theorem run_nil (s : Scheduler) : s.run [] = s := rfl

theorem run_cons (s : Scheduler) (op : SchedOp) (ops : List SchedOp) :
    s.run (op :: ops) = (s.applyOp op).run ops := rfl

theorem schedule_inactive {id : Nat} {s : Scheduler} (h : Inactive id s) (t : Int)
    (e : Nat) (b : ActionBody) (oc : Option ActionBody) :
    Inactive id (s.schedule t e b oc).2 := by
  obtain ⟨h1, h2⟩ := h
  refine ⟨by rw [schedule_nextId]; omega, ?_⟩
  rw [schedule_active]
  by_cases hmem : s.nextActionId ∈ s.activeActions
  · rw [if_pos hmem]; exact h2
  · rw [if_neg hmem]
    intro hmem2
    rcases List.mem_cons.mp hmem2 with rfl | hmem2
    · omega
    · exact h2 hmem2

theorem cancel_inactive {id : Nat} {s : Scheduler} (h : Inactive id s) (j : Nat) :
    Inactive id (s.cancel j).2 := by
  obtain ⟨h1, h2⟩ := h
  refine ⟨by rw [cancel_nextId]; omega, ?_⟩
  intro hmem
  exact h2 (cancel_active_subset hmem)

theorem clear_inactive {id : Nat} {s : Scheduler} (h : Inactive id s) :
    Inactive id s.clear := by
  obtain ⟨h1, h2⟩ := h
  exact ⟨h1, by rw [clear_active]; exact List.not_mem_nil id⟩

theorem applyOp_wf {s : Scheduler} (hs : SchedulerWf s) (op : SchedOp) :
    SchedulerWf (s.applyOp op) := by
  cases op with
  | sched t e a oc => exact schedule_wf hs t e a oc
  | canc id => exact cancel_wf hs id
  | upd fuel t => exact update_wf hs fuel t
  | clr => exact clear_wf hs

theorem applyOp_nextId_le (s : Scheduler) (op : SchedOp) :
    s.nextActionId ≤ (s.applyOp op).nextActionId := by
  cases op with
  | sched t e a oc =>
    simp only [Scheduler.applyOp]
    rw [schedule_nextId]
    omega
  | canc id =>
    simp only [Scheduler.applyOp]
    rw [cancel_nextId]
  | upd fuel t => exact update_nextId_le s fuel t
  | clr =>
    simp only [Scheduler.applyOp]
    rw [clear_nextId]

theorem applyOp_inactive {id : Nat} {s : Scheduler} (h : Inactive id s) (op : SchedOp) :
    Inactive id (s.applyOp op) := by
  cases op with
  | sched t e a oc => exact schedule_inactive h t e a oc
  | canc j => exact cancel_inactive h j
  | upd fuel t => exact update_inactive h fuel t
  | clr => exact clear_inactive h

theorem applyOp_retired {id : Nat} {s : Scheduler} (h : Retired id s) (op : SchedOp) :
    Retired id (s.applyOp op) := by
  obtain ⟨h1, h2, h3⟩ := h
  have h4 := @applyOp_inactive id s ⟨h1, h2⟩ op
  refine ⟨h4.1, h4.2, ?_⟩
  cases op with
  | sched t e a oc =>
    simp only [Scheduler.applyOp]
    rw [schedule_execLog]
    exact h3
  | canc j =>
    simp only [Scheduler.applyOp]
    rw [cancel_execLog]
    exact h3
  | upd fuel t => exact (update_retired ⟨h1, h2, h3⟩ fuel t).2.2
  | clr =>
    simp only [Scheduler.applyOp]
    rw [clear_execLog]
    exact h3

theorem applyOp_execLog_extends (s : Scheduler) (op : SchedOp) :
    List.IsPrefix s.execLog (s.applyOp op).execLog := by
  cases op with
  | sched t e a oc =>
    simp only [Scheduler.applyOp]
    rw [schedule_execLog]
  | canc j =>
    simp only [Scheduler.applyOp]
    rw [cancel_execLog]
  | upd fuel t => exact update_execLog_extends s fuel t
  | clr =>
    simp only [Scheduler.applyOp]
    rw [clear_execLog]

theorem run_wf {s : Scheduler} (hs : SchedulerWf s) (ops : List SchedOp) :
    SchedulerWf (s.run ops) := by
  induction ops generalizing s with
  | nil => exact hs
  | cons op ops ih => rw [run_cons]; exact ih (applyOp_wf hs op)

theorem run_nextId_le (s : Scheduler) (ops : List SchedOp) :
    s.nextActionId ≤ (s.run ops).nextActionId := by
  induction ops generalizing s with
  | nil => exact le_refl _
  | cons op ops ih =>
    rw [run_cons]
    exact le_trans (applyOp_nextId_le s op) (ih (s.applyOp op))

theorem run_inactive {id : Nat} {s : Scheduler} (h : Inactive id s) (ops : List SchedOp) :
    Inactive id (s.run ops) := by
  induction ops generalizing s with
  | nil => exact h
  | cons op ops ih => rw [run_cons]; exact ih (applyOp_inactive h op)

theorem run_retired {id : Nat} {s : Scheduler} (h : Retired id s) (ops : List SchedOp) :
    Retired id (s.run ops) := by
  induction ops generalizing s with
  | nil => exact h
  | cons op ops ih => rw [run_cons]; exact ih (applyOp_retired h op)

theorem run_execLog_extends (s : Scheduler) (ops : List SchedOp) :
    List.IsPrefix s.execLog (s.run ops).execLog := by
  induction ops generalizing s with
  | nil => exact List.prefix_rfl
  | cons op ops ih =>
    rw [run_cons]
    exact List.IsPrefix.trans (applyOp_execLog_extends s op) (ih (s.applyOp op))

/-! ### Full-invariant preservation (action scheduler) -/

theorem schedule_inv {s : Scheduler} (hs : SchedulerInv s) (t : Int) (e : Nat)
    (b : ActionBody) (oc : Option ActionBody) : SchedulerInv (s.schedule t e b oc).2 := by
  obtain ⟨hwf, hln, hlq, hla⟩ := hs
  have hllt := hwf.2.2.2.2.2.2
  refine ⟨schedule_wf hwf t e b oc, ?_, ?_, ?_⟩
  · rw [schedule_execLog]; exact hln
  · rw [schedule_execLog, schedule_queue]
    intro i hi hmem
    rw [(map_id_pushQueue_perm _ _).mem_iff] at hmem
    rcases List.mem_cons.mp hmem with he | hmem
    · have : (⟨s.nextActionId, t, e, b, oc⟩ : ScheduledAction).id = s.nextActionId := rfl
      rw [this] at he
      have := hllt i hi
      omega
    · exact hlq i hi hmem
  · rw [schedule_execLog, schedule_active]
    intro i hi
    by_cases hmem : s.nextActionId ∈ s.activeActions
    · rw [if_pos hmem]; exact hla i hi
    · rw [if_neg hmem]
      intro hmem2
      rcases List.mem_cons.mp hmem2 with rfl | hmem2
      · have := hllt _ hi
        omega
      · exact hla i hi hmem2

theorem cancel_inv {s : Scheduler} (hs : SchedulerInv s) (j : Nat) :
    SchedulerInv (s.cancel j).2 := by
  obtain ⟨hwf, hln, hlq, hla⟩ := hs
  refine ⟨cancel_wf hwf j, ?_, ?_, ?_⟩
  · rw [cancel_execLog]; exact hln
  · rw [cancel_execLog, cancel_queue]; exact hlq
  · rw [cancel_execLog]
    intro i hi hmem
    exact hla i hi (cancel_active_subset hmem)

theorem clear_inv {s : Scheduler} (hs : SchedulerInv s) : SchedulerInv s.clear := by
  obtain ⟨hwf, hln, hlq, hla⟩ := hs
  refine ⟨clear_wf hwf, ?_, ?_, ?_⟩
  · rw [clear_execLog]; exact hln
  · rw [clear_execLog, clear_queue]
    intro i hi
    exact List.not_mem_nil i
  · rw [clear_execLog, clear_active]
    intro i hi
    exact List.not_mem_nil i

theorem updateStep_inv {s : Scheduler} (hs : SchedulerInv s) :
    SchedulerInv s.updateStep := by
  obtain ⟨hwf, hln, hlq, hla⟩ := hs
  have hwf2 := updateStep_wf hwf
  have hqlt := hwf.2.2.2.1
  have hllt := hwf.2.2.2.2.2.2
  have hqnd := hwf.2.2.1
  cases hq : s.queue with
  | nil =>
    rw [updateStep_nil hq]
    exact ⟨hwf, hln, hlq, hla⟩
  | cons a rest =>
    by_cases hact : a.id ∈ s.activeActions
    · by_cases hval : a.entity ∈ s.registry.alive
      · rw [updateStep_exec hq hact hval]
        have hanotl : a.id ∉ s.execLog := by
          intro hmem
          exact hlq a.id hmem (by rw [hq]; exact List.mem_map_of_mem _ (List.mem_cons_self a rest))
        have halt : a.id < s.nextActionId := by
          have := hqlt a (by rw [hq]; exact List.mem_cons_self a rest)
          omega
        have hidrest : a.id ∉ rest.map ScheduledAction.id := by
          rw [hq] at hqnd
          have : (a.id :: rest.map ScheduledAction.id).Nodup := by simpa using hqnd
          exact (List.nodup_cons.mp this).1
        refine ⟨by rw [← updateStep_exec hq hact hval]; exact hwf2, ?_, ?_, ?_⟩
        · rw [execResult_execLog]
          exact List.Nodup.append hln (by simp) (by
            intro x hx hy
            rcases List.mem_singleton.mp hy with rfl
            exact hanotl hx)
        · rw [execResult_execLog]
          intro i hi hmem
          rcases List.mem_map.mp hmem with ⟨x, hx, hxid⟩
          rcases execResult_queue_sub hx with h2 | h2
          · rcases List.mem_append.mp hi with hi | hi
            · exact hlq i hi (by
                rw [hq]
                rw [← hxid]
                exact List.mem_map_of_mem _ (List.mem_cons_of_mem a h2))
            · rcases List.mem_singleton.mp hi with rfl
              exact hidrest (hxid ▸ List.mem_map_of_mem _ h2)
          · rcases List.mem_append.mp hi with hi | hi
            · have := hllt i hi
              omega
            · rcases List.mem_singleton.mp hi with rfl
              omega
        · rw [execResult_execLog]
          intro i hi hmem
          rcases execResult_active_sub hmem with h2 | h2
          · rcases List.mem_append.mp hi with hi | hi
            · exact hla i hi h2
            · rcases List.mem_singleton.mp hi with rfl
              exact absurd hmem (execResult_self_not_active s a rest)
          · rcases List.mem_append.mp hi with hi | hi
            · have := hllt i hi
              omega
            · rcases List.mem_singleton.mp hi with rfl
              omega
      · rw [updateStep_invalid hq hact hval]
        refine ⟨by rw [← updateStep_invalid hq hact hval]; exact hwf2, hln, ?_, ?_⟩
        · intro i hi hmem
          exact hlq i hi (by
            rw [hq]
            rcases List.mem_map.mp hmem with ⟨x, hx, hxid⟩
            rw [← hxid]
            exact List.mem_map_of_mem _ (List.mem_cons_of_mem a hx))
        · intro i hi hmem
          exact hla i hi (List.mem_filter.mp hmem).1
    · rw [updateStep_skip hq hact]
      refine ⟨by rw [← updateStep_skip hq hact]; exact hwf2, hln, ?_, hla⟩
      intro i hi hmem
      exact hlq i hi (by
        rw [hq]
        rcases List.mem_map.mp hmem with ⟨x, hx, hxid⟩
        rw [← hxid]
        exact List.mem_map_of_mem _ (List.mem_cons_of_mem a hx))

theorem update_inv {s : Scheduler} (hs : SchedulerInv s) (fuel : Nat) (t : Int) :
    SchedulerInv (s.update fuel t) := by
  induction fuel generalizing s with
  | zero => exact hs
  | succ f ih =>
    cases hq : s.queue with
    | nil => rw [update_succ_nil f t hq]; exact hs
    | cons a q =>
      by_cases hdue : a.tick ≤ t
      · rw [update_succ_due f t hq hdue]
        exact ih (updateStep_inv hs)
      · rw [update_succ_not_due f t hq hdue]
        exact hs

theorem applyOp_inv {s : Scheduler} (hs : SchedulerInv s) (op : SchedOp) :
    SchedulerInv (s.applyOp op) := by
  cases op with
  | sched t e a oc => exact schedule_inv hs t e a oc
  | canc j => exact cancel_inv hs j
  | upd fuel t => exact update_inv hs fuel t
  | clr => exact clear_inv hs

theorem run_inv {s : Scheduler} (hs : SchedulerInv s) (ops : List SchedOp) :
    SchedulerInv (s.run ops) := by
  induction ops generalizing s with
  | nil => exact hs
  | cons op ops ih => rw [run_cons]; exact ih (applyOp_inv hs op)

theorem init_inv (r : Registry) : SchedulerInv (Scheduler.init r) := by
  refine ⟨⟨?_, ?_, ?_, ?_, ?_, ?_, ?_⟩, ?_, ?_, ?_⟩ <;>
    simp [Scheduler.init]

/-! ### Execution ordering within one `update` call (action scheduler) -/

/-- `x` occurs in the list strictly before `y`: the list splits so that
`x` is in the left part and the first occurrence of `y` is in the right
part. -/
def OccursBefore (x y : Nat) (l : List Nat) : Prop :=
  ∃ p r, l = p ++ r ∧ x ∈ p ∧ y ∉ p ∧ y ∈ r

theorem occursBefore_of_prefix {x y : Nat} {p l : List Nat}
    (hp : List.IsPrefix p l) (hx : x ∈ p) (hy : y ∉ p) (hyl : y ∈ l) :
    OccursBefore x y l := by
  obtain ⟨r, rfl⟩ := hp
  refine ⟨p, r, rfl, hx, hy, ?_⟩
  rcases List.mem_append.mp hyl with h | h
  · exact absurd h hy
  · exact h

theorem updateStep_track {s : Scheduler} {a x : ScheduledAction}
    {rest : List ScheduledAction} (hq : s.queue = a :: rest) (hx : x ∈ s.queue)
    (hlt : x.id < s.nextActionId) (hne : x ≠ a) :
    x ∈ s.updateStep.queue ∨ x.id ∉ s.updateStep.activeActions := by
  have hxrest : x ∈ rest := by
    rw [hq] at hx
    rcases List.mem_cons.mp hx with rfl | hx
    · exact absurd rfl hne
    · exact hx
  by_cases hact : a.id ∈ s.activeActions
  · by_cases hval : a.entity ∈ s.registry.alive
    · rw [updateStep_exec hq hact hval]
      exact execResult_track hxrest hlt
    · rw [updateStep_invalid hq hact hval]
      exact Or.inl hxrest
  · rw [updateStep_skip hq hact]
    exact Or.inl hxrest

theorem update_ordering {s : Scheduler} {a1 a2 : ScheduledAction} {fuel : Nat} {t : Int}
    (hs : SchedulerInv s) (h1 : a1 ∈ s.queue) (h2 : a2 ∈ s.queue)
    (ht : a1.tick < a2.tick)
    (hl1 : a1.id ∈ (s.update fuel t).execLog)
    (hl2 : a2.id ∈ (s.update fuel t).execLog) :
    OccursBefore a1.id a2.id (s.update fuel t).execLog := by
  induction fuel generalizing s with
  | zero =>
    rw [update_zero] at hl2
    exact absurd (List.mem_map_of_mem ScheduledAction.id h2) (fun hmem =>
      (hs.2.2.1 a2.id hl2) hmem)
  | succ f ih =>
    obtain ⟨hwf, hln, hlq, hla⟩ := hs
    have hqnd := hwf.2.2.1
    have hqlt := hwf.2.2.2.1
    cases hq : s.queue with
    | nil =>
      rw [hq] at h1
      exact absurd h1 (List.not_mem_nil a1)
    | cons a rest =>
      by_cases hdue : a.tick ≤ t
      · rw [update_succ_due f t hq hdue] at hl1 hl2 ⊢
        have hamem : a ∈ s.queue := by rw [hq]; exact List.mem_cons_self a rest
        have hinj := List.inj_on_of_nodup_map hqnd
        have hne12 : a1.id ≠ a2.id := by
          intro he
          have : a1 = a2 := hinj h1 h2 he
          rw [this] at ht
          omega
        have hn1log : a1.id ∉ s.execLog := by
          intro hmem
          exact hlq a1.id hmem (List.mem_map_of_mem _ h1)
        have hn2log : a2.id ∉ s.execLog := by
          intro hmem
          exact hlq a2.id hmem (List.mem_map_of_mem _ h2)
        have ha1lt : a1.id < s.nextActionId := (hqlt a1 h1).2
        have ha2lt : a2.id < s.nextActionId := (hqlt a2 h2).2
        by_cases hid2 : a.id = a2.id
        · have haeq : a = a2 := hinj hamem h2 hid2
          have h1rest : a1 ∈ rest := by
            rw [hq] at h1
            rcases List.mem_cons.mp h1 with rfl | h1
            · rw [haeq] at ht; omega
            · exact h1
          have hmin : a.tick ≤ a1.tick := by
            have hsorted := hwf.2.1
            rw [hq] at hsorted
            exact (List.pairwise_cons.mp hsorted).1 a1 h1rest
          rw [haeq] at hmin
          omega
        · by_cases hid1 : a.id = a1.id
          · have haeq : a = a1 := hinj hamem h1 hid1
            by_cases hact : a.id ∈ s.activeActions
            · by_cases hval : a.entity ∈ s.registry.alive
              · have hstep := updateStep_exec hq hact hval
                have hlog : s.updateStep.execLog = s.execLog ++ [a1.id] := by
                  rw [hstep, execResult_execLog, hid1]
                refine occursBefore_of_prefix
                  (p := s.execLog ++ [a1.id]) ?_ ?_ ?_ hl2
                · rw [← hlog]
                  exact update_execLog_extends s.updateStep f t
                · exact List.mem_append_right _ (List.mem_singleton.mpr rfl)
                · intro hmem
                  rcases List.mem_append.mp hmem with hmem | hmem
                  · exact hn2log hmem
                  · exact hne12 (List.mem_singleton.mp hmem).symm
              · have hret : Retired a1.id s.updateStep := by
                  rw [updateStep_invalid hq hact hval]
                  refine ⟨ha1lt, ?_, hn1log⟩
                  intro hmem
                  have := (List.mem_filter.mp hmem).2
                  rw [hid1] at this
                  simp at this
                have := (update_retired hret f t).2.2
                exact absurd hl1 this
            · have hret : Retired a1.id s.updateStep := by
                rw [updateStep_skip hq hact]
                rw [hid1] at hact
                exact ⟨ha1lt, hact, hn1log⟩
              have := (update_retired hret f t).2.2
              exact absurd hl1 this
          · have hne1 : a1 ≠ a := fun he => hid1 (by rw [he])
            have hne2 : a2 ≠ a := fun he => hid2 (by rw [he])
            have hlogstep : a1.id ∉ s.updateStep.execLog ∧ a2.id ∉ s.updateStep.execLog := by
              rcases updateStep_execLog_shape s with he | ⟨b, rest2, hq2, _, _, he⟩
              · rw [he]; exact ⟨hn1log, hn2log⟩
              · have hba : b = a := by
                  rw [hq] at hq2
                  injection hq2 with hh hrest
                  exact hh.symm
                rw [he, hba]
                constructor
                · intro hmem
                  rcases List.mem_append.mp hmem with hmem | hmem
                  · exact hn1log hmem
                  · exact hid1 (List.mem_singleton.mp hmem).symm
                · intro hmem
                  rcases List.mem_append.mp hmem with hmem | hmem
                  · exact hn2log hmem
                  · exact hid2 (List.mem_singleton.mp hmem).symm
            rcases updateStep_track hq h1 ha1lt hne1 with ht1 | ht1
            · rcases updateStep_track hq h2 ha2lt hne2 with ht2 | ht2
              · exact ih (updateStep_inv ⟨hwf, hln, hlq, hla⟩) ht1 ht2 hl1 hl2
              · have hret : Retired a2.id s.updateStep :=
                  ⟨lt_of_lt_of_le ha2lt (updateStep_nextId_le s), ht2, hlogstep.2⟩
                exact absurd hl2 (update_retired hret f t).2.2
            · have hret : Retired a1.id s.updateStep :=
                ⟨lt_of_lt_of_le ha1lt (updateStep_nextId_le s), ht1, hlogstep.1⟩
              exact absurd hl1 (update_retired hret f t).2.2
      · rw [update_succ_not_due f t hq hdue] at hl2
        exact absurd (List.mem_map_of_mem ScheduledAction.id h2) (fun hmem =>
          (hlq a2.id hl2) hmem)

/-! ### Draining and termination of `update` (action scheduler) -/

/-- Number of queued actions that are due at tick `t` — the variant of
the C++ `while` loop when callbacks only schedule future work. -/
def dueCount (s : Scheduler) (t : Int) : Nat :=
  (s.queue.filter (fun a => decide (a.tick ≤ t))).length

/-- The callback only schedules items with tick strictly greater than
`t` (the spec's side condition for termination of `advance(t)`). -/
def futureOnly (t : Int) : ActionBody → Bool
  | .scheduleCall t2 _ _ => decide (t < t2)
  | .scheduleCallOC t2 _ _ _ => decide (t < t2)
  | .seq b₁ b₂ => futureOnly t b₁ && futureOnly t b₂
  | _ => true

/-- Every due, still-active queued action has callbacks that only
schedule future work. -/
def FutureSafe (t : Int) (s : Scheduler) : Prop :=
  ∀ a ∈ s.queue, a.tick ≤ t → a.id ∈ s.activeActions →
    futureOnly t a.action = true ∧
      ∀ oc, a.onComplete = some oc → futureOnly t oc = true

/-- No queued action is due. -/
def NoDue (s : Scheduler) (t : Int) : Prop :=
  ∀ a ∈ s.queue, ¬ a.tick ≤ t

theorem runActionBody_due_mem {t : Int} {b : ActionBody} {i e : Nat} {s : Scheduler}
    {x : ScheduledAction} (hb : futureOnly t b = true)
    (hx : x ∈ (runActionBody b i e s).queue) (hdue : x.tick ≤ t) : x ∈ s.queue := by
  induction b generalizing s with
  | nop => exact hx
  | dealDamage amt => exact hx
  | destroyEntity y => exact hx
  | cancelCall j =>
    simp only [runActionBody] at hx
    rw [cancel_queue] at hx
    exact hx
  | scheduleCall t2 ent act =>
    simp only [runActionBody] at hx
    rw [schedule_queue] at hx
    rcases mem_pushQueue.mp hx with rfl | hx
    · exfalso
      simp only [futureOnly, decide_eq_true_eq] at hb
      revert hdue
      simp
      omega
    · exact hx
  | scheduleCallOC t2 ent act oc =>
    simp only [runActionBody] at hx
    rw [schedule_queue] at hx
    rcases mem_pushQueue.mp hx with rfl | hx
    · exfalso
      simp only [futureOnly, decide_eq_true_eq] at hb
      revert hdue
      simp
      omega
    · exact hx
  | clearCall =>
    simp only [runActionBody, Scheduler.clear] at hx
    exact absurd hx (List.not_mem_nil x)
  | seq b₁ b₂ ih₁ ih₂ =>
    simp only [futureOnly, Bool.and_eq_true] at hb
    simp only [runActionBody] at hx
    exact ih₁ hb.1 (ih₂ hb.2 hx)

theorem runActionBody_dueCount_le {t : Int} {b : ActionBody} {i e : Nat} {s : Scheduler}
    (hb : futureOnly t b = true) :
    dueCount (runActionBody b i e s) t ≤ dueCount s t := by
  induction b generalizing s with
  | nop => exact le_refl _
  | dealDamage amt => exact le_refl _
  | destroyEntity y => exact le_refl _
  | cancelCall j =>
    simp only [runActionBody]
    unfold dueCount
    rw [cancel_queue]
  | scheduleCall t2 ent act =>
    simp only [runActionBody]
    unfold dueCount
    rw [schedule_queue]
    rw [((pushQueue_perm _ _).filter _).length_eq]
    simp only [futureOnly, decide_eq_true_eq] at hb
    rw [List.filter_cons]
    have : ¬ ((⟨s.nextActionId, t2, ent, act, none⟩ : ScheduledAction).tick ≤ t) := by
      show ¬ (t2 ≤ t)
      omega
    simp [this]
  | scheduleCallOC t2 ent act oc =>
    simp only [runActionBody]
    unfold dueCount
    rw [schedule_queue]
    rw [((pushQueue_perm _ _).filter _).length_eq]
    simp only [futureOnly, decide_eq_true_eq] at hb
    rw [List.filter_cons]
    have : ¬ ((⟨s.nextActionId, t2, ent, act, some oc⟩ : ScheduledAction).tick ≤ t) := by
      show ¬ (t2 ≤ t)
      omega
    simp [this]
  | clearCall =>
    simp only [runActionBody]
    unfold dueCount
    rw [clear_queue]
    simp
  | seq b₁ b₂ ih₁ ih₂ =>
    simp only [futureOnly, Bool.and_eq_true] at hb
    simp only [runActionBody]
    exact le_trans (ih₂ hb.2) (ih₁ hb.1)

theorem execResult_due_mem {t : Int} {s : Scheduler} {a x : ScheduledAction}
    {rest : List ScheduledAction} (hact : futureOnly t a.action = true)
    (hoc : ∀ oc, a.onComplete = some oc → futureOnly t oc = true)
    (hx : x ∈ (execResult s a rest).queue) (hdue : x.tick ≤ t) : x ∈ rest := by
  cases hoc2 : a.onComplete with
  | none =>
    simp only [execResult, hoc2, mk_queue] at hx
    exact runActionBody_due_mem hact hx hdue
  | some oc =>
    simp only [execResult, hoc2, mk_queue] at hx
    have h1 := runActionBody_due_mem (hoc oc hoc2) hx hdue
    have h2 : x ∈ (runActionBody a.action a.id a.entity
        { s with queue := rest, execLog := s.execLog ++ [a.id] }).queue := h1
    exact runActionBody_due_mem hact h2 hdue

theorem execResult_dueCount_le {t : Int} {s : Scheduler} {a : ScheduledAction}
    {rest : List ScheduledAction} (hact : futureOnly t a.action = true)
    (hoc : ∀ oc, a.onComplete = some oc → futureOnly t oc = true) :
    dueCount (execResult s a rest) t ≤
      (rest.filter (fun x => decide (x.tick ≤ t))).length := by
  cases hoc2 : a.onComplete with
  | none =>
    have h1 := runActionBody_dueCount_le (b := a.action) (i := a.id) (e := a.entity)
      (s := { s with queue := rest, execLog := s.execLog ++ [a.id] }) hact
    unfold dueCount at h1 ⊢
    simp only [execResult, hoc2, mk_queue] at h1 ⊢
    exact h1
  | some oc =>
    have h1 := runActionBody_dueCount_le (b := a.action) (i := a.id) (e := a.entity)
      (s := { s with queue := rest, execLog := s.execLog ++ [a.id] }) hact
    have h2 := runActionBody_dueCount_le (b := oc) (i := a.id) (e := a.entity)
      (s := { runActionBody a.action a.id a.entity
          { s with queue := rest, execLog := s.execLog ++ [a.id] } with
        dispatched := (runActionBody a.action a.id a.entity
          { s with queue := rest, execLog := s.execLog ++ [a.id] }).dispatched ++
          [(a.id, a.entity)] }) (hoc oc hoc2)
    unfold dueCount at h1 h2 ⊢
    simp only [execResult, hoc2, mk_queue] at h1 h2 ⊢
    exact le_trans h2 h1

theorem dueCount_cons_due {s : Scheduler} {a : ScheduledAction}
    {rest : List ScheduledAction} {t : Int} (hq : s.queue = a :: rest)
    (hdue : a.tick ≤ t) :
    dueCount s t = (rest.filter (fun x => decide (x.tick ≤ t))).length + 1 := by
  unfold dueCount
  rw [hq, List.filter_cons]
  simp [hdue]

theorem updateStep_dueCount {s : Scheduler} {a : ScheduledAction}
    {rest : List ScheduledAction} {t : Int} (hq : s.queue = a :: rest)
    (hdue : a.tick ≤ t) (hfs : FutureSafe t s) :
    dueCount s.updateStep t ≤ (rest.filter (fun x => decide (x.tick ≤ t))).length := by
  by_cases hact : a.id ∈ s.activeActions
  · by_cases hval : a.entity ∈ s.registry.alive
    · rw [updateStep_exec hq hact hval]
      have hamem : a ∈ s.queue := by rw [hq]; exact List.mem_cons_self a rest
      obtain ⟨hact2, hoc2⟩ := hfs a hamem hdue hact
      exact execResult_dueCount_le hact2 hoc2
    · rw [updateStep_invalid hq hact hval]
      unfold dueCount
      simp
  · rw [updateStep_skip hq hact]
    unfold dueCount
    simp

theorem updateStep_futureSafe {s : Scheduler} {a : ScheduledAction}
    {rest : List ScheduledAction} {t : Int} (hq : s.queue = a :: rest)
    (hdue : a.tick ≤ t) (hwf : SchedulerWf s) (hfs : FutureSafe t s) :
    FutureSafe t s.updateStep := by
  intro x hx hxdue hxact
  have hqlt := hwf.2.2.2.1
  by_cases hact : a.id ∈ s.activeActions
  · by_cases hval : a.entity ∈ s.registry.alive
    · rw [updateStep_exec hq hact hval] at hx hxact
      have hamem : a ∈ s.queue := by rw [hq]; exact List.mem_cons_self a rest
      obtain ⟨hact2, hoc2⟩ := hfs a hamem hdue hact
      have hxrest : x ∈ rest := execResult_due_mem hact2 hoc2 hx hxdue
      have hxq : x ∈ s.queue := by rw [hq]; exact List.mem_cons_of_mem a hxrest
      have hxlt : x.id < s.nextActionId := (hqlt x hxq).2
      rcases execResult_active_sub hxact with h2 | h2
      · exact hfs x hxq hxdue h2
      · omega
    · rw [updateStep_invalid hq hact hval] at hx hxact
      have hxq : x ∈ s.queue := by rw [hq]; exact List.mem_cons_of_mem a hx
      exact hfs x hxq hxdue (List.mem_filter.mp hxact).1
  · rw [updateStep_skip hq hact] at hx hxact
    have hxq : x ∈ s.queue := by rw [hq]; exact List.mem_cons_of_mem a hx
    exact hfs x hxq hxdue hxact

theorem noDue_nil {s : Scheduler} {t : Int} (hq : s.queue = []) : NoDue s t := by
  intro a ha
  rw [hq] at ha
  exact absurd ha (List.not_mem_nil a)

theorem noDue_of_head {s : Scheduler} {a : ScheduledAction}
    {rest : List ScheduledAction} {t : Int} (hwf : SchedulerWf s)
    (hq : s.queue = a :: rest) (hnd : ¬ a.tick ≤ t) : NoDue s t := by
  intro x hx
  have hsorted := hwf.2.1
  rw [hq] at hsorted hx
  rcases List.mem_cons.mp hx with rfl | hx
  · exact hnd
  · have := (List.pairwise_cons.mp hsorted).1 x hx
    omega

theorem update_eq_of_noDue {s : Scheduler} {t : Int} (h : NoDue s t) (f : Nat) :
    s.update f t = s := by
  cases f with
  | zero => exact update_zero s t
  | succ f =>
    cases hq : s.queue with
    | nil => exact update_succ_nil f t hq
    | cons a rest =>
      refine update_succ_not_due f t hq ?_
      exact h a (by rw [hq]; exact List.mem_cons_self a rest)

theorem noDue_of_dueCount_zero {s : Scheduler} {t : Int} (h : dueCount s t = 0) :
    NoDue s t := by
  intro a ha hdue
  unfold dueCount at h
  rw [List.length_eq_zero] at h
  have : a ∈ s.queue.filter (fun x => decide (x.tick ≤ t)) :=
    List.mem_filter.mpr ⟨ha, by simpa using hdue⟩
  rw [h] at this
  exact absurd this (List.not_mem_nil a)

theorem update_drains {t : Int} : ∀ (fuel : Nat) (s : Scheduler), SchedulerWf s →
    FutureSafe t s → dueCount s t ≤ fuel → NoDue (s.update fuel t) t := by
  intro fuel
  induction fuel with
  | zero =>
    intro s _ _ hd
    rw [update_zero]
    exact noDue_of_dueCount_zero (Nat.le_zero.mp hd)
  | succ f ih =>
    intro s hwf hfs hd
    cases hq : s.queue with
    | nil =>
      rw [update_succ_nil f t hq]
      exact noDue_nil hq
    | cons a rest =>
      by_cases hdue : a.tick ≤ t
      · rw [update_succ_due f t hq hdue]
        refine ih s.updateStep (updateStep_wf hwf) (updateStep_futureSafe hq hdue hwf hfs) ?_
        have h1 := updateStep_dueCount hq hdue hfs
        have h2 := dueCount_cons_due hq hdue
        omega
      · rw [update_succ_not_due f t hq hdue]
        exact noDue_of_head hwf hq hdue

theorem update_stable {t : Int} : ∀ (fuel : Nat) (s : Scheduler), SchedulerWf s →
    FutureSafe t s → dueCount s t ≤ fuel →
    ∀ extra, s.update (fuel + extra) t = s.update fuel t := by
  intro fuel
  induction fuel with
  | zero =>
    intro s _ _ hd extra
    have hnd := noDue_of_dueCount_zero (Nat.le_zero.mp hd)
    rw [Nat.zero_add, update_eq_of_noDue hnd extra, update_zero]
  | succ f ih =>
    intro s hwf hfs hd extra
    cases hq : s.queue with
    | nil =>
      have hnd := noDue_nil (s := s) (t := t) hq
      rw [update_eq_of_noDue hnd _, update_eq_of_noDue hnd _]
    | cons a rest =>
      by_cases hdue : a.tick ≤ t
      · have he : f + 1 + extra = (f + extra) + 1 := by omega
        rw [he, update_succ_due (f + extra) t hq hdue, update_succ_due f t hq hdue]
        refine ih s.updateStep (updateStep_wf hwf) (updateStep_futureSafe hq hdue hwf hfs) ?_ extra
        have h1 := updateStep_dueCount hq hdue hfs
        have h2 := dueCount_cons_due hq hdue
        omega
      · have hnd := noDue_of_head hwf hq hdue
        rw [update_eq_of_noDue hnd _, update_eq_of_noDue hnd _]

/-! ### Basic facts for the timed-event scheduler -/

/-- The strict pop-order on events: earlier tick first, higher priority
first among equal ticks (the order induced by `TimedEventCompare`). -/
def evLt (a b : TimedEvent) : Prop :=
  a.tick < b.tick ∨ (a.tick = b.tick ∧ b.priority < a.priority)

theorem eventBefore_iff {a b : TimedEvent} : eventBefore a b = true ↔ evLt a b := by
  unfold eventBefore evLt
  simp only [Bool.or_eq_true, Bool.and_eq_true, decide_eq_true_eq, beq_iff_eq]

theorem evLt_asymm {a b : TimedEvent} (h : evLt a b) : ¬ evLt b a := by
  unfold evLt at h ⊢
  omega

theorem pushEventQueue_perm (a : TimedEvent) (l : List TimedEvent) :
    List.Perm (pushEventQueue a l) (a :: l) := by
  induction l with
  | nil => simp [pushEventQueue]
  | cons b rest ih =>
    simp only [pushEventQueue]
    by_cases h : eventBefore a b = true
    · simp [h]
    · rw [if_neg h]
      exact (ih.cons b).trans (List.Perm.swap a b rest)

theorem mem_pushEventQueue {x a : TimedEvent} {l : List TimedEvent} :
    x ∈ pushEventQueue a l ↔ x = a ∨ x ∈ l := by
  rw [(pushEventQueue_perm a l).mem_iff]
  simp

theorem pushEventQueue_sorted {a : TimedEvent} {l : List TimedEvent}
    (h : l.Pairwise (fun x y => ¬ evLt y x)) :
    (pushEventQueue a l).Pairwise (fun x y => ¬ evLt y x) := by
  induction l with
  | nil => simp [pushEventQueue]
  | cons b rest ih =>
    rcases List.pairwise_cons.mp h with ⟨hb, hrest⟩
    simp only [pushEventQueue]
    by_cases hab : eventBefore a b = true
    · rw [if_pos hab]
      rw [eventBefore_iff] at hab
      refine List.pairwise_cons.mpr ⟨?_, h⟩
      intro y hy
      rcases List.mem_cons.mp hy with rfl | hy
      · exact evLt_asymm hab
      · have hby := hb y hy
        unfold evLt at hab hby ⊢
        omega
    · rw [if_neg hab]
      have hba : ¬ evLt a b := fun hlt => hab (eventBefore_iff.mpr hlt)
      refine List.pairwise_cons.mpr ⟨?_, ih hrest⟩
      intro y hy
      rcases mem_pushEventQueue.mp hy with rfl | hy
      · exact hba
      · exact hb y hy

theorem map_id_pushEventQueue_perm (a : TimedEvent) (l : List TimedEvent) :
    List.Perm ((pushEventQueue a l).map TimedEvent.id) (a.id :: l.map TimedEvent.id) :=
  (pushEventQueue_perm a l).map TimedEvent.id

/-- Well-formedness of a `TimedEventScheduler` state, mirroring
`SchedulerWf`. -/
def EventSchedWf (s : TimedEventScheduler) : Prop :=
  1 ≤ s.nextEventId ∧
  s.eventQueue.Pairwise (fun x y => ¬ evLt y x) ∧
  (s.eventQueue.map TimedEvent.id).Nodup ∧
  (∀ a ∈ s.eventQueue, 1 ≤ a.id ∧ a.id < s.nextEventId) ∧
  s.activeEvents.Nodup ∧
  (∀ i ∈ s.activeEvents, 1 ≤ i ∧ i < s.nextEventId) ∧
  (∀ i ∈ s.execLog, 1 ≤ i ∧ i < s.nextEventId)

/-- Full invariant for the timed-event scheduler. -/
def EventSchedInv (s : TimedEventScheduler) : Prop :=
  EventSchedWf s ∧
  s.execLog.Nodup ∧
  (∀ i ∈ s.execLog, i ∉ s.eventQueue.map TimedEvent.id) ∧
  (∀ i ∈ s.execLog, i ∉ s.activeEvents)

theorem emk_eventQueue (q : List TimedEvent) (act : List Nat) (nid : Nat)
    (log : List Nat) : (TimedEventScheduler.mk q act nid log).eventQueue = q := rfl

theorem emk_activeEvents (q : List TimedEvent) (act : List Nat) (nid : Nat)
    (log : List Nat) : (TimedEventScheduler.mk q act nid log).activeEvents = act := rfl

theorem emk_nextEventId (q : List TimedEvent) (act : List Nat) (nid : Nat)
    (log : List Nat) : (TimedEventScheduler.mk q act nid log).nextEventId = nid := rfl

theorem emk_execLog (q : List TimedEvent) (act : List Nat) (nid : Nat)
    (log : List Nat) : (TimedEventScheduler.mk q act nid log).execLog = log := rfl

attribute [simp] emk_eventQueue emk_activeEvents emk_nextEventId emk_execLog

theorem scheduleEvent_fst (s : TimedEventScheduler) (t p : Int) (n : String)
    (b : EventBody) : (s.scheduleEvent t p n b).1 = s.nextEventId := rfl

theorem scheduleEvent_queue (s : TimedEventScheduler) (t p : Int) (n : String)
    (b : EventBody) :
    (s.scheduleEvent t p n b).2.eventQueue =
      pushEventQueue ⟨s.nextEventId, t, n, p, b⟩ s.eventQueue := rfl

theorem scheduleEvent_active (s : TimedEventScheduler) (t p : Int) (n : String)
    (b : EventBody) :
    (s.scheduleEvent t p n b).2.activeEvents =
      (if s.nextEventId ∈ s.activeEvents then s.activeEvents
       else s.nextEventId :: s.activeEvents) := rfl

theorem scheduleEvent_nextId (s : TimedEventScheduler) (t p : Int) (n : String)
    (b : EventBody) : (s.scheduleEvent t p n b).2.nextEventId = s.nextEventId + 1 := rfl

theorem scheduleEvent_execLog (s : TimedEventScheduler) (t p : Int) (n : String)
    (b : EventBody) : (s.scheduleEvent t p n b).2.execLog = s.execLog := rfl

theorem scheduleEvent_wf {s : TimedEventScheduler} (hs : EventSchedWf s) (t p : Int)
    (n : String) (b : EventBody) : EventSchedWf (s.scheduleEvent t p n b).2 := by
  obtain ⟨h1, h2, h3, h4, h5, h6, h7⟩ := hs
  refine ⟨?_, ?_, ?_, ?_, ?_, ?_, ?_⟩
  · rw [scheduleEvent_nextId]; omega
  · rw [scheduleEvent_queue]; exact pushEventQueue_sorted h2
  · rw [scheduleEvent_queue]
    refine ((map_id_pushEventQueue_perm _ _).nodup_iff).mpr ?_
    refine List.nodup_cons.mpr ⟨?_, h3⟩
    have hr : (⟨s.nextEventId, t, n, p, b⟩ : TimedEvent).id = s.nextEventId := rfl
    rw [hr]
    intro hmem
    rcases List.mem_map.mp hmem with ⟨a, ha, hid⟩
    exact absurd hid (by have := (h4 a ha).2; omega)
  · rw [scheduleEvent_queue, scheduleEvent_nextId]
    have hr : (⟨s.nextEventId, t, n, p, b⟩ : TimedEvent).id = s.nextEventId := rfl
    intro a ha
    rcases mem_pushEventQueue.mp ha with rfl | ha
    · rw [hr]
      exact ⟨h1, by omega⟩
    · have := h4 a ha
      omega
  · rw [scheduleEvent_active]
    by_cases hmem : s.nextEventId ∈ s.activeEvents
    · rw [if_pos hmem]; exact h5
    · rw [if_neg hmem]
      exact List.nodup_cons.mpr ⟨hmem, h5⟩
  · rw [scheduleEvent_active, scheduleEvent_nextId]
    intro i hi
    by_cases hmem : s.nextEventId ∈ s.activeEvents
    · rw [if_pos hmem] at hi
      have := h6 i hi
      omega
    · rw [if_neg hmem] at hi
      rcases List.mem_cons.mp hi with rfl | hi
      · omega
      · have := h6 i hi
        omega
  · rw [scheduleEvent_execLog, scheduleEvent_nextId]
    intro i hi
    have := h7 i hi
    omega

theorem cancelEvent_pos {s : TimedEventScheduler} {id : Nat} (h : id ∈ s.activeEvents) :
    s.cancelEvent id =
      (true, { s with activeEvents := s.activeEvents.filter (fun i => i != id) }) := by
  rw [TimedEventScheduler.cancelEvent, if_pos h]

theorem cancelEvent_neg {s : TimedEventScheduler} {id : Nat} (h : id ∉ s.activeEvents) :
    s.cancelEvent id = (false, s) := by
  rw [TimedEventScheduler.cancelEvent, if_neg h]

theorem cancelEvent_queue (s : TimedEventScheduler) (id : Nat) :
    (s.cancelEvent id).2.eventQueue = s.eventQueue := by
  rw [TimedEventScheduler.cancelEvent]; split <;> rfl

theorem cancelEvent_nextId (s : TimedEventScheduler) (id : Nat) :
    (s.cancelEvent id).2.nextEventId = s.nextEventId := by
  rw [TimedEventScheduler.cancelEvent]; split <;> rfl

theorem cancelEvent_execLog (s : TimedEventScheduler) (id : Nat) :
    (s.cancelEvent id).2.execLog = s.execLog := by
  rw [TimedEventScheduler.cancelEvent]; split <;> rfl

theorem cancelEvent_active_subset {s : TimedEventScheduler} {id i : Nat}
    (h : i ∈ (s.cancelEvent id).2.activeEvents) : i ∈ s.activeEvents := by
  rw [TimedEventScheduler.cancelEvent] at h
  by_cases hmem : id ∈ s.activeEvents
  · rw [if_pos hmem] at h
    exact (List.mem_filter.mp h).1
  · rw [if_neg hmem] at h
    exact h

theorem cancelEvent_self_not_active (s : TimedEventScheduler) (id : Nat) :
    id ∉ (s.cancelEvent id).2.activeEvents := by
  rw [TimedEventScheduler.cancelEvent]
  by_cases hmem : id ∈ s.activeEvents
  · rw [if_pos hmem]
    intro h
    have := (List.mem_filter.mp h).2
    simp at this
  · rw [if_neg hmem]
    exact hmem

theorem cancelEvent_wf {s : TimedEventScheduler} (hs : EventSchedWf s) (id : Nat) :
    EventSchedWf (s.cancelEvent id).2 := by
  obtain ⟨h1, h2, h3, h4, h5, h6, h7⟩ := hs
  refine ⟨?_, ?_, ?_, ?_, ?_, ?_, ?_⟩ <;>
    rw [TimedEventScheduler.cancelEvent] <;> by_cases hmem : id ∈ s.activeEvents <;>
      first
        | (rw [if_pos hmem]; try assumption)
        | (rw [if_neg hmem]; try assumption)
  · exact h5.filter _
  · intro i hi
    exact h6 i (List.mem_filter.mp hi).1

theorem eclear_queue (s : TimedEventScheduler) : s.clear.eventQueue = [] := rfl

theorem eclear_active (s : TimedEventScheduler) : s.clear.activeEvents = [] := rfl

theorem eclear_nextId (s : TimedEventScheduler) : s.clear.nextEventId = s.nextEventId := rfl

theorem eclear_execLog (s : TimedEventScheduler) : s.clear.execLog = s.execLog := rfl

theorem eclear_wf {s : TimedEventScheduler} (hs : EventSchedWf s) :
    EventSchedWf s.clear := by
  obtain ⟨h1, _, _, _, _, _, h7⟩ := hs
  exact ⟨h1, by simp [TimedEventScheduler.clear], by simp [TimedEventScheduler.clear],
    by simp [TimedEventScheduler.clear], by simp [TimedEventScheduler.clear],
    by simp [TimedEventScheduler.clear], h7⟩

/-! ### Event-body preservation lemmas -/

theorem runEventBody_execLog (b : EventBody) (s : TimedEventScheduler) :
    (runEventBody b s).execLog = s.execLog := by
  induction b generalizing s with
  | seq b₁ b₂ ih₁ ih₂ =>
    simp only [runEventBody]
    rw [ih₂, ih₁]
  | _ =>
    simp only [runEventBody, scheduleEvent_execLog, cancelEvent_execLog, eclear_execLog]

theorem runEventBody_nextId_le (b : EventBody) (s : TimedEventScheduler) :
    s.nextEventId ≤ (runEventBody b s).nextEventId := by
  induction b generalizing s with
  | seq b₁ b₂ ih₁ ih₂ =>
    simp only [runEventBody]
    exact le_trans (ih₁ s) (ih₂ (runEventBody b₁ s))
  | _ =>
    simp only [runEventBody, scheduleEvent_nextId, cancelEvent_nextId, eclear_nextId]
    omega

theorem runEventBody_active_sub {b : EventBody} {s : TimedEventScheduler} {j : Nat}
    (h : j ∈ (runEventBody b s).activeEvents) :
    j ∈ s.activeEvents ∨ s.nextEventId ≤ j := by
  induction b generalizing s with
  | nop => exact Or.inl h
  | cancelCall k =>
    simp only [runEventBody] at h
    exact Or.inl (cancelEvent_active_subset h)
  | scheduleCall t2 p2 act =>
    simp only [runEventBody] at h
    rw [scheduleEvent_active] at h
    by_cases hmem : s.nextEventId ∈ s.activeEvents
    · rw [if_pos hmem] at h
      exact Or.inl h
    · rw [if_neg hmem] at h
      rcases List.mem_cons.mp h with rfl | h
      · exact Or.inr (le_refl _)
      · exact Or.inl h
  | clearCall =>
    simp only [runEventBody] at h
    simp [TimedEventScheduler.clear] at h
  | seq b₁ b₂ ih₁ ih₂ =>
    simp only [runEventBody] at h
    rcases ih₂ h with h2 | h2
    · exact ih₁ h2
    · exact Or.inr (le_trans (runEventBody_nextId_le b₁ s) h2)

theorem runEventBody_queue_sub {b : EventBody} {s : TimedEventScheduler}
    {x : TimedEvent} (h : x ∈ (runEventBody b s).eventQueue) :
    x ∈ s.eventQueue ∨ s.nextEventId ≤ x.id := by
  induction b generalizing s with
  | nop => exact Or.inl h
  | cancelCall k =>
    simp only [runEventBody] at h
    rw [cancelEvent_queue] at h
    exact Or.inl h
  | scheduleCall t2 p2 act =>
    simp only [runEventBody] at h
    rw [scheduleEvent_queue] at h
    rcases mem_pushEventQueue.mp h with rfl | h
    · exact Or.inr (le_refl _)
    · exact Or.inl h
  | clearCall =>
    simp only [runEventBody] at h
    simp [TimedEventScheduler.clear] at h
  | seq b₁ b₂ ih₁ ih₂ =>
    simp only [runEventBody] at h
    rcases ih₂ h with h2 | h2
    · exact ih₁ h2
    · exact Or.inr (le_trans (runEventBody_nextId_le b₁ s) h2)

theorem runEventBody_wf {b : EventBody} {s : TimedEventScheduler}
    (hs : EventSchedWf s) : EventSchedWf (runEventBody b s) := by
  induction b generalizing s with
  | nop => exact hs
  | cancelCall j => exact cancelEvent_wf hs j
  | scheduleCall t2 p2 act => exact scheduleEvent_wf hs t2 p2 "" act
  | clearCall => exact eclear_wf hs
  | seq b₁ b₂ ih₁ ih₂ => exact ih₂ (ih₁ hs)

theorem runEventBody_track {b : EventBody} {s : TimedEventScheduler}
    {x : TimedEvent} (hq : x ∈ s.eventQueue) (hlt : x.id < s.nextEventId) :
    x ∈ (runEventBody b s).eventQueue ∨ x.id ∉ (runEventBody b s).activeEvents := by
  induction b generalizing s with
  | nop => exact Or.inl hq
  | cancelCall j =>
    simp only [runEventBody]
    rw [cancelEvent_queue]
    exact Or.inl hq
  | scheduleCall t2 p2 act =>
    simp only [runEventBody]
    rw [scheduleEvent_queue]
    exact Or.inl (mem_pushEventQueue.mpr (Or.inr hq))
  | clearCall =>
    refine Or.inr ?_
    simp only [runEventBody]
    simp [TimedEventScheduler.clear]
  | seq b₁ b₂ ih₁ ih₂ =>
    simp only [runEventBody]
    rcases ih₁ hq hlt with h1 | h1
    · exact ih₂ h1 (lt_of_lt_of_le hlt (runEventBody_nextId_le b₁ s))
    · refine Or.inr ?_
      intro hmem
      rcases runEventBody_active_sub hmem with h2 | h2
      · exact h1 h2
      · have := runEventBody_nextId_le b₁ s
        omega

/-! ### Shape lemmas for one `update` loop iteration (timed events) -/

theorem eUpdateStep_nil {s : TimedEventScheduler} (h : s.eventQueue = []) :
    s.updateStep = s := by
  obtain ⟨q, act, nid, log⟩ := s
  change q = [] at h
  subst h
  rfl

theorem eUpdateStep_skip {s : TimedEventScheduler} {ev : TimedEvent}
    {rest : List TimedEvent} (h : s.eventQueue = ev :: rest)
    (hact : ev.id ∉ s.activeEvents) :
    s.updateStep = { s with eventQueue := rest } := by
  obtain ⟨q, act, nid, log⟩ := s
  change q = ev :: rest at h
  change ev.id ∉ act at hact
  subst h
  simp only [TimedEventScheduler.updateStep]
  rw [if_neg hact]

/-- The executed-case result of one timed-event loop iteration. -/
def execEventResult (s : TimedEventScheduler) (ev : TimedEvent)
    (rest : List TimedEvent) : TimedEventScheduler :=
  let s₁ : TimedEventScheduler := { s with eventQueue := rest, execLog := s.execLog ++ [ev.id] }
  let s₂ : TimedEventScheduler := runEventBody ev.body s₁
  { s₂ with activeEvents := s₂.activeEvents.filter (fun i => i != ev.id) }

theorem eUpdateStep_exec {s : TimedEventScheduler} {ev : TimedEvent}
    {rest : List TimedEvent} (h : s.eventQueue = ev :: rest)
    (hact : ev.id ∈ s.activeEvents) :
    s.updateStep = execEventResult s ev rest := by
  obtain ⟨q, act, nid, log⟩ := s
  change q = ev :: rest at h
  change ev.id ∈ act at hact
  subst h
  simp only [TimedEventScheduler.updateStep]
  rw [if_pos hact]
  rfl

theorem ewf_congr {s s₂ : TimedEventScheduler} (h : EventSchedWf s)
    (hq : s₂.eventQueue = s.eventQueue) (ha : s₂.activeEvents = s.activeEvents)
    (hn : s₂.nextEventId = s.nextEventId) (hl : s₂.execLog = s.execLog) :
    EventSchedWf s₂ := by
  obtain ⟨h1, h2, h3, h4, h5, h6, h7⟩ := h
  rw [EventSchedWf, hq, ha, hn, hl]
  exact ⟨h1, h2, h3, h4, h5, h6, h7⟩

theorem execEventResult_execLog (s : TimedEventScheduler) (ev : TimedEvent)
    (rest : List TimedEvent) :
    (execEventResult s ev rest).execLog = s.execLog ++ [ev.id] := by
  show (runEventBody ev.body
    { s with eventQueue := rest, execLog := s.execLog ++ [ev.id] }).execLog = _
  rw [runEventBody_execLog]

theorem execEventResult_nextId_le (s : TimedEventScheduler) (ev : TimedEvent)
    (rest : List TimedEvent) :
    s.nextEventId ≤ (execEventResult s ev rest).nextEventId := by
  simp only [execEventResult, emk_nextEventId]
  calc s.nextEventId
      = ({ s with eventQueue := rest, execLog := s.execLog ++ [ev.id] } :
          TimedEventScheduler).nextEventId := rfl
    _ ≤ _ := runEventBody_nextId_le _ _

theorem execEventResult_active_sub {s : TimedEventScheduler} {ev : TimedEvent}
    {rest : List TimedEvent} {j : Nat}
    (h : j ∈ (execEventResult s ev rest).activeEvents) :
    j ∈ s.activeEvents ∨ s.nextEventId ≤ j := by
  simp only [execEventResult, emk_activeEvents] at h
  have h1 := (List.mem_filter.mp h).1
  rcases runEventBody_active_sub
    (s := { s with eventQueue := rest, execLog := s.execLog ++ [ev.id] }) h1 with h2 | h2
  · exact Or.inl h2
  · exact Or.inr h2

theorem execEventResult_queue_sub {s : TimedEventScheduler} {ev : TimedEvent}
    {rest : List TimedEvent} {x : TimedEvent}
    (h : x ∈ (execEventResult s ev rest).eventQueue) :
    x ∈ rest ∨ s.nextEventId ≤ x.id := by
  simp only [execEventResult, emk_eventQueue] at h
  exact runEventBody_queue_sub h

theorem execEventResult_self_not_active (s : TimedEventScheduler) (ev : TimedEvent)
    (rest : List TimedEvent) :
    ev.id ∉ (execEventResult s ev rest).activeEvents := by
  intro h
  simp only [execEventResult, emk_activeEvents] at h
  have := (List.mem_filter.mp h).2
  simp at this

theorem execEventResult_track {s : TimedEventScheduler} {ev : TimedEvent}
    {rest : List TimedEvent} {x : TimedEvent}
    (hq : x ∈ rest) (hlt : x.id < s.nextEventId) :
    x ∈ (execEventResult s ev rest).eventQueue ∨
      x.id ∉ (execEventResult s ev rest).activeEvents := by
  simp only [execEventResult, emk_eventQueue, emk_activeEvents]
  have h1 : x ∈ ({ s with eventQueue := rest, execLog := s.execLog ++ [ev.id] } :
      TimedEventScheduler).eventQueue := hq
  rcases runEventBody_track (b := ev.body) h1 hlt with h2 | h2
  · exact Or.inl h2
  · refine Or.inr ?_
    intro hmem
    exact h2 (List.mem_filter.mp hmem).1

theorem ewf_filter_active {s : TimedEventScheduler} (hs : EventSchedWf s)
    (p : Nat → Bool) :
    EventSchedWf { s with activeEvents := s.activeEvents.filter p } := by
  obtain ⟨h1, h2, h3, h4, h5, h6, h7⟩ := hs
  refine ⟨h1, h2, h3, h4, h5.filter p, ?_, h7⟩
  intro i hi
  exact h6 i (List.mem_filter.mp hi).1

theorem execEventResult_wf {s : TimedEventScheduler} {ev : TimedEvent}
    {rest : List TimedEvent} (hs : EventSchedWf s) (h : s.eventQueue = ev :: rest) :
    EventSchedWf (execEventResult s ev rest) := by
  obtain ⟨h1, h2, h3, h4, h5, h6, h7⟩ := hs
  rw [h] at h2 h3 h4
  have hs₁ : EventSchedWf
      { s with eventQueue := rest, execLog := s.execLog ++ [ev.id] } := by
    refine ⟨h1, ?_, ?_, ?_, h5, h6, ?_⟩
    · exact (List.pairwise_cons.mp h2).2
    · simpa using (List.nodup_cons.mp (by simpa using h3)).2
    · intro x hx
      exact h4 x (List.mem_cons_of_mem _ hx)
    · intro i hi
      rcases List.mem_append.mp hi with hi | hi
      · exact h7 i hi
      · rcases List.mem_singleton.mp hi with rfl
        exact h4 ev (List.mem_cons_self _ _)
  exact ewf_filter_active (runEventBody_wf hs₁) _

theorem eUpdateStep_wf {s : TimedEventScheduler} (hs : EventSchedWf s) :
    EventSchedWf s.updateStep := by
  cases hq : s.eventQueue with
  | nil => rw [eUpdateStep_nil hq]; exact hs
  | cons ev rest =>
    by_cases hact : ev.id ∈ s.activeEvents
    · rw [eUpdateStep_exec hq hact]
      exact execEventResult_wf hs hq
    · rw [eUpdateStep_skip hq hact]
      obtain ⟨h1, h2, h3, h4, h5, h6, h7⟩ := hs
      rw [hq] at h2 h3 h4
      refine ⟨h1, (List.pairwise_cons.mp h2).2, ?_, ?_, h5, h6, h7⟩
      · simpa using (List.nodup_cons.mp (by simpa using h3)).2
      · intro x hx
        exact h4 x (List.mem_cons_of_mem _ hx)

theorem eUpdateStep_nextId_le (s : TimedEventScheduler) :
    s.nextEventId ≤ s.updateStep.nextEventId := by
  cases hq : s.eventQueue with
  | nil => rw [eUpdateStep_nil hq]
  | cons ev rest =>
    by_cases hact : ev.id ∈ s.activeEvents
    · rw [eUpdateStep_exec hq hact]
      exact execEventResult_nextId_le s ev rest
    · rw [eUpdateStep_skip hq hact]

theorem eUpdateStep_active_sub {s : TimedEventScheduler} {j : Nat}
    (h : j ∈ s.updateStep.activeEvents) :
    j ∈ s.activeEvents ∨ s.nextEventId ≤ j := by
  cases hq : s.eventQueue with
  | nil => rw [eUpdateStep_nil hq] at h; exact Or.inl h
  | cons ev rest =>
    by_cases hact : ev.id ∈ s.activeEvents
    · rw [eUpdateStep_exec hq hact] at h
      exact execEventResult_active_sub h
    · rw [eUpdateStep_skip hq hact] at h
      exact Or.inl h

theorem eUpdateStep_execLog_shape (s : TimedEventScheduler) :
    s.updateStep.execLog = s.execLog ∨
      ∃ ev rest, s.eventQueue = ev :: rest ∧ ev.id ∈ s.activeEvents ∧
        s.updateStep.execLog = s.execLog ++ [ev.id] := by
  cases hq : s.eventQueue with
  | nil => rw [eUpdateStep_nil hq]; exact Or.inl rfl
  | cons ev rest =>
    by_cases hact : ev.id ∈ s.activeEvents
    · refine Or.inr ⟨ev, rest, rfl, hact, ?_⟩
      rw [eUpdateStep_exec hq hact]
      exact execEventResult_execLog s ev rest
    · rw [eUpdateStep_skip hq hact]
      exact Or.inl rfl

theorem eUpdateStep_track {s : TimedEventScheduler} {ev x : TimedEvent}
    {rest : List TimedEvent} (hq : s.eventQueue = ev :: rest) (hx : x ∈ s.eventQueue)
    (hlt : x.id < s.nextEventId) (hne : x ≠ ev) :
    x ∈ s.updateStep.eventQueue ∨ x.id ∉ s.updateStep.activeEvents := by
  have hxrest : x ∈ rest := by
    rw [hq] at hx
    rcases List.mem_cons.mp hx with rfl | hx
    · exact absurd rfl hne
    · exact hx
  by_cases hact : ev.id ∈ s.activeEvents
  · rw [eUpdateStep_exec hq hact]
    exact execEventResult_track hxrest hlt
  · rw [eUpdateStep_skip hq hact]
    exact Or.inl hxrest

/-! ### Retired ids and loop lemmas (timed events) -/

/-- Mirrors `Inactive` for the timed-event scheduler. -/
def EventInactive (id : Nat) (s : TimedEventScheduler) : Prop :=
  id < s.nextEventId ∧ id ∉ s.activeEvents

/-- Mirrors `Retired` for the timed-event scheduler. -/
def EventRetired (id : Nat) (s : TimedEventScheduler) : Prop :=
  id < s.nextEventId ∧ id ∉ s.activeEvents ∧ id ∉ s.execLog

theorem eUpdateStep_inactive {id : Nat} {s : TimedEventScheduler}
    (h : EventInactive id s) : EventInactive id s.updateStep := by
  obtain ⟨h1, h2⟩ := h
  refine ⟨lt_of_lt_of_le h1 (eUpdateStep_nextId_le s), ?_⟩
  intro hmem
  rcases eUpdateStep_active_sub hmem with h3 | h3
  · exact h2 h3
  · omega

theorem eUpdateStep_retired {id : Nat} {s : TimedEventScheduler}
    (h : EventRetired id s) : EventRetired id s.updateStep := by
  obtain ⟨h1, h2, h3⟩ := h
  have h4 := @eUpdateStep_inactive id s ⟨h1, h2⟩
  refine ⟨h4.1, h4.2, ?_⟩
  rcases eUpdateStep_execLog_shape s with he | ⟨ev, rest, hq, hact, he⟩
  · rw [he]; exact h3
  · rw [he]
    intro hmem
    rcases List.mem_append.mp hmem with hmem | hmem
    · exact h3 hmem
    · rcases List.mem_singleton.mp hmem with rfl
      exact h2 hact

theorem eUpdate_zero (s : TimedEventScheduler) (t : Int) : s.update 0 t = s := rfl

theorem eUpdate_succ_nil {s : TimedEventScheduler} (f : Nat) (t : Int)
    (h : s.eventQueue = []) : s.update (f + 1) t = s := by
  obtain ⟨q, act, nid, log⟩ := s
  change q = [] at h
  subst h
  rfl

theorem eUpdate_succ_due {s : TimedEventScheduler} {ev : TimedEvent}
    {q : List TimedEvent} (f : Nat) (t : Int) (h : s.eventQueue = ev :: q)
    (hdue : ev.tick ≤ t) : s.update (f + 1) t = s.updateStep.update f t := by
  obtain ⟨q0, act, nid, log⟩ := s
  change q0 = ev :: q at h
  subst h
  show (if ev.tick ≤ t then _ else _) = _
  rw [if_pos hdue]

theorem eUpdate_succ_not_due {s : TimedEventScheduler} {ev : TimedEvent}
    {q : List TimedEvent} (f : Nat) (t : Int) (h : s.eventQueue = ev :: q)
    (hdue : ¬ ev.tick ≤ t) : s.update (f + 1) t = s := by
  obtain ⟨q0, act, nid, log⟩ := s
  change q0 = ev :: q at h
  subst h
  show (if ev.tick ≤ t then _ else _) = _
  rw [if_neg hdue]

theorem eUpdate_wf {s : TimedEventScheduler} (hs : EventSchedWf s) (fuel : Nat)
    (t : Int) : EventSchedWf (s.update fuel t) := by
  induction fuel generalizing s with
  | zero => exact hs
  | succ f ih =>
    cases hq : s.eventQueue with
    | nil => rw [eUpdate_succ_nil f t hq]; exact hs
    | cons ev q =>
      by_cases hdue : ev.tick ≤ t
      · rw [eUpdate_succ_due f t hq hdue]
        exact ih (eUpdateStep_wf hs)
      · rw [eUpdate_succ_not_due f t hq hdue]
        exact hs

theorem eUpdate_nextId_le (s : TimedEventScheduler) (fuel : Nat) (t : Int) :
    s.nextEventId ≤ (s.update fuel t).nextEventId := by
  induction fuel generalizing s with
  | zero => exact le_refl _
  | succ f ih =>
    cases hq : s.eventQueue with
    | nil => rw [eUpdate_succ_nil f t hq]
    | cons ev q =>
      by_cases hdue : ev.tick ≤ t
      · rw [eUpdate_succ_due f t hq hdue]
        exact le_trans (eUpdateStep_nextId_le s) (ih s.updateStep)
      · rw [eUpdate_succ_not_due f t hq hdue]

theorem eUpdate_inactive {id : Nat} {s : TimedEventScheduler} (h : EventInactive id s)
    (fuel : Nat) (t : Int) : EventInactive id (s.update fuel t) := by
  induction fuel generalizing s with
  | zero => exact h
  | succ f ih =>
    cases hq : s.eventQueue with
    | nil => rw [eUpdate_succ_nil f t hq]; exact h
    | cons ev q =>
      by_cases hdue : ev.tick ≤ t
      · rw [eUpdate_succ_due f t hq hdue]
        exact ih (eUpdateStep_inactive h)
      · rw [eUpdate_succ_not_due f t hq hdue]
        exact h

theorem eUpdate_retired {id : Nat} {s : TimedEventScheduler} (h : EventRetired id s)
    (fuel : Nat) (t : Int) : EventRetired id (s.update fuel t) := by
  induction fuel generalizing s with
  | zero => exact h
  | succ f ih =>
    cases hq : s.eventQueue with
    | nil => rw [eUpdate_succ_nil f t hq]; exact h
    | cons ev q =>
      by_cases hdue : ev.tick ≤ t
      · rw [eUpdate_succ_due f t hq hdue]
        exact ih (eUpdateStep_retired h)
      · rw [eUpdate_succ_not_due f t hq hdue]
        exact h

theorem eUpdate_execLog_extends (s : TimedEventScheduler) (fuel : Nat) (t : Int) :
    List.IsPrefix s.execLog (s.update fuel t).execLog := by
  induction fuel generalizing s with
  | zero => exact List.prefix_rfl
  | succ f ih =>
    cases hq : s.eventQueue with
    | nil => rw [eUpdate_succ_nil f t hq]
    | cons ev q =>
      by_cases hdue : ev.tick ≤ t
      · rw [eUpdate_succ_due f t hq hdue]
        refine List.IsPrefix.trans ?_ (ih s.updateStep)
        rcases eUpdateStep_execLog_shape s with he | ⟨b, rest, _, _, he⟩
        · rw [he]
        · rw [he]
          exact List.prefix_append _ _
      · rw [eUpdate_succ_not_due f t hq hdue]

theorem eRun_nil (s : TimedEventScheduler) : s.run [] = s := rfl

theorem eRun_cons (s : TimedEventScheduler) (op : EventOp) (ops : List EventOp) :
    s.run (op :: ops) = (s.applyOp op).run ops := rfl

theorem scheduleEvent_inactive {id : Nat} {s : TimedEventScheduler}
    (h : EventInactive id s) (t p : Int) (n : String) (b : EventBody) :
    EventInactive id (s.scheduleEvent t p n b).2 := by
  obtain ⟨h1, h2⟩ := h
  refine ⟨by rw [scheduleEvent_nextId]; omega, ?_⟩
  rw [scheduleEvent_active]
  by_cases hmem : s.nextEventId ∈ s.activeEvents
  · rw [if_pos hmem]; exact h2
  · rw [if_neg hmem]
    intro hmem2
    rcases List.mem_cons.mp hmem2 with rfl | hmem2
    · omega
    · exact h2 hmem2

theorem eApplyOp_wf {s : TimedEventScheduler} (hs : EventSchedWf s) (op : EventOp) :
    EventSchedWf (s.applyOp op) := by
  cases op with
  | sched t p n b => exact scheduleEvent_wf hs t p n b
  | canc id => exact cancelEvent_wf hs id
  | upd fuel t => exact eUpdate_wf hs fuel t
  | clr => exact eclear_wf hs

theorem eApplyOp_nextId_le (s : TimedEventScheduler) (op : EventOp) :
    s.nextEventId ≤ (s.applyOp op).nextEventId := by
  cases op with
  | sched t p n b =>
    simp only [TimedEventScheduler.applyOp]
    rw [scheduleEvent_nextId]
    omega
  | canc id =>
    simp only [TimedEventScheduler.applyOp]
    rw [cancelEvent_nextId]
  | upd fuel t => exact eUpdate_nextId_le s fuel t
  | clr =>
    simp only [TimedEventScheduler.applyOp]
    rw [eclear_nextId]

theorem eApplyOp_inactive {id : Nat} {s : TimedEventScheduler} (h : EventInactive id s)
    (op : EventOp) : EventInactive id (s.applyOp op) := by
  cases op with
  | sched t p n b => exact scheduleEvent_inactive h t p n b
  | canc j =>
    obtain ⟨h1, h2⟩ := h
    refine ⟨by simp only [TimedEventScheduler.applyOp]; rw [cancelEvent_nextId]; omega, ?_⟩
    intro hmem
    exact h2 (cancelEvent_active_subset hmem)
  | upd fuel t => exact eUpdate_inactive h fuel t
  | clr =>
    obtain ⟨h1, h2⟩ := h
    refine ⟨h1, ?_⟩
    simp only [TimedEventScheduler.applyOp]
    rw [eclear_active]
    exact List.not_mem_nil id

theorem eApplyOp_retired {id : Nat} {s : TimedEventScheduler} (h : EventRetired id s)
    (op : EventOp) : EventRetired id (s.applyOp op) := by
  obtain ⟨h1, h2, h3⟩ := h
  have h4 := @eApplyOp_inactive id s ⟨h1, h2⟩ op
  refine ⟨h4.1, h4.2, ?_⟩
  cases op with
  | sched t p n b =>
    simp only [TimedEventScheduler.applyOp]
    rw [scheduleEvent_execLog]
    exact h3
  | canc j =>
    simp only [TimedEventScheduler.applyOp]
    rw [cancelEvent_execLog]
    exact h3
  | upd fuel t => exact (eUpdate_retired ⟨h1, h2, h3⟩ fuel t).2.2
  | clr =>
    simp only [TimedEventScheduler.applyOp]
    rw [eclear_execLog]
    exact h3

theorem eApplyOp_execLog_extends (s : TimedEventScheduler) (op : EventOp) :
    List.IsPrefix s.execLog (s.applyOp op).execLog := by
  cases op with
  | sched t p n b =>
    simp only [TimedEventScheduler.applyOp]
    rw [scheduleEvent_execLog]
  | canc j =>
    simp only [TimedEventScheduler.applyOp]
    rw [cancelEvent_execLog]
  | upd fuel t => exact eUpdate_execLog_extends s fuel t
  | clr =>
    simp only [TimedEventScheduler.applyOp]
    rw [eclear_execLog]

theorem eRun_wf {s : TimedEventScheduler} (hs : EventSchedWf s) (ops : List EventOp) :
    EventSchedWf (s.run ops) := by
  induction ops generalizing s with
  | nil => exact hs
  | cons op ops ih => rw [eRun_cons]; exact ih (eApplyOp_wf hs op)

theorem eRun_nextId_le (s : TimedEventScheduler) (ops : List EventOp) :
    s.nextEventId ≤ (s.run ops).nextEventId := by
  induction ops generalizing s with
  | nil => exact le_refl _
  | cons op ops ih =>
    rw [eRun_cons]
    exact le_trans (eApplyOp_nextId_le s op) (ih (s.applyOp op))

theorem eRun_inactive {id : Nat} {s : TimedEventScheduler} (h : EventInactive id s)
    (ops : List EventOp) : EventInactive id (s.run ops) := by
  induction ops generalizing s with
  | nil => exact h
  | cons op ops ih => rw [eRun_cons]; exact ih (eApplyOp_inactive h op)

theorem eRun_retired {id : Nat} {s : TimedEventScheduler} (h : EventRetired id s)
    (ops : List EventOp) : EventRetired id (s.run ops) := by
  induction ops generalizing s with
  | nil => exact h
  | cons op ops ih => rw [eRun_cons]; exact ih (eApplyOp_retired h op)

/-! ### Full-invariant preservation (timed events) -/

theorem scheduleEvent_inv {s : TimedEventScheduler} (hs : EventSchedInv s) (t p : Int)
    (n : String) (b : EventBody) : EventSchedInv (s.scheduleEvent t p n b).2 := by
  obtain ⟨hwf, hln, hlq, hla⟩ := hs
  have hllt := hwf.2.2.2.2.2.2
  refine ⟨scheduleEvent_wf hwf t p n b, ?_, ?_, ?_⟩
  · rw [scheduleEvent_execLog]; exact hln
  · rw [scheduleEvent_execLog, scheduleEvent_queue]
    intro i hi hmem
    rw [(map_id_pushEventQueue_perm _ _).mem_iff] at hmem
    rcases List.mem_cons.mp hmem with he | hmem
    · have : (⟨s.nextEventId, t, n, p, b⟩ : TimedEvent).id = s.nextEventId := rfl
      rw [this] at he
      have := hllt i hi
      omega
    · exact hlq i hi hmem
  · rw [scheduleEvent_execLog, scheduleEvent_active]
    intro i hi
    by_cases hmem : s.nextEventId ∈ s.activeEvents
    · rw [if_pos hmem]; exact hla i hi
    · rw [if_neg hmem]
      intro hmem2
      rcases List.mem_cons.mp hmem2 with rfl | hmem2
      · have := hllt _ hi
        omega
      · exact hla i hi hmem2

theorem cancelEvent_inv {s : TimedEventScheduler} (hs : EventSchedInv s) (j : Nat) :
    EventSchedInv (s.cancelEvent j).2 := by
  obtain ⟨hwf, hln, hlq, hla⟩ := hs
  refine ⟨cancelEvent_wf hwf j, ?_, ?_, ?_⟩
  · rw [cancelEvent_execLog]; exact hln
  · rw [cancelEvent_execLog, cancelEvent_queue]; exact hlq
  · rw [cancelEvent_execLog]
    intro i hi hmem
    exact hla i hi (cancelEvent_active_subset hmem)

theorem eclear_inv {s : TimedEventScheduler} (hs : EventSchedInv s) :
    EventSchedInv s.clear := by
  obtain ⟨hwf, hln, hlq, hla⟩ := hs
  refine ⟨eclear_wf hwf, ?_, ?_, ?_⟩
  · rw [eclear_execLog]; exact hln
  · rw [eclear_execLog, eclear_queue]
    intro i hi
    exact List.not_mem_nil i
  · rw [eclear_execLog, eclear_active]
    intro i hi
    exact List.not_mem_nil i

theorem eUpdateStep_inv {s : TimedEventScheduler} (hs : EventSchedInv s) :
    EventSchedInv s.updateStep := by
  obtain ⟨hwf, hln, hlq, hla⟩ := hs
  have hwf2 := eUpdateStep_wf hwf
  have hqlt := hwf.2.2.2.1
  have hllt := hwf.2.2.2.2.2.2
  have hqnd := hwf.2.2.1
  cases hq : s.eventQueue with
  | nil =>
    rw [eUpdateStep_nil hq]
    exact ⟨hwf, hln, hlq, hla⟩
  | cons ev rest =>
    by_cases hact : ev.id ∈ s.activeEvents
    · rw [eUpdateStep_exec hq hact]
      have hanotl : ev.id ∉ s.execLog := by
        intro hmem
        exact hlq ev.id hmem
          (by rw [hq]; exact List.mem_map_of_mem _ (List.mem_cons_self ev rest))
      have halt : ev.id < s.nextEventId := by
        have := hqlt ev (by rw [hq]; exact List.mem_cons_self ev rest)
        omega
      have hidrest : ev.id ∉ rest.map TimedEvent.id := by
        rw [hq] at hqnd
        have : (ev.id :: rest.map TimedEvent.id).Nodup := by simpa using hqnd
        exact (List.nodup_cons.mp this).1
      refine ⟨by rw [← eUpdateStep_exec hq hact]; exact hwf2, ?_, ?_, ?_⟩
      · rw [execEventResult_execLog]
        exact List.Nodup.append hln (by simp) (by
          intro x hx hy
          rcases List.mem_singleton.mp hy with rfl
          exact hanotl hx)
      · rw [execEventResult_execLog]
        intro i hi hmem
        rcases List.mem_map.mp hmem with ⟨x, hx, hxid⟩
        rcases execEventResult_queue_sub hx with h2 | h2
        · rcases List.mem_append.mp hi with hi | hi
          · exact hlq i hi (by
              rw [hq, ← hxid]
              exact List.mem_map_of_mem _ (List.mem_cons_of_mem ev h2))
          · rcases List.mem_singleton.mp hi with rfl
            exact hidrest (hxid ▸ List.mem_map_of_mem _ h2)
        · rcases List.mem_append.mp hi with hi | hi
          · have := hllt i hi
            omega
          · rcases List.mem_singleton.mp hi with rfl
            omega
      · rw [execEventResult_execLog]
        intro i hi hmem
        rcases execEventResult_active_sub hmem with h2 | h2
        · rcases List.mem_append.mp hi with hi | hi
          · exact hla i hi h2
          · rcases List.mem_singleton.mp hi with rfl
            exact absurd hmem (execEventResult_self_not_active s ev rest)
        · rcases List.mem_append.mp hi with hi | hi
          · have := hllt i hi
            omega
          · rcases List.mem_singleton.mp hi with rfl
            omega
    · rw [eUpdateStep_skip hq hact]
      refine ⟨by rw [← eUpdateStep_skip hq hact]; exact hwf2, hln, ?_, hla⟩
      intro i hi hmem
      exact hlq i hi (by
        rw [hq]
        rcases List.mem_map.mp hmem with ⟨x, hx, hxid⟩
        rw [← hxid]
        exact List.mem_map_of_mem _ (List.mem_cons_of_mem ev hx))

theorem eUpdate_inv {s : TimedEventScheduler} (hs : EventSchedInv s) (fuel : Nat)
    (t : Int) : EventSchedInv (s.update fuel t) := by
  induction fuel generalizing s with
  | zero => exact hs
  | succ f ih =>
    cases hq : s.eventQueue with
    | nil => rw [eUpdate_succ_nil f t hq]; exact hs
    | cons ev q =>
      by_cases hdue : ev.tick ≤ t
      · rw [eUpdate_succ_due f t hq hdue]
        exact ih (eUpdateStep_inv hs)
      · rw [eUpdate_succ_not_due f t hq hdue]
        exact hs

theorem eApplyOp_inv {s : TimedEventScheduler} (hs : EventSchedInv s) (op : EventOp) :
    EventSchedInv (s.applyOp op) := by
  cases op with
  | sched t p n b => exact scheduleEvent_inv hs t p n b
  | canc j => exact cancelEvent_inv hs j
  | upd fuel t => exact eUpdate_inv hs fuel t
  | clr => exact eclear_inv hs

theorem eRun_inv {s : TimedEventScheduler} (hs : EventSchedInv s) (ops : List EventOp) :
    EventSchedInv (s.run ops) := by
  induction ops generalizing s with
  | nil => exact hs
  | cons op ops ih => rw [eRun_cons]; exact ih (eApplyOp_inv hs op)

theorem eInit_inv : EventSchedInv TimedEventScheduler.init := by
  refine ⟨⟨?_, ?_, ?_, ?_, ?_, ?_, ?_⟩, ?_, ?_, ?_⟩ <;>
    simp [TimedEventScheduler.init]

/-! ### Execution ordering within one `update` call (timed events) -/

theorem eUpdate_ordering {s : TimedEventScheduler} {a1 a2 : TimedEvent} {fuel : Nat}
    {t : Int} (hs : EventSchedInv s) (h1 : a1 ∈ s.eventQueue) (h2 : a2 ∈ s.eventQueue)
    (ht : evLt a1 a2)
    (hl1 : a1.id ∈ (s.update fuel t).execLog)
    (hl2 : a2.id ∈ (s.update fuel t).execLog) :
    OccursBefore a1.id a2.id (s.update fuel t).execLog := by
  induction fuel generalizing s with
  | zero =>
    rw [eUpdate_zero] at hl2
    exact absurd (List.mem_map_of_mem TimedEvent.id h2) (fun hmem =>
      (hs.2.2.1 a2.id hl2) hmem)
  | succ f ih =>
    obtain ⟨hwf, hln, hlq, hla⟩ := hs
    have hqnd := hwf.2.2.1
    have hqlt := hwf.2.2.2.1
    cases hq : s.eventQueue with
    | nil =>
      rw [hq] at h1
      exact absurd h1 (List.not_mem_nil a1)
    | cons a rest =>
      by_cases hdue : a.tick ≤ t
      · rw [eUpdate_succ_due f t hq hdue] at hl1 hl2 ⊢
        have hamem : a ∈ s.eventQueue := by rw [hq]; exact List.mem_cons_self a rest
        have hinj := List.inj_on_of_nodup_map hqnd
        have hne12 : a1.id ≠ a2.id := by
          intro he
          have heq : a1 = a2 := hinj h1 h2 he
          rw [heq] at ht
          exact evLt_asymm ht ht
        have hn1log : a1.id ∉ s.execLog := by
          intro hmem
          exact hlq a1.id hmem (List.mem_map_of_mem _ h1)
        have hn2log : a2.id ∉ s.execLog := by
          intro hmem
          exact hlq a2.id hmem (List.mem_map_of_mem _ h2)
        have ha1lt : a1.id < s.nextEventId := (hqlt a1 h1).2
        have ha2lt : a2.id < s.nextEventId := (hqlt a2 h2).2
        by_cases hid2 : a.id = a2.id
        · have haeq : a = a2 := hinj hamem h2 hid2
          have h1rest : a1 ∈ rest := by
            rw [hq] at h1
            rcases List.mem_cons.mp h1 with rfl | h1
            · rw [haeq] at ht
              exact absurd ht (evLt_asymm ht)
            · exact h1
          have hmin : ¬ evLt a1 a := by
            have hsorted := hwf.2.1
            rw [hq] at hsorted
            exact (List.pairwise_cons.mp hsorted).1 a1 h1rest
          rw [haeq] at hmin
          exact absurd ht hmin
        · by_cases hid1 : a.id = a1.id
          · have haeq : a = a1 := hinj hamem h1 hid1
            by_cases hact : a.id ∈ s.activeEvents
            · have hstep := eUpdateStep_exec hq hact
              have hlog : s.updateStep.execLog = s.execLog ++ [a1.id] := by
                rw [hstep, execEventResult_execLog, hid1]
              refine occursBefore_of_prefix (p := s.execLog ++ [a1.id]) ?_ ?_ ?_ hl2
              · rw [← hlog]
                exact eUpdate_execLog_extends s.updateStep f t
              · exact List.mem_append_right _ (List.mem_singleton.mpr rfl)
              · intro hmem
                rcases List.mem_append.mp hmem with hmem | hmem
                · exact hn2log hmem
                · exact hne12 (List.mem_singleton.mp hmem).symm
            · have hret : EventRetired a1.id s.updateStep := by
                rw [eUpdateStep_skip hq hact]
                rw [hid1] at hact
                exact ⟨ha1lt, hact, hn1log⟩
              have := (eUpdate_retired hret f t).2.2
              exact absurd hl1 this
          · have hne1 : a1 ≠ a := fun he => hid1 (by rw [he])
            have hne2 : a2 ≠ a := fun he => hid2 (by rw [he])
            have hlogstep : a1.id ∉ s.updateStep.execLog ∧
                a2.id ∉ s.updateStep.execLog := by
              rcases eUpdateStep_execLog_shape s with he | ⟨b, rest2, hq2, _, he⟩
              · rw [he]; exact ⟨hn1log, hn2log⟩
              · have hba : b = a := by
                  rw [hq] at hq2
                  injection hq2 with hh hrest
                  exact hh.symm
                rw [he, hba]
                constructor
                · intro hmem
                  rcases List.mem_append.mp hmem with hmem | hmem
                  · exact hn1log hmem
                  · exact hid1 (List.mem_singleton.mp hmem).symm
                · intro hmem
                  rcases List.mem_append.mp hmem with hmem | hmem
                  · exact hn2log hmem
                  · exact hid2 (List.mem_singleton.mp hmem).symm
            rcases eUpdateStep_track hq h1 ha1lt hne1 with ht1 | ht1
            · rcases eUpdateStep_track hq h2 ha2lt hne2 with ht2 | ht2
              · exact ih (eUpdateStep_inv ⟨hwf, hln, hlq, hla⟩) ht1 ht2 hl1 hl2
              · have hret : EventRetired a2.id s.updateStep :=
                  ⟨lt_of_lt_of_le ha2lt (eUpdateStep_nextId_le s), ht2, hlogstep.2⟩
                exact absurd hl2 (eUpdate_retired hret f t).2.2
            · have hret : EventRetired a1.id s.updateStep :=
                ⟨lt_of_lt_of_le ha1lt (eUpdateStep_nextId_le s), ht1, hlogstep.1⟩
              exact absurd hl1 (eUpdate_retired hret f t).2.2
      · rw [eUpdate_succ_not_due f t hq hdue] at hl2
        exact absurd (List.mem_map_of_mem TimedEvent.id h2) (fun hmem =>
          (hlq a2.id hl2) hmem)

/-! ### Draining and termination of `update` (timed events) -/

/-- Number of queued events due at tick `t`. -/
def eDueCount (s : TimedEventScheduler) (t : Int) : Nat :=
  (s.eventQueue.filter (fun a => decide (a.tick ≤ t))).length

/-- The event body only schedules events with tick strictly greater
than `t`. -/
def eFutureOnly (t : Int) : EventBody → Bool
  | .scheduleCall t2 _ _ => decide (t < t2)
  | .seq b₁ b₂ => eFutureOnly t b₁ && eFutureOnly t b₂
  | _ => true

/-- Every due, still-active queued event only schedules future work. -/
def EventFutureSafe (t : Int) (s : TimedEventScheduler) : Prop :=
  ∀ a ∈ s.eventQueue, a.tick ≤ t → a.id ∈ s.activeEvents →
    eFutureOnly t a.body = true

/-- No queued event is due. -/
def EventNoDue (s : TimedEventScheduler) (t : Int) : Prop :=
  ∀ a ∈ s.eventQueue, ¬ a.tick ≤ t

theorem runEventBody_due_mem {t : Int} {b : EventBody} {s : TimedEventScheduler}
    {x : TimedEvent} (hb : eFutureOnly t b = true)
    (hx : x ∈ (runEventBody b s).eventQueue) (hdue : x.tick ≤ t) :
    x ∈ s.eventQueue := by
  induction b generalizing s with
  | nop => exact hx
  | cancelCall j =>
    simp only [runEventBody] at hx
    rw [cancelEvent_queue] at hx
    exact hx
  | scheduleCall t2 p2 act =>
    simp only [runEventBody] at hx
    rw [scheduleEvent_queue] at hx
    rcases mem_pushEventQueue.mp hx with rfl | hx
    · exfalso
      simp only [eFutureOnly, decide_eq_true_eq] at hb
      revert hdue
      simp
      omega
    · exact hx
  | clearCall =>
    simp only [runEventBody, TimedEventScheduler.clear] at hx
    exact absurd hx (List.not_mem_nil x)
  | seq b₁ b₂ ih₁ ih₂ =>
    simp only [eFutureOnly, Bool.and_eq_true] at hb
    simp only [runEventBody] at hx
    exact ih₁ hb.1 (ih₂ hb.2 hx)

theorem runEventBody_dueCount_le {t : Int} {b : EventBody} {s : TimedEventScheduler}
    (hb : eFutureOnly t b = true) :
    eDueCount (runEventBody b s) t ≤ eDueCount s t := by
  induction b generalizing s with
  | nop => exact le_refl _
  | cancelCall j =>
    simp only [runEventBody]
    unfold eDueCount
    rw [cancelEvent_queue]
  | scheduleCall t2 p2 act =>
    simp only [runEventBody]
    unfold eDueCount
    rw [scheduleEvent_queue]
    rw [((pushEventQueue_perm _ _).filter _).length_eq]
    simp only [eFutureOnly, decide_eq_true_eq] at hb
    rw [List.filter_cons]
    have : ¬ ((⟨s.nextEventId, t2, "", p2, act⟩ : TimedEvent).tick ≤ t) := by
      show ¬ (t2 ≤ t)
      omega
    simp [this]
  | clearCall =>
    simp only [runEventBody]
    unfold eDueCount
    rw [eclear_queue]
    simp
  | seq b₁ b₂ ih₁ ih₂ =>
    simp only [eFutureOnly, Bool.and_eq_true] at hb
    simp only [runEventBody]
    exact le_trans (ih₂ hb.2) (ih₁ hb.1)

theorem execEventResult_due_mem {t : Int} {s : TimedEventScheduler}
    {ev x : TimedEvent} {rest : List TimedEvent}
    (hb : eFutureOnly t ev.body = true)
    (hx : x ∈ (execEventResult s ev rest).eventQueue) (hdue : x.tick ≤ t) :
    x ∈ rest := by
  simp only [execEventResult, emk_eventQueue] at hx
  exact runEventBody_due_mem hb hx hdue

theorem execEventResult_dueCount_le {t : Int} {s : TimedEventScheduler}
    {ev : TimedEvent} {rest : List TimedEvent} (hb : eFutureOnly t ev.body = true) :
    eDueCount (execEventResult s ev rest) t ≤
      (rest.filter (fun x => decide (x.tick ≤ t))).length := by
  have h1 := runEventBody_dueCount_le (b := ev.body)
    (s := { s with eventQueue := rest, execLog := s.execLog ++ [ev.id] }) hb
  unfold eDueCount at h1 ⊢
  simp only [execEventResult, emk_eventQueue] at h1 ⊢
  exact h1

theorem eDueCount_cons_due {s : TimedEventScheduler} {ev : TimedEvent}
    {rest : List TimedEvent} {t : Int} (hq : s.eventQueue = ev :: rest)
    (hdue : ev.tick ≤ t) :
    eDueCount s t = (rest.filter (fun x => decide (x.tick ≤ t))).length + 1 := by
  unfold eDueCount
  rw [hq, List.filter_cons]
  simp [hdue]

theorem eUpdateStep_dueCount {s : TimedEventScheduler} {ev : TimedEvent}
    {rest : List TimedEvent} {t : Int} (hq : s.eventQueue = ev :: rest)
    (hdue : ev.tick ≤ t) (hfs : EventFutureSafe t s) :
    eDueCount s.updateStep t ≤ (rest.filter (fun x => decide (x.tick ≤ t))).length := by
  by_cases hact : ev.id ∈ s.activeEvents
  · rw [eUpdateStep_exec hq hact]
    have hamem : ev ∈ s.eventQueue := by rw [hq]; exact List.mem_cons_self ev rest
    exact execEventResult_dueCount_le (hfs ev hamem hdue hact)
  · rw [eUpdateStep_skip hq hact]
    unfold eDueCount
    simp

theorem eUpdateStep_futureSafe {s : TimedEventScheduler} {ev : TimedEvent}
    {rest : List TimedEvent} {t : Int} (hq : s.eventQueue = ev :: rest)
    (hdue : ev.tick ≤ t) (hwf : EventSchedWf s) (hfs : EventFutureSafe t s) :
    EventFutureSafe t s.updateStep := by
  intro x hx hxdue hxact
  have hqlt := hwf.2.2.2.1
  by_cases hact : ev.id ∈ s.activeEvents
  · rw [eUpdateStep_exec hq hact] at hx hxact
    have hamem : ev ∈ s.eventQueue := by rw [hq]; exact List.mem_cons_self ev rest
    have hb := hfs ev hamem hdue hact
    have hxrest : x ∈ rest := execEventResult_due_mem hb hx hxdue
    have hxq : x ∈ s.eventQueue := by rw [hq]; exact List.mem_cons_of_mem ev hxrest
    have hxlt : x.id < s.nextEventId := (hqlt x hxq).2
    rcases execEventResult_active_sub hxact with h2 | h2
    · exact hfs x hxq hxdue h2
    · omega
  · rw [eUpdateStep_skip hq hact] at hx hxact
    have hxq : x ∈ s.eventQueue := by rw [hq]; exact List.mem_cons_of_mem ev hx
    exact hfs x hxq hxdue hxact

theorem eNoDue_nil {s : TimedEventScheduler} {t : Int} (hq : s.eventQueue = []) :
    EventNoDue s t := by
  intro a ha
  rw [hq] at ha
  exact absurd ha (List.not_mem_nil a)

theorem eNoDue_of_head {s : TimedEventScheduler} {ev : TimedEvent}
    {rest : List TimedEvent} {t : Int} (hwf : EventSchedWf s)
    (hq : s.eventQueue = ev :: rest) (hnd : ¬ ev.tick ≤ t) : EventNoDue s t := by
  intro x hx
  have hsorted := hwf.2.1
  rw [hq] at hsorted hx
  rcases List.mem_cons.mp hx with rfl | hx
  · exact hnd
  · have := (List.pairwise_cons.mp hsorted).1 x hx
    unfold evLt at this
    omega

theorem eUpdate_eq_of_noDue {s : TimedEventScheduler} {t : Int} (h : EventNoDue s t)
    (f : Nat) : s.update f t = s := by
  cases f with
  | zero => exact eUpdate_zero s t
  | succ f =>
    cases hq : s.eventQueue with
    | nil => exact eUpdate_succ_nil f t hq
    | cons ev rest =>
      refine eUpdate_succ_not_due f t hq ?_
      exact h ev (by rw [hq]; exact List.mem_cons_self ev rest)

theorem eNoDue_of_dueCount_zero {s : TimedEventScheduler} {t : Int}
    (h : eDueCount s t = 0) : EventNoDue s t := by
  intro a ha hdue
  unfold eDueCount at h
  rw [List.length_eq_zero] at h
  have : a ∈ s.eventQueue.filter (fun x => decide (x.tick ≤ t)) :=
    List.mem_filter.mpr ⟨ha, by simpa using hdue⟩
  rw [h] at this
  exact absurd this (List.not_mem_nil a)

theorem eUpdate_drains {t : Int} : ∀ (fuel : Nat) (s : TimedEventScheduler),
    EventSchedWf s → EventFutureSafe t s → eDueCount s t ≤ fuel →
    EventNoDue (s.update fuel t) t := by
  intro fuel
  induction fuel with
  | zero =>
    intro s _ _ hd
    rw [eUpdate_zero]
    exact eNoDue_of_dueCount_zero (Nat.le_zero.mp hd)
  | succ f ih =>
    intro s hwf hfs hd
    cases hq : s.eventQueue with
    | nil =>
      rw [eUpdate_succ_nil f t hq]
      exact eNoDue_nil hq
    | cons ev rest =>
      by_cases hdue : ev.tick ≤ t
      · rw [eUpdate_succ_due f t hq hdue]
        refine ih s.updateStep (eUpdateStep_wf hwf)
          (eUpdateStep_futureSafe hq hdue hwf hfs) ?_
        have h1 := eUpdateStep_dueCount hq hdue hfs
        have h2 := eDueCount_cons_due hq hdue
        omega
      · rw [eUpdate_succ_not_due f t hq hdue]
        exact eNoDue_of_head hwf hq hdue

theorem eUpdate_stable {t : Int} : ∀ (fuel : Nat) (s : TimedEventScheduler),
    EventSchedWf s → EventFutureSafe t s → eDueCount s t ≤ fuel →
    ∀ extra, s.update (fuel + extra) t = s.update fuel t := by
  intro fuel
  induction fuel with
  | zero =>
    intro s _ _ hd extra
    have hnd := eNoDue_of_dueCount_zero (Nat.le_zero.mp hd)
    rw [Nat.zero_add, eUpdate_eq_of_noDue hnd extra, eUpdate_zero]
  | succ f ih =>
    intro s hwf hfs hd extra
    cases hq : s.eventQueue with
    | nil =>
      have hnd := eNoDue_nil (s := s) (t := t) hq
      rw [eUpdate_eq_of_noDue hnd _, eUpdate_eq_of_noDue hnd _]
    | cons ev rest =>
      by_cases hdue : ev.tick ≤ t
      · have he : f + 1 + extra = (f + extra) + 1 := by omega
        rw [he, eUpdate_succ_due (f + extra) t hq hdue, eUpdate_succ_due f t hq hdue]
        refine ih s.updateStep (eUpdateStep_wf hwf)
          (eUpdateStep_futureSafe hq hdue hwf hfs) ?_ extra
        have h1 := eUpdateStep_dueCount hq hdue hfs
        have h2 := eDueCount_cons_due hq hdue
        omega
      · have hnd := eNoDue_of_head hwf hq hdue
        rw [eUpdate_eq_of_noDue hnd _, eUpdate_eq_of_noDue hnd _]

/-! ### Claim theorems -/

/-- Idealized-counter at-most-once: with the unbounded id counter (exact
for the program until 2^32 ids have been allocated), every id's
action/event body is invoked at most once over the scheduler's
lifetime, across any sequence of schedule, cancel, update and clear
calls.  The wrapping `uint32_t` counter breaks this at id reuse; see
`c1_wrap_double_execution`. -/
theorem noWrap_at_most_once_execution :
    (∀ (r : Registry) (ops : List SchedOp) (id : Nat),
      ((Scheduler.init r).run ops).execLog.count id ≤ 1) ∧
    (∀ (ops : List EventOp) (id : Nat),
      (TimedEventScheduler.init.run ops).execLog.count id ≤ 1) := by
  constructor
  · intro r ops id
    exact List.nodup_iff_count_le_one.mp (run_inv (init_inv r) ops).2.1 id
  · intro ops id
    exact List.nodup_iff_count_le_one.mp (eRun_inv eInit_inv ops).2.1 id

/-- Idealized-counter cancellation safety: with the unbounded id counter
(exact for the program until 2^32 ids have been allocated), cancelling
before execution is permanent — if `id` is already allocated and its
body has not run, then after `cancel id` it never runs, across any
further operations (first conjunct) and likewise from any mid-`update`
state in which `id` is no longer active (second conjunct, covering
cancellation from inside another item's callback during the same
`update` call); `cancel` returns true iff the id is pending, false on
every call after the id left the active set, and false for ids never
returned by `schedule`; the final two conjuncts mirror this for
`cancelEvent`.  Id reuse by the wrapping `uint32_t` counter breaks the
permanence; see `c2_wrap_cancelled_executes`. -/
theorem noWrap_cancellation_safety :
    (∀ (r : Registry) (ops₁ ops₂ : List SchedOp) (id : Nat),
      id < ((Scheduler.init r).run ops₁).nextActionId →
      id ∉ ((Scheduler.init r).run ops₁).execLog →
      id ∉ ((((Scheduler.init r).run ops₁).cancel id).2.run ops₂).execLog) ∧
    (∀ (s : Scheduler) (fuel : Nat) (t : Int) (id : Nat),
      id < s.nextActionId → id ∉ s.activeActions → id ∉ s.execLog →
      id ∉ (s.update fuel t).execLog) ∧
    (∀ (s : Scheduler) (id : Nat), (s.cancel id).1 = true ↔ id ∈ s.activeActions) ∧
    (∀ (s : Scheduler) (ops : List SchedOp) (id : Nat),
      id < s.nextActionId → id ∉ s.activeActions →
      ((s.run ops).cancel id).1 = false) ∧
    (∀ (r : Registry) (ops : List SchedOp) (id : Nat),
      id = 0 ∨ ((Scheduler.init r).run ops).nextActionId ≤ id →
      (((Scheduler.init r).run ops).cancel id).1 = false) ∧
    (∀ (s : TimedEventScheduler) (ops : List EventOp) (id : Nat),
      id < s.nextEventId → id ∉ s.activeEvents → id ∉ s.execLog →
      id ∉ (s.run ops).execLog) ∧
    (∀ (s : TimedEventScheduler) (id : Nat),
      (s.cancelEvent id).1 = true ↔ id ∈ s.activeEvents) := by
  refine ⟨?_, ?_, ?_, ?_, ?_, ?_, ?_⟩
  · intro r ops₁ ops₂ id hlt hlog
    have hret : Retired id (((Scheduler.init r).run ops₁).cancel id).2 := by
      refine ⟨?_, ?_, ?_⟩
      · rw [cancel_nextId]; exact hlt
      · exact cancel_self_not_active _ id
      · rw [cancel_execLog]; exact hlog
    exact (run_retired hret ops₂).2.2
  · intro s fuel t id hlt hact hlog
    exact (update_retired ⟨hlt, hact, hlog⟩ fuel t).2.2
  · intro s id
    by_cases h : id ∈ s.activeActions
    · rw [cancel_pos h]; simpa using h
    · rw [cancel_neg h]; simpa using h
  · intro s ops id hlt hact
    have h := @run_inactive id s ⟨hlt, hact⟩ ops
    rw [cancel_neg h.2]
  · intro r ops id h
    have hwf := (run_inv (init_inv r) ops).1
    have halt := hwf.2.2.2.2.2.1
    have hact : id ∉ ((Scheduler.init r).run ops).activeActions := by
      intro hmem
      have := halt id hmem
      omega
    rw [cancel_neg hact]
  · intro s ops id hlt hact hlog
    exact (eRun_retired ⟨hlt, hact, hlog⟩ ops).2.2
  · intro s id
    by_cases h : id ∈ s.activeEvents
    · rw [cancelEvent_pos h]; simpa using h
    · rw [cancelEvent_neg h]; simpa using h

/-- Concrete check of `noWrap_cancellation_safety` on the spec's
Scenario C: schedule an action at tick 8 (id 1), then an action at
tick 5 whose completion callback cancels id 1; after `update` at tick 5
the id is unexecuted, and a subsequent `update` at tick 8 never runs
it. -/
theorem noWrap_cancellation_safety_check :
    1 < ((Scheduler.init ⟨[7], []⟩).run
      [SchedOp.sched 8 7 (ActionBody.dealDamage 1) none,
       SchedOp.sched 5 7 ActionBody.nop (some (ActionBody.cancelCall 1)),
       SchedOp.upd 10 5]).nextActionId ∧
    1 ∉ ((((Scheduler.init ⟨[7], []⟩).run
      [SchedOp.sched 8 7 (ActionBody.dealDamage 1) none,
       SchedOp.sched 5 7 ActionBody.nop (some (ActionBody.cancelCall 1)),
       SchedOp.upd 10 5]).cancel 1).2.run [SchedOp.upd 10 8]).execLog :=
  ⟨by decide,
    noWrap_cancellation_safety.1 ⟨[7], []⟩
      [SchedOp.sched 8 7 (ActionBody.dealDamage 1) none,
       SchedOp.sched 5 7 ActionBody.nop (some (ActionBody.cancelCall 1)),
       SchedOp.upd 10 5]
      [SchedOp.upd 10 8] 1 (by decide) (by decide)⟩

/-- C3: within a single `update` call, of two queued items with strictly
increasing ticks that both execute, the earlier-tick item's body runs
first (first conjunct, via the ghost log); in particular Scenario A —
scheduling a damage-10 action at tick 5 and then a damage-15 action at
tick 3 on a valid target and calling `update` at tick 5 runs the tick-3
action (id 2) before the tick-5 action (id 1), leaving cumulative
damage 25. -/
theorem c3_tick_ordering :
    (∀ (s : Scheduler) (fuel : Nat) (t : Int) (a1 a2 : ScheduledAction),
      SchedulerInv s → a1 ∈ s.queue → a2 ∈ s.queue → a1.tick < a2.tick →
      a1.id ∈ (s.update fuel t).execLog → a2.id ∈ (s.update fuel t).execLog →
      OccursBefore a1.id a2.id (s.update fuel t).execLog) ∧
    ((Scheduler.init ⟨[7], []⟩).run
      [SchedOp.sched 5 7 (ActionBody.dealDamage 10) none,
       SchedOp.sched 3 7 (ActionBody.dealDamage 15) none,
       SchedOp.upd 10 5]).execLog = [2, 1] ∧
    ((Scheduler.init ⟨[7], []⟩).run
      [SchedOp.sched 5 7 (ActionBody.dealDamage 10) none,
       SchedOp.sched 3 7 (ActionBody.dealDamage 15) none,
       SchedOp.upd 10 5]).registry.damageOf 7 = 25 := by
  refine ⟨?_, by decide, by decide⟩
  intro s fuel t a1 a2 hs h1 h2 ht hl1 hl2
  exact update_ordering hs h1 h2 ht hl1 hl2

/-- Witness for C3: the general ordering conjunct applied to the
Scenario A state — the tick-3 item (id 2) occurs in the execution log
before the tick-5 item (id 1). -/
theorem c3_tick_ordering_witness :
    (⟨2, 3, 7, ActionBody.dealDamage 15, none⟩ : ScheduledAction) ∈
      ((Scheduler.init ⟨[7], []⟩).run
        [SchedOp.sched 5 7 (ActionBody.dealDamage 10) none,
         SchedOp.sched 3 7 (ActionBody.dealDamage 15) none]).queue ∧
    OccursBefore 2 1
      ((((Scheduler.init ⟨[7], []⟩).run
        [SchedOp.sched 5 7 (ActionBody.dealDamage 10) none,
         SchedOp.sched 3 7 (ActionBody.dealDamage 15) none]).update 10 5).execLog) :=
  ⟨by decide,
    c3_tick_ordering.1
      ((Scheduler.init ⟨[7], []⟩).run
        [SchedOp.sched 5 7 (ActionBody.dealDamage 10) none,
         SchedOp.sched 3 7 (ActionBody.dealDamage 15) none])
      10 5
      ⟨2, 3, 7, ActionBody.dealDamage 15, none⟩
      ⟨1, 5, 7, ActionBody.dealDamage 10, none⟩
      (by unfold SchedulerInv SchedulerWf; decide)
      (by decide) (by decide) (by decide) (by decide) (by decide)⟩

/-- C4: in the TimedEventScheduler, of two queued events with equal tick
and the first having strictly higher priority that both execute within
`update`, the higher-priority body runs first (first conjunct); in
particular Scenario B — scheduling an event at tick 4 priority 0 (id 1)
and one at tick 4 priority 10 (id 2) and calling `update` at tick 4
executes the priority-10 event before the priority-0 event. -/
theorem c4_priority_ordering :
    (∀ (s : TimedEventScheduler) (fuel : Nat) (t : Int) (e1 e2 : TimedEvent),
      EventSchedInv s → e1 ∈ s.eventQueue → e2 ∈ s.eventQueue →
      e1.tick = e2.tick → e2.priority < e1.priority →
      e1.id ∈ (s.update fuel t).execLog → e2.id ∈ (s.update fuel t).execLog →
      OccursBefore e1.id e2.id (s.update fuel t).execLog) ∧
    (TimedEventScheduler.init.run
      [EventOp.sched 4 0 "" EventBody.nop,
       EventOp.sched 4 10 "" EventBody.nop,
       EventOp.upd 10 4]).execLog = [2, 1] := by
  refine ⟨?_, by decide⟩
  intro s fuel t e1 e2 hs h1 h2 hteq hp hl1 hl2
  exact eUpdate_ordering hs h1 h2 (Or.inr ⟨hteq, hp⟩) hl1 hl2

/-- Witness for C4: the general conjunct applied to the Scenario B
state — the priority-10 event (id 2) occurs in the log before the
priority-0 event (id 1). -/
theorem c4_priority_ordering_witness :
    (⟨2, 4, "", 10, EventBody.nop⟩ : TimedEvent) ∈
      (TimedEventScheduler.init.run
        [EventOp.sched 4 0 "" EventBody.nop,
         EventOp.sched 4 10 "" EventBody.nop]).eventQueue ∧
    OccursBefore 2 1
      (((TimedEventScheduler.init.run
        [EventOp.sched 4 0 "" EventBody.nop,
         EventOp.sched 4 10 "" EventBody.nop]).update 10 4).execLog) :=
  ⟨by decide,
    c4_priority_ordering.1
      (TimedEventScheduler.init.run
        [EventOp.sched 4 0 "" EventBody.nop,
         EventOp.sched 4 10 "" EventBody.nop])
      10 4
      ⟨2, 4, "", 10, EventBody.nop⟩
      ⟨1, 4, "", 0, EventBody.nop⟩
      (by unfold EventSchedInv EventSchedWf evLt; decide)
      (by decide) (by decide) (by decide) (by decide) (by decide) (by decide)⟩

/-- C5: when `update` reaches a due, still-active action whose target
entity is invalid, the iteration only pops the action and erases its id
from the active set — the registry, the dispatcher queue and the
execution log are untouched (so neither `action` nor `onComplete` ran
and no `ActionCompletedEvent` was enqueued), and no error occurs (the
function is total); Scenario D: scheduling on an absent entity and
updating past the tick produces no side effects, no event, and an empty
active set. -/
theorem c5_validity_gate :
    (∀ (s : Scheduler) (a : ScheduledAction) (rest : List ScheduledAction),
      s.queue = a :: rest → a.id ∈ s.activeActions → a.entity ∉ s.registry.alive →
      s.updateStep =
        { s with queue := rest,
                 activeActions := s.activeActions.filter (fun i => i != a.id) }) ∧
    ((Scheduler.init ⟨[7], []⟩).run
      [SchedOp.sched 5 9 (ActionBody.dealDamage 10) none, SchedOp.upd 10 5]).execLog
        = [] ∧
    ((Scheduler.init ⟨[7], []⟩).run
      [SchedOp.sched 5 9 (ActionBody.dealDamage 10) none, SchedOp.upd 10 5]).dispatched
        = [] ∧
    ((Scheduler.init ⟨[7], []⟩).run
      [SchedOp.sched 5 9 (ActionBody.dealDamage 10) none, SchedOp.upd 10 5]).registry
        = ⟨[7], []⟩ ∧
    ((Scheduler.init ⟨[7], []⟩).run
      [SchedOp.sched 5 9 (ActionBody.dealDamage 10) none, SchedOp.upd 10 5]).activeActions
        = [] := by
  refine ⟨?_, by decide, by decide, by decide, by decide⟩
  intro s a rest hq hact hval
  exact updateStep_invalid hq hact hval

/-- Witness for C5: one loop iteration on a concrete state whose head
action (id 1, tick 5) targets the absent entity 9 discards the item and
nothing else. -/
theorem c5_validity_gate_witness :
    (Scheduler.mk [⟨1, 5, 9, ActionBody.dealDamage 10, none⟩] [1] 2 ⟨[7], []⟩ [] []).updateStep =
      Scheduler.mk [] [] 2 ⟨[7], []⟩ [] [] :=
  (c5_validity_gate.1
    (Scheduler.mk [⟨1, 5, 9, ActionBody.dealDamage 10, none⟩] [1] 2 ⟨[7], []⟩ [] [])
    ⟨1, 5, 9, ActionBody.dealDamage 10, none⟩ [] rfl (by decide) (by decide)).trans
    (by decide)

/-- C6: `cancel` returns true iff the id was pending at the time of the
call; for a pending id two consecutive calls return true then false;
when it returns false it leaves the scheduler unchanged — and the same
holds for `cancelEvent` on the event variant. -/
theorem c6_cancel_contract :
    (∀ (s : Scheduler) (id : Nat),
      ((s.cancel id).1 = true ↔ id ∈ s.activeActions) ∧
      (id ∈ s.activeActions →
        (s.cancel id).1 = true ∧ ((s.cancel id).2.cancel id).1 = false) ∧
      ((s.cancel id).1 = false → (s.cancel id).2 = s)) ∧
    (∀ (s : TimedEventScheduler) (id : Nat),
      ((s.cancelEvent id).1 = true ↔ id ∈ s.activeEvents) ∧
      (id ∈ s.activeEvents →
        (s.cancelEvent id).1 = true ∧ ((s.cancelEvent id).2.cancelEvent id).1 = false) ∧
      ((s.cancelEvent id).1 = false → (s.cancelEvent id).2 = s)) := by
  constructor
  · intro s id
    refine ⟨?_, ?_, ?_⟩
    · by_cases h : id ∈ s.activeActions
      · rw [cancel_pos h]; simpa using h
      · rw [cancel_neg h]; simpa using h
    · intro h
      refine ⟨by rw [cancel_pos h], ?_⟩
      rw [cancel_neg (cancel_self_not_active s id)]
    · intro h
      by_cases hmem : id ∈ s.activeActions
      · rw [cancel_pos hmem] at h
        exact absurd h (by simp)
      · rw [cancel_neg hmem]
  · intro s id
    refine ⟨?_, ?_, ?_⟩
    · by_cases h : id ∈ s.activeEvents
      · rw [cancelEvent_pos h]; simpa using h
      · rw [cancelEvent_neg h]; simpa using h
    · intro h
      refine ⟨by rw [cancelEvent_pos h], ?_⟩
      rw [cancelEvent_neg (cancelEvent_self_not_active s id)]
    · intro h
      by_cases hmem : id ∈ s.activeEvents
      · rw [cancelEvent_pos hmem] at h
        exact absurd h (by simp)
      · rw [cancelEvent_neg hmem]

/-- Witness for C6: on a scheduler with pending id 1, cancelling twice
returns true then false. -/
theorem c6_cancel_contract_witness :
    ((Scheduler.mk [⟨1, 5, 7, ActionBody.nop, none⟩] [1] 2 ⟨[7], []⟩ [] []).cancel 1).1 = true ∧
    (((Scheduler.mk [⟨1, 5, 7, ActionBody.nop, none⟩] [1] 2 ⟨[7], []⟩ [] []).cancel 1).2.cancel 1).1 = false :=
  (c6_cancel_contract.1
    (Scheduler.mk [⟨1, 5, 7, ActionBody.nop, none⟩] [1] 2 ⟨[7], []⟩ [] []) 1).2.1
    (by decide)

/-- Idealized-counter id allocation: with the unbounded counter (exact
for the program until 2^32 ids have been allocated), ids returned by
successive `schedule`/`scheduleEvent` calls are strictly increasing
(hence pairwise distinct) across any intervening operations including
`clear`, and 0 is never returned.  The wrapping `uint32_t` counter
returns 0 at the wrap and then repeats ids; see
`c7_wrap_returns_zero`. -/
theorem noWrap_id_monotonic :
    (∀ (s : Scheduler) (ops : List SchedOp) (t : Int) (e : Nat) (b : ActionBody)
        (oc : Option ActionBody) (t2 : Int) (e2 : Nat) (b2 : ActionBody)
        (oc2 : Option ActionBody),
      SchedulerWf s →
      1 ≤ (s.schedule t e b oc).1 ∧
      (s.schedule t e b oc).1 <
        (((s.schedule t e b oc).2.run ops).schedule t2 e2 b2 oc2).1) ∧
    (∀ (s : TimedEventScheduler) (ops : List EventOp) (t p : Int) (n : String)
        (b : EventBody) (t2 p2 : Int) (n2 : String) (b2 : EventBody),
      EventSchedWf s →
      1 ≤ (s.scheduleEvent t p n b).1 ∧
      (s.scheduleEvent t p n b).1 <
        (((s.scheduleEvent t p n b).2.run ops).scheduleEvent t2 p2 n2 b2).1) := by
  constructor
  · intro s ops t e b oc t2 e2 b2 oc2 hwf
    rw [schedule_fst, schedule_fst]
    refine ⟨hwf.1, ?_⟩
    have h1 := run_nextId_le (s.schedule t e b oc).2 ops
    rw [schedule_nextId] at h1
    omega
  · intro s ops t p n b t2 p2 n2 b2 hwf
    rw [scheduleEvent_fst, scheduleEvent_fst]
    refine ⟨hwf.1, ?_⟩
    have h1 := eRun_nextId_le (s.scheduleEvent t p n b).2 ops
    rw [scheduleEvent_nextId] at h1
    omega

/-- Concrete check of `noWrap_id_monotonic`: on a fresh scheduler,
schedule (id 1), then clear, then the id returned by the next schedule
is strictly larger. -/
theorem noWrap_id_monotonic_check :
    1 ≤ ((Scheduler.init ⟨[7], []⟩).schedule 5 7 ActionBody.nop none).1 ∧
    ((Scheduler.init ⟨[7], []⟩).schedule 5 7 ActionBody.nop none).1 <
      ((((Scheduler.init ⟨[7], []⟩).schedule 5 7 ActionBody.nop none).2.run
        [SchedOp.clr]).schedule 3 7 ActionBody.nop none).1 :=
  noWrap_id_monotonic.1 (Scheduler.init ⟨[7], []⟩) [SchedOp.clr] 5 7 ActionBody.nop none
    3 7 ActionBody.nop none (by unfold SchedulerWf; decide)

/-- C8: `update` terminates — with fuel at least the number of due
queued items, and under the side condition that every due active
callback only schedules items with tick strictly greater than the
current tick, the loop reaches a state it never leaves (extra fuel
changes nothing), and on return no still-active item with
`tick ≤ current_tick` remains queued; likewise for the event variant.
(Callback bodies in this model are always terminating by
construction.) -/
theorem c8_update_terminates :
    (∀ (s : Scheduler) (t : Int) (fuel : Nat),
      SchedulerWf s → FutureSafe t s → dueCount s t ≤ fuel →
      (∀ extra, s.update (fuel + extra) t = s.update fuel t) ∧
      (∀ a ∈ (s.update fuel t).queue,
        a.id ∈ (s.update fuel t).activeActions → ¬ a.tick ≤ t)) ∧
    (∀ (s : TimedEventScheduler) (t : Int) (fuel : Nat),
      EventSchedWf s → EventFutureSafe t s → eDueCount s t ≤ fuel →
      (∀ extra, s.update (fuel + extra) t = s.update fuel t) ∧
      (∀ a ∈ (s.update fuel t).eventQueue,
        a.id ∈ (s.update fuel t).activeEvents → ¬ a.tick ≤ t)) := by
  constructor
  · intro s t fuel hwf hfs hd
    refine ⟨update_stable fuel s hwf hfs hd, ?_⟩
    intro a ha _
    exact update_drains fuel s hwf hfs hd a ha
  · intro s t fuel hwf hfs hd
    refine ⟨eUpdate_stable fuel s hwf hfs hd, ?_⟩
    intro a ha _
    exact eUpdate_drains fuel s hwf hfs hd a ha

/-- Witness for C8: on a two-item queue (ticks 3 and 5, the tick-3
action schedules a follow-up at tick 9 > 5), fuel 2 drains everything
due at tick 5 and one more unit of fuel changes nothing. -/
theorem c8_update_terminates_witness :
    ((Scheduler.mk
        [⟨1, 3, 7, ActionBody.scheduleCall 9 7 ActionBody.nop, none⟩,
         ⟨2, 5, 7, ActionBody.nop, none⟩]
        [1, 2] 3 ⟨[7], []⟩ [] []).update (2 + 1) 5 =
      (Scheduler.mk
        [⟨1, 3, 7, ActionBody.scheduleCall 9 7 ActionBody.nop, none⟩,
         ⟨2, 5, 7, ActionBody.nop, none⟩]
        [1, 2] 3 ⟨[7], []⟩ [] []).update 2 5) ∧
    ∀ a ∈ ((Scheduler.mk
        [⟨1, 3, 7, ActionBody.scheduleCall 9 7 ActionBody.nop, none⟩,
         ⟨2, 5, 7, ActionBody.nop, none⟩]
        [1, 2] 3 ⟨[7], []⟩ [] []).update 2 5).queue,
      a.id ∈ ((Scheduler.mk
        [⟨1, 3, 7, ActionBody.scheduleCall 9 7 ActionBody.nop, none⟩,
         ⟨2, 5, 7, ActionBody.nop, none⟩]
        [1, 2] 3 ⟨[7], []⟩ [] []).update 2 5).activeActions → ¬ a.tick ≤ 5 :=
  ⟨(c8_update_terminates.1
      (Scheduler.mk
        [⟨1, 3, 7, ActionBody.scheduleCall 9 7 ActionBody.nop, none⟩,
         ⟨2, 5, 7, ActionBody.nop, none⟩]
        [1, 2] 3 ⟨[7], []⟩ [] []) 5 2
      (by unfold SchedulerWf; decide)
      (by unfold FutureSafe; decide)
      (by unfold dueCount; decide)).1 1,
    (c8_update_terminates.1
      (Scheduler.mk
        [⟨1, 3, 7, ActionBody.scheduleCall 9 7 ActionBody.nop, none⟩,
         ⟨2, 5, 7, ActionBody.nop, none⟩]
        [1, 2] 3 ⟨[7], []⟩ [] []) 5 2
      (by unfold SchedulerWf; decide)
      (by unfold FutureSafe; decide)
      (by unfold dueCount; decide)).2⟩

/-- C9: after `clear` on either scheduler no previously scheduled,
not-yet-executed item's body ever runs (conjuncts 2 and 4, over any
continuation), and any `update` applied right after `clear`, at any
tick and with any fuel, returns the state unchanged — so it invokes no
callbacks — until new items are scheduled (conjuncts 1 and 3). -/
theorem c9_clear_noop :
    (∀ (s : Scheduler) (fuel : Nat) (t : Int), s.clear.update fuel t = s.clear) ∧
    (∀ (s : Scheduler) (ops : List SchedOp) (id : Nat),
      id < s.nextActionId → id ∉ s.execLog → id ∉ (s.clear.run ops).execLog) ∧
    (∀ (s : TimedEventScheduler) (fuel : Nat) (t : Int),
      s.clear.update fuel t = s.clear) ∧
    (∀ (s : TimedEventScheduler) (ops : List EventOp) (id : Nat),
      id < s.nextEventId → id ∉ s.execLog → id ∉ (s.clear.run ops).execLog) := by
  refine ⟨?_, ?_, ?_, ?_⟩
  · intro s fuel t
    exact update_eq_of_noDue (noDue_nil (clear_queue s)) fuel
  · intro s ops id hlt hlog
    have hret : Retired id s.clear := by
      refine ⟨by rw [clear_nextId]; exact hlt, ?_, by rw [clear_execLog]; exact hlog⟩
      rw [clear_active]
      exact List.not_mem_nil id
    exact (run_retired hret ops).2.2
  · intro s fuel t
    exact eUpdate_eq_of_noDue (eNoDue_nil (eclear_queue s)) fuel
  · intro s ops id hlt hlog
    have hret : EventRetired id s.clear := by
      refine ⟨by rw [eclear_nextId]; exact hlt, ?_, by rw [eclear_execLog]; exact hlog⟩
      rw [eclear_active]
      exact List.not_mem_nil id
    exact (eRun_retired hret ops).2.2

/-- Witness for C9: clear a scheduler holding a due pending action
(id 1, tick 3); a later update at tick 10 never executes it. -/
theorem c9_clear_noop_witness :
    1 ∉ (((Scheduler.mk [⟨1, 3, 7, ActionBody.dealDamage 10, none⟩] [1] 2
        ⟨[7], []⟩ [] []).clear).run [SchedOp.upd 10 10]).execLog :=
  c9_clear_noop.2.1
    (Scheduler.mk [⟨1, 3, 7, ActionBody.dealDamage 10, none⟩] [1] 2 ⟨[7], []⟩ [] [])
    [SchedOp.upd 10 10] 1 (by decide) (by decide)

/-- C10: when `update` pops a due, still-active action whose entity is
invalid, the id is erased from the active set although nothing
executed; consequently a later `cancel` of that id returns false, and
the id never appears in the execution log under any continuation. -/
theorem c10_invalid_discard_retires_id :
    ∀ (s : Scheduler) (a : ScheduledAction) (rest : List ScheduledAction)
      (ops : List SchedOp),
      SchedulerInv s → s.queue = a :: rest → a.id ∈ s.activeActions →
      a.entity ∉ s.registry.alive →
      a.id ∉ s.updateStep.activeActions ∧
      (s.updateStep.cancel a.id).1 = false ∧
      a.id ∉ (s.updateStep.run ops).execLog := by
  intro s a rest ops hs hq hact hval
  obtain ⟨hwf, hln, hlq, hla⟩ := hs
  have hstep := updateStep_invalid hq hact hval
  have hnact : a.id ∉ s.updateStep.activeActions := by
    rw [hstep]
    intro hmem
    have := (List.mem_filter.mp hmem).2
    simp at this
  have hlt : a.id < s.updateStep.nextActionId := by
    have h1 := (hwf.2.2.2.1 a (by rw [hq]; exact List.mem_cons_self a rest)).2
    have h2 := updateStep_nextId_le s
    omega
  have hlog : a.id ∉ s.updateStep.execLog := by
    rw [hstep]
    intro hmem
    exact hlq a.id hmem (by rw [hq]; exact List.mem_map_of_mem _ (List.mem_cons_self a rest))
  refine ⟨hnact, by rw [cancel_neg hnact], ?_⟩
  exact (run_retired ⟨hlt, hnact, hlog⟩ ops).2.2

/-- Witness for C10: a due action (id 1) on the absent entity 9 is
popped; afterwards `cancel 1` returns false and id 1 never executes. -/
theorem c10_invalid_discard_retires_id_witness :
    ((Scheduler.mk [⟨1, 5, 9, ActionBody.dealDamage 10, none⟩] [1] 2
        ⟨[7], []⟩ [] []).updateStep.cancel 1).1 = false ∧
    1 ∉ ((Scheduler.mk [⟨1, 5, 9, ActionBody.dealDamage 10, none⟩] [1] 2
        ⟨[7], []⟩ [] []).updateStep.run [SchedOp.upd 5 5]).execLog :=
  ⟨(c10_invalid_discard_retires_id
      (Scheduler.mk [⟨1, 5, 9, ActionBody.dealDamage 10, none⟩] [1] 2 ⟨[7], []⟩ [] [])
      ⟨1, 5, 9, ActionBody.dealDamage 10, none⟩ [] [SchedOp.upd 5 5]
      (by unfold SchedulerInv SchedulerWf; decide) rfl (by decide) (by decide)).2.1,
    (c10_invalid_discard_retires_id
      (Scheduler.mk [⟨1, 5, 9, ActionBody.dealDamage 10, none⟩] [1] 2 ⟨[7], []⟩ [] [])
      ⟨1, 5, 9, ActionBody.dealDamage 10, none⟩ [] [SchedOp.upd 5 5]
      (by unfold SchedulerInv SchedulerWf; decide) rfl (by decide) (by decide)).2.2⟩

/-! ### Bit-faithful uint32_t id allocation

`ActionID` and `EventID` are `uint32_t` (Scheduler.h:19,
TimedEventScheduler.h:19) and the allocation sites use `nextActionId++`
/ `nextEventId++` (Scheduler.h:103, TimedEventScheduler.h:210), so the
counters wrap modulo 2^32.  The definitions below repeat the scheduler
operations with the increment modelled exactly; they differ from the
primary model only at the increment.  They are used to exhibit what the
program does once 2^32 ids have been allocated. -/

/-- `Scheduler::schedule` with the `uint32_t` increment modelled
exactly: `nextActionId++` wraps modulo 2^32. -/
def Scheduler.scheduleWrap (s : Scheduler) (tick : Int) (entity : Nat)
    (action : ActionBody) (onComplete : Option ActionBody) : Nat × Scheduler :=
  let actionId := s.nextActionId
  (actionId,
    { s with
      queue := pushQueue
        { id := actionId, tick := tick, entity := entity,
          action := action, onComplete := onComplete } s.queue,
      activeActions :=
        if actionId ∈ s.activeActions then s.activeActions
        else actionId :: s.activeActions,
      nextActionId := (s.nextActionId + 1) % 4294967296 })

/-- `TimedEventScheduler::scheduleEvent` with the `uint32_t` increment
modelled exactly. -/
def TimedEventScheduler.scheduleEventWrap (s : TimedEventScheduler) (tick : Int)
    (priority : Int) (name : String) (body : EventBody) :
    Nat × TimedEventScheduler :=
  let eventId := s.nextEventId
  (eventId,
    { s with
      eventQueue := pushEventQueue
        { id := eventId, tick := tick, name := name, priority := priority,
          body := body } s.eventQueue,
      activeEvents :=
        if eventId ∈ s.activeEvents then s.activeEvents
        else eventId :: s.activeEvents,
      nextEventId := (s.nextEventId + 1) % 4294967296 })

/-- Callback interpretation over the wrapping allocator. -/
def runActionBodyWrap : ActionBody → Nat → Nat → Scheduler → Scheduler
  | .nop, _, _, s => s
  | .dealDamage amt, _, e, s => { s with registry := s.registry.applyDamage e amt }
  | .destroyEntity x, _, _, s => { s with registry := s.registry.destroy x }
  | .cancelCall i, _, _, s => (s.cancel i).2
  | .scheduleCall t ent act, _, _, s => (s.scheduleWrap t ent act none).2
  | .scheduleCallOC t ent act oc, _, _, s => (s.scheduleWrap t ent act (some oc)).2
  | .clearCall, _, _, s => s.clear
  | .seq b₁ b₂, i, e, s => runActionBodyWrap b₂ i e (runActionBodyWrap b₁ i e s)

/-- One `update` loop iteration over the wrapping allocator. -/
def Scheduler.updateStepWrap (s : Scheduler) : Scheduler :=
  match s.queue with
  | [] => s
  | a :: rest =>
    let s₀ : Scheduler := { s with queue := rest }
    if a.id ∈ s₀.activeActions then
      if a.entity ∈ s₀.registry.alive then
        let s₁ : Scheduler := { s₀ with execLog := s₀.execLog ++ [a.id] }
        let s₂ : Scheduler := runActionBodyWrap a.action a.id a.entity s₁
        let s₃ : Scheduler := { s₂ with dispatched := s₂.dispatched ++ [(a.id, a.entity)] }
        let s₄ : Scheduler :=
          match a.onComplete with
          | none => s₃
          | some oc => runActionBodyWrap oc a.id a.entity s₃
        { s₄ with activeActions := s₄.activeActions.filter (fun i => i != a.id) }
      else
        { s₀ with activeActions := s₀.activeActions.filter (fun i => i != a.id) }
    else s₀

/-- `Scheduler::update` over the wrapping allocator. -/
def Scheduler.updateWrap (s : Scheduler) (fuel : Nat) (current_tick : Int) : Scheduler :=
  match fuel with
  | 0 => s
  | f + 1 =>
    match s.queue with
    | [] => s
    | a :: _ =>
      if a.tick ≤ current_tick then s.updateStepWrap.updateWrap f current_tick else s

/-- Apply one client operation over the wrapping allocator. -/
def Scheduler.applyOpWrap (s : Scheduler) : SchedOp → Scheduler
  | .sched t e a oc => (s.scheduleWrap t e a oc).2
  | .canc id => (s.cancel id).2
  | .upd fuel t => s.updateWrap fuel t
  | .clr => s.clear

/-- Run a sequence of client operations over the wrapping allocator. -/
def Scheduler.runWrap (s : Scheduler) : List SchedOp → Scheduler
  | [] => s
  | op :: ops => (s.applyOpWrap op).runWrap ops

/-- A block of `n` identical dummy schedule calls at tick `T` on entity
`e`, used to drive the `uint32_t` counter around its range. -/
def schedFlood (T : Int) (e : Nat) (n : Nat) : List SchedOp :=
  List.replicate n (SchedOp.sched T e ActionBody.nop none)

theorem scheduleWrap_fst (s : Scheduler) (t : Int) (e : Nat) (b : ActionBody)
    (oc : Option ActionBody) : (s.scheduleWrap t e b oc).1 = s.nextActionId := rfl

theorem scheduleWrap_queue (s : Scheduler) (t : Int) (e : Nat) (b : ActionBody)
    (oc : Option ActionBody) :
    (s.scheduleWrap t e b oc).2.queue =
      pushQueue ⟨s.nextActionId, t, e, b, oc⟩ s.queue := rfl

theorem scheduleWrap_active (s : Scheduler) (t : Int) (e : Nat) (b : ActionBody)
    (oc : Option ActionBody) :
    (s.scheduleWrap t e b oc).2.activeActions =
      (if s.nextActionId ∈ s.activeActions then s.activeActions
       else s.nextActionId :: s.activeActions) := rfl

theorem scheduleWrap_nextId (s : Scheduler) (t : Int) (e : Nat) (b : ActionBody)
    (oc : Option ActionBody) :
    (s.scheduleWrap t e b oc).2.nextActionId = (s.nextActionId + 1) % 4294967296 := rfl

theorem scheduleWrap_registry (s : Scheduler) (t : Int) (e : Nat) (b : ActionBody)
    (oc : Option ActionBody) : (s.scheduleWrap t e b oc).2.registry = s.registry := rfl

theorem scheduleWrap_execLog (s : Scheduler) (t : Int) (e : Nat) (b : ActionBody)
    (oc : Option ActionBody) : (s.scheduleWrap t e b oc).2.execLog = s.execLog := rfl

theorem runWrap_nil (s : Scheduler) : s.runWrap [] = s := rfl

theorem runWrap_cons (s : Scheduler) (op : SchedOp) (ops : List SchedOp) :
    s.runWrap (op :: ops) = (s.applyOpWrap op).runWrap ops := rfl

theorem pushQueue_all_gt {a : ScheduledAction} {q : List ScheduledAction}
    (h : ∀ x ∈ q, a.tick < x.tick) : pushQueue a q = a :: q := by
  cases q with
  | nil => rfl
  | cons b l =>
    simp only [pushQueue]
    rw [if_pos]
    simp only [actionBefore, decide_eq_true_eq]
    exact h b (List.mem_cons_self b l)

theorem pushQueue_keep_head {x a : ScheduledAction} {l : List ScheduledAction}
    (h : ¬ x.tick < a.tick) : pushQueue x (a :: l) = a :: pushQueue x l := by
  simp only [pushQueue]
  rw [if_neg]
  simp only [actionBefore, decide_eq_true_eq]
  exact h

theorem schedFlood_succ (T : Int) (e : Nat) (n : Nat) :
    schedFlood T e (n + 1) = SchedOp.sched T e ActionBody.nop none :: schedFlood T e n := by
  simp [schedFlood, List.replicate_succ]

theorem runWrap_schedFlood_execLog (T : Int) (e : Nat) :
    ∀ (n : Nat) (s : Scheduler),
      (s.runWrap (schedFlood T e n)).execLog = s.execLog := by
  intro n
  induction n with
  | zero => intro s; rfl
  | succ m ih =>
    intro s
    rw [schedFlood_succ, runWrap_cons]
    rw [ih]
    exact scheduleWrap_execLog s T e ActionBody.nop none

theorem runWrap_schedFlood_registry (T : Int) (e : Nat) :
    ∀ (n : Nat) (s : Scheduler),
      (s.runWrap (schedFlood T e n)).registry = s.registry := by
  intro n
  induction n with
  | zero => intro s; rfl
  | succ m ih =>
    intro s
    rw [schedFlood_succ, runWrap_cons]
    rw [ih]
    exact scheduleWrap_registry s T e ActionBody.nop none

theorem runWrap_schedFlood_nextId (T : Int) (e : Nat) :
    ∀ (n : Nat) (s : Scheduler), s.nextActionId < 4294967296 →
      (s.runWrap (schedFlood T e n)).nextActionId =
        (s.nextActionId + n) % 4294967296 := by
  intro n
  induction n with
  | zero =>
    intro s hs
    show s.nextActionId = (s.nextActionId + 0) % 4294967296
    omega
  | succ m ih =>
    intro s hs
    rw [schedFlood_succ, runWrap_cons]
    have h1 : (s.applyOpWrap (SchedOp.sched T e ActionBody.nop none)).nextActionId =
        (s.nextActionId + 1) % 4294967296 := rfl
    have h2 := ih (s.applyOpWrap (SchedOp.sched T e ActionBody.nop none)) (by omega)
    rw [h2, h1]
    omega

theorem runWrap_schedFlood_active (T : Int) (e : Nat) :
    ∀ (n : Nat) (s : Scheduler) (id : Nat), s.nextActionId < 4294967296 →
      id ∉ s.activeActions →
      (∀ k, k < n → (s.nextActionId + k) % 4294967296 ≠ id) →
      id ∉ (s.runWrap (schedFlood T e n)).activeActions := by
  intro n
  induction n with
  | zero =>
    intro s id _ hact _
    exact hact
  | succ m ih =>
    intro s id hs hact hk
    rw [schedFlood_succ, runWrap_cons]
    have hne : s.nextActionId ≠ id := by
      have := hk 0 (by omega)
      omega
    have hact1 : id ∉ (s.applyOpWrap (SchedOp.sched T e ActionBody.nop none)).activeActions := by
      show id ∉ (s.scheduleWrap T e ActionBody.nop none).2.activeActions
      rw [scheduleWrap_active]
      by_cases hmem : s.nextActionId ∈ s.activeActions
      · rw [if_pos hmem]; exact hact
      · rw [if_neg hmem]
        intro hmem2
        rcases List.mem_cons.mp hmem2 with rfl | hmem2
        · exact hne rfl
        · exact hact hmem2
    refine ih (s.applyOpWrap (SchedOp.sched T e ActionBody.nop none)) id (by
        show (s.nextActionId + 1) % 4294967296 < 4294967296
        omega) hact1 ?_
    intro k hkm
    have h1 : (s.applyOpWrap (SchedOp.sched T e ActionBody.nop none)).nextActionId =
        (s.nextActionId + 1) % 4294967296 := rfl
    rw [h1]
    have := hk (k + 1) (by omega)
    omega

theorem runWrap_schedFlood_head (T : Int) (e : Nat) :
    ∀ (n : Nat) (s : Scheduler) (a : ScheduledAction) (l : List ScheduledAction),
      s.queue = a :: l → ¬ T < a.tick →
      ∃ l₂, (s.runWrap (schedFlood T e n)).queue = a :: l₂ := by
  intro n
  induction n with
  | zero =>
    intro s a l hq _
    exact ⟨l, hq⟩
  | succ m ih =>
    intro s a l hq hT
    rw [schedFlood_succ, runWrap_cons]
    have hq1 : (s.applyOpWrap (SchedOp.sched T e ActionBody.nop none)).queue =
        a :: pushQueue ⟨s.nextActionId, T, e, ActionBody.nop, none⟩ l := by
      show (s.scheduleWrap T e ActionBody.nop none).2.queue = _
      rw [scheduleWrap_queue, hq]
      exact pushQueue_keep_head hT
    exact ih _ a _ hq1 hT

theorem runWrap_schedFlood_ticks (T : Int) (e : Nat) :
    ∀ (n : Nat) (s : Scheduler), (∀ x ∈ s.queue, x.tick = T) →
      ∀ x ∈ (s.runWrap (schedFlood T e n)).queue, x.tick = T := by
  intro n
  induction n with
  | zero =>
    intro s hq
    exact hq
  | succ m ih =>
    intro s hq
    rw [schedFlood_succ, runWrap_cons]
    refine ih _ ?_
    intro x hx
    have hx2 : x ∈ (s.scheduleWrap T e ActionBody.nop none).2.queue := hx
    rw [scheduleWrap_queue] at hx2
    rcases mem_pushQueue.mp hx2 with rfl | hx2
    · rfl
    · exact hq x hx2

theorem runActionBodyWrap_execLog (b : ActionBody) (i e : Nat) (s : Scheduler) :
    (runActionBodyWrap b i e s).execLog = s.execLog := by
  induction b generalizing s with
  | seq b₁ b₂ ih₁ ih₂ =>
    simp only [runActionBodyWrap]
    rw [ih₂, ih₁]
  | _ =>
    simp only [runActionBodyWrap, scheduleWrap_execLog, cancel_execLog, clear_execLog]

/-- The executed-case result of one wrap-model loop iteration. -/
def execResultWrap (s : Scheduler) (a : ScheduledAction)
    (rest : List ScheduledAction) : Scheduler :=
  let s₁ : Scheduler := { s with queue := rest, execLog := s.execLog ++ [a.id] }
  let s₂ : Scheduler := runActionBodyWrap a.action a.id a.entity s₁
  let s₃ : Scheduler := { s₂ with dispatched := s₂.dispatched ++ [(a.id, a.entity)] }
  let s₄ : Scheduler :=
    match a.onComplete with
    | none => s₃
    | some oc => runActionBodyWrap oc a.id a.entity s₃
  { s₄ with activeActions := s₄.activeActions.filter (fun i => i != a.id) }

theorem updateStepWrap_exec {s : Scheduler} {a : ScheduledAction}
    {rest : List ScheduledAction} (h : s.queue = a :: rest)
    (hact : a.id ∈ s.activeActions) (hval : a.entity ∈ s.registry.alive) :
    s.updateStepWrap = execResultWrap s a rest := by
  obtain ⟨q, act, nid, reg, disp, log⟩ := s
  change q = a :: rest at h
  change a.id ∈ act at hact
  change a.entity ∈ reg.alive at hval
  subst h
  simp only [Scheduler.updateStepWrap]
  rw [if_pos hact, if_pos hval]
  rfl

theorem execResultWrap_execLog (s : Scheduler) (a : ScheduledAction)
    (rest : List ScheduledAction) :
    (execResultWrap s a rest).execLog = s.execLog ++ [a.id] := by
  show (match a.onComplete with
    | none => _
    | some oc => _ : Scheduler).execLog = _
  cases a.onComplete with
  | none =>
    show (({ runActionBodyWrap a.action a.id a.entity
      { s with queue := rest, execLog := s.execLog ++ [a.id] } with
        dispatched := _ } : Scheduler)).execLog = _
    rw [runActionBodyWrap_execLog]
  | some oc =>
    show (runActionBodyWrap oc a.id a.entity _).execLog = _
    rw [runActionBodyWrap_execLog]
    show (({ runActionBodyWrap a.action a.id a.entity
      { s with queue := rest, execLog := s.execLog ++ [a.id] } with
        dispatched := _ } : Scheduler)).execLog = _
    rw [runActionBodyWrap_execLog]

theorem updateWrap_zero (s : Scheduler) (t : Int) : s.updateWrap 0 t = s := rfl

theorem updateWrap_succ_due {s : Scheduler} {a : ScheduledAction}
    {q : List ScheduledAction} (f : Nat) (t : Int) (h : s.queue = a :: q)
    (hdue : a.tick ≤ t) : s.updateWrap (f + 1) t = s.updateStepWrap.updateWrap f t := by
  obtain ⟨q0, act, nid, reg, disp, log⟩ := s
  change q0 = a :: q at h
  subst h
  show (if a.tick ≤ t then _ else _) = _
  rw [if_pos hdue]

theorem wrap_fresh_schedule_executes {s₂ : Scheduler} (t0 : Int) (e0 : Nat) (t : Int)
    (hq : ∀ x ∈ s₂.queue, t0 < x.tick) (hval : e0 ∈ s₂.registry.alive) (ht : t0 ≤ t) :
    (s₂.runWrap [SchedOp.sched t0 e0 ActionBody.nop none, SchedOp.upd 1 t]).execLog =
      s₂.execLog ++ [s₂.nextActionId] := by
  rw [runWrap_cons, runWrap_cons, runWrap_nil]
  show ((s₂.scheduleWrap t0 e0 ActionBody.nop none).2.updateWrap 1 t).execLog = _
  have hq3 : (s₂.scheduleWrap t0 e0 ActionBody.nop none).2.queue =
      (⟨s₂.nextActionId, t0, e0, ActionBody.nop, none⟩ : ScheduledAction) :: s₂.queue := by
    rw [scheduleWrap_queue]
    exact pushQueue_all_gt hq
  have hact3 : (⟨s₂.nextActionId, t0, e0, ActionBody.nop, none⟩ : ScheduledAction).id ∈
      (s₂.scheduleWrap t0 e0 ActionBody.nop none).2.activeActions := by
    rw [scheduleWrap_active]
    by_cases hmem : s₂.nextActionId ∈ s₂.activeActions
    · rw [if_pos hmem]; exact hmem
    · rw [if_neg hmem]; exact List.mem_cons_self _ _
  have hval3 : (⟨s₂.nextActionId, t0, e0, ActionBody.nop, none⟩ : ScheduledAction).entity ∈
      (s₂.scheduleWrap t0 e0 ActionBody.nop none).2.registry.alive := by
    rw [scheduleWrap_registry]
    exact hval
  rw [updateWrap_succ_due 0 t hq3 ht, updateWrap_zero,
    updateStepWrap_exec hq3 hact3 hval3, execResultWrap_execLog, scheduleWrap_execLog]

theorem wrap_reissued_id_executes {s₂ : Scheduler} {a : ScheduledAction}
    {l₂ : List ScheduledAction} (t1 : Int) (e1 : Nat) (t : Int)
    (hq2 : s₂.queue = a :: l₂) (hnid : s₂.nextActionId = a.id)
    (hact : a.id ∉ s₂.activeActions) (hval : a.entity ∈ s₂.registry.alive)
    (htick : a.tick ≤ t) (hT : ¬ t1 < a.tick) :
    (s₂.runWrap [SchedOp.sched t1 e1 ActionBody.nop none, SchedOp.upd 1 t]).execLog =
      s₂.execLog ++ [a.id] := by
  rw [runWrap_cons, runWrap_cons, runWrap_nil]
  show ((s₂.scheduleWrap t1 e1 ActionBody.nop none).2.updateWrap 1 t).execLog = _
  have hq3 : (s₂.scheduleWrap t1 e1 ActionBody.nop none).2.queue =
      a :: pushQueue ⟨s₂.nextActionId, t1, e1, ActionBody.nop, none⟩ l₂ := by
    rw [scheduleWrap_queue, hq2]
    exact pushQueue_keep_head hT
  have hact3 : a.id ∈ (s₂.scheduleWrap t1 e1 ActionBody.nop none).2.activeActions := by
    rw [scheduleWrap_active, hnid, if_neg hact]
    exact List.mem_cons_self _ _
  have hval3 : a.entity ∈ (s₂.scheduleWrap t1 e1 ActionBody.nop none).2.registry.alive := by
    rw [scheduleWrap_registry]
    exact hval
  rw [updateWrap_succ_due 0 t hq3 htick, updateWrap_zero,
    updateStepWrap_exec hq3 hact3 hval3, execResultWrap_execLog, scheduleWrap_execLog]

/-- C1: the program violates at-most-once execution per id.  With the
`uint32_t` increment modelled exactly, the failing run schedules an
action at tick 1 (id 1) and executes it, floods the scheduler with
4294967295 future-tick schedules so the counter wraps back to 1,
schedules again (the action is re-issued id 1) and updates — the ghost
log then holds id 1 twice: the action body for id 1 was invoked twice
over the scheduler's lifetime. -/
theorem c1_wrap_double_execution :
    ((((Scheduler.init ⟨[7], []⟩).runWrap
        [SchedOp.sched 1 7 ActionBody.nop none, SchedOp.upd 1 1]).runWrap
        (schedFlood 10 7 4294967295)).runWrap
        [SchedOp.sched 1 7 ActionBody.nop none, SchedOp.upd 1 1]).execLog.count 1 = 2 := by
  have h0 : (Scheduler.init ⟨[7], []⟩).runWrap
      [SchedOp.sched 1 7 ActionBody.nop none, SchedOp.upd 1 1] =
      Scheduler.mk [] [] 2 ⟨[7], []⟩ [(1, 7)] [1] := by decide
  rw [h0]
  have hticks := runWrap_schedFlood_ticks 10 7 4294967295
    (Scheduler.mk [] [] 2 ⟨[7], []⟩ [(1, 7)] [1])
    (by intro x hx; exact absurd hx (List.not_mem_nil x))
  have hq : ∀ x ∈ ((Scheduler.mk [] [] 2 ⟨[7], []⟩ [(1, 7)] [1]).runWrap
      (schedFlood 10 7 4294967295)).queue, (1 : Int) < x.tick := by
    intro x hx
    rw [hticks x hx]
    decide
  have hval : (7 : Nat) ∈ ((Scheduler.mk [] [] 2 ⟨[7], []⟩ [(1, 7)] [1]).runWrap
      (schedFlood 10 7 4294967295)).registry.alive := by
    rw [runWrap_schedFlood_registry]
    decide
  have hmain := wrap_fresh_schedule_executes 1 7 1 hq hval (by decide)
  rw [hmain, runWrap_schedFlood_execLog]
  have hnid : ((Scheduler.mk [] [] 2 ⟨[7], []⟩ [(1, 7)] [1]).runWrap
      (schedFlood 10 7 4294967295)).nextActionId = 1 := by
    rw [runWrap_schedFlood_nextId 10 7 4294967295 _ (by decide)]
    decide
  rw [hnid]
  decide

/-- C2: the program violates cancellation permanence.  With the
`uint32_t` increment modelled exactly, the failing run schedules an
action at tick 5 (id 1), cancels it before any execution (`cancel`
returns true), floods the scheduler with 4294967295 future-tick
schedules so the counter wraps back to 1, schedules once more (which
re-issues id 1 and re-inserts it into the active set) and updates at
tick 5 — the previously cancelled, still-queued action then executes:
its id appears in the execution log. -/
theorem c2_wrap_cancelled_executes :
    (((Scheduler.init ⟨[7], []⟩).runWrap
        [SchedOp.sched 5 7 ActionBody.nop none]).cancel 1).1 = true ∧
    1 ∈ (((((Scheduler.init ⟨[7], []⟩).runWrap
        [SchedOp.sched 5 7 ActionBody.nop none]).cancel 1).2.runWrap
        (schedFlood 10 7 4294967295)).runWrap
        [SchedOp.sched 20 7 ActionBody.nop none, SchedOp.upd 1 5]).execLog := by
  have h0 : ((Scheduler.init ⟨[7], []⟩).runWrap
      [SchedOp.sched 5 7 ActionBody.nop none]).cancel 1 =
      (true, Scheduler.mk [⟨1, 5, 7, ActionBody.nop, none⟩] [] 2 ⟨[7], []⟩ [] []) := by
    decide
  constructor
  · rw [h0]
  · rw [h0]
    show 1 ∈ (((Scheduler.mk [⟨1, 5, 7, ActionBody.nop, none⟩] [] 2
        ⟨[7], []⟩ [] []).runWrap (schedFlood 10 7 4294967295)).runWrap
        [SchedOp.sched 20 7 ActionBody.nop none, SchedOp.upd 1 5]).execLog
    obtain ⟨l₂, hq2⟩ := runWrap_schedFlood_head 10 7 4294967295
      (Scheduler.mk [⟨1, 5, 7, ActionBody.nop, none⟩] [] 2 ⟨[7], []⟩ [] [])
      ⟨1, 5, 7, ActionBody.nop, none⟩ [] rfl (by decide)
    have hnid : ((Scheduler.mk [⟨1, 5, 7, ActionBody.nop, none⟩] [] 2
        ⟨[7], []⟩ [] []).runWrap (schedFlood 10 7 4294967295)).nextActionId = 1 := by
      rw [runWrap_schedFlood_nextId 10 7 4294967295 _ (by decide)]
      decide
    have hact : (1 : Nat) ∉ ((Scheduler.mk [⟨1, 5, 7, ActionBody.nop, none⟩] [] 2
        ⟨[7], []⟩ [] []).runWrap (schedFlood 10 7 4294967295)).activeActions := by
      refine runWrap_schedFlood_active 10 7 4294967295 _ 1 (by decide) (by decide) ?_
      intro k hk
      show (2 + k) % 4294967296 ≠ 1
      omega
    have hval : (7 : Nat) ∈ ((Scheduler.mk [⟨1, 5, 7, ActionBody.nop, none⟩] [] 2
        ⟨[7], []⟩ [] []).runWrap (schedFlood 10 7 4294967295)).registry.alive := by
      rw [runWrap_schedFlood_registry]
      decide
    have hmain := wrap_reissued_id_executes 20 7 5 hq2 hnid hact hval
      (by decide) (by decide)
    rw [hmain, runWrap_schedFlood_execLog]
    decide

/-- C7: the program violates lifetime id monotonicity, uniqueness and
nonzero-ness.  With the `uint32_t` increment modelled exactly, after
4294967295 schedule calls on a fresh scheduler (which return ids
1 .. 4294967295) the next schedule call returns id 0; and on the event
variant a `scheduleEvent` call that returns 4294967295 is followed by
one that returns 0 — not strictly increasing, and 0 is returned. -/
theorem c7_wrap_returns_zero :
    (((Scheduler.init ⟨[7], []⟩).runWrap
        (schedFlood 10 7 4294967295)).scheduleWrap 10 7 ActionBody.nop none).1 = 0 ∧
    ((TimedEventScheduler.mk [] [] 4294967295 []).scheduleEventWrap
        10 0 "" EventBody.nop).1 = 4294967295 ∧
    ((((TimedEventScheduler.mk [] [] 4294967295 []).scheduleEventWrap
        10 0 "" EventBody.nop).2).scheduleEventWrap 10 0 "" EventBody.nop).1 = 0 := by
  refine ⟨?_, by decide, by decide⟩
  rw [scheduleWrap_fst]
  rw [runWrap_schedFlood_nextId 10 7 4294967295 _ (by decide)]
  decide
